import Mathlib

/-!
# Verification of the piscina worker-thread pool

Shallow embedding of the TypeScript sources of the `piscina` worker pool:

* `src/common.ts` — the transferable / movable marking helpers
  (`isTransferable`, `isMovable`, `markMovable`);
* the main pool implementation — `TaskInfo`, `WorkerInfo`,
  `AsynchronouslyCreatedResourcePool` (here `ResourcePool`), `ThreadPool` and
  the option handling of the `ThreadPool` / `Piscina` constructors.

Modelling conventions:

* JavaScript numbers that hold integral counters are modelled as `Nat`;
  `maxQueue`, which may be `Infinity`, is modelled as `ℕ∞`; the thread-count
  *options* (whose defaults `cpuCount / 2` and `cpuCount * 1.5` may be
  fractional) are modelled as `ℚ` in the constructor model.
* The single-threaded, event-driven controller is modelled as an explicit
  state machine: every entry point that the Node.js event loop can invoke
  (`runTask`, a response message, a `ready` message, a worker `error` event,
  an abort signal firing, an idle timer firing, `destroy`) is one `Event`,
  and `Reachable` is the set of pool states reachable from the constructor's
  initial state through enabled events.
* Promises are modelled by their settled value (`Option SettleVal`, `none`
  while pending; a second settlement is a no-op, as for real promises).
  `TaskInfo` additionally carries specification-only (ghost) fields:
  `callbackCount` counts invocations of the completion callback
  (`TaskInfo.done`), `status` records the lifecycle stage, and `abortFired`
  records that the task's single-shot abort signal has fired.
* Fallible message sending (`port.postMessage` throwing) is modelled by a
  `sendOk : Bool` parameter on the events that can post a task.
* Histograms, timestamps, `useAtomics` polling and the worker-side loader are
  not modelled: no claim depends on them.  The `drain` event and async-hooks
  bookkeeping are likewise omitted.
-/

/-! ## `src/common.ts`: transferable marking -/

/-- A JavaScript object as far as `isTransferable` / `isMovable` /
`markMovable` can observe it: its string property keys (as seen by the `in`
operator) and the state of the module-private `kMovable` symbol slot.
`kMovable = true` models `value[kMovable] === true`; `kMovableEnumerable` is
the enumerability of that property when it is present. -/
structure JSObject where
  props : List String
  kMovable : Bool := false
  kMovableEnumerable : Bool := false
deriving DecidableEq

/-- A JavaScript value: `null`, `undefined`, a primitive, or an object. -/
inductive JSValue where
  | nullv
  | undefinedv
  | numberv (n : Int)
  | stringv (s : String)
  | boolv (b : Bool)
  | objectv (o : JSObject)
deriving DecidableEq

/-- `isTransferable`: `value != null && typeof value === 'object' &&
'transferable' in value`.  The loose `!= null` excludes both `null` and
`undefined`; primitives fail the `typeof` test. -/
def isTransferable : JSValue → Bool
  | .objectv o => ("transferable" ∈ o.props : Bool)
  | _ => false

/-- The value of `value[kMovable]` compared with `true`; property access on a
primitive yields `undefined`, which is not `true`. -/
def kMovableIsTrue : JSValue → Bool
  | .objectv o => o.kMovable
  | _ => false

/-- `isMovable`: `isTransferable(value) && value[kMovable] === true`. -/
def isMovable (v : JSValue) : Bool :=
  isTransferable v && kMovableIsTrue v

/-- `markMovable`: `Object.defineProperty(value, kMovable, { enumerable:
false, value: true })`, as the resulting object state. -/
def markMovable (o : JSObject) : JSObject :=
  { o with kMovable := true, kMovableEnumerable := false }

/-! ## Constructor option handling (`ThreadPool` / `Piscina` constructors)

`minThreads` / `maxThreads` options and their defaults are JavaScript
numbers; the defaults `Math.max(cpuCount / 2, 1)` and `cpuCount * 1.5` are
in general fractional, so this model uses `ℚ`.  `maxQueue` may additionally
be `Infinity` or the string `'auto'`. -/

/-- A caller-supplied `maxQueue` option: the string `'auto'` or a number
(possibly `Infinity`, hence `WithTop ℚ`). -/
inductive MaxQueueArg where
  | auto
  | val (v : WithTop ℚ)
deriving DecidableEq

/-- The caller-supplied options relevant to option normalization; `none`
means the option was omitted. -/
structure OptionsIn where
  minThreads : Option ℚ := none
  maxThreads : Option ℚ := none
  maxQueue : Option MaxQueueArg := none
deriving DecidableEq

/-- `kDefaultOptions.minThreads = Math.max(cpuCount / 2, 1)`. -/
def defaultMinThreads (cpuCount : ℚ) : ℚ := max (cpuCount / 2) 1

/-- `kDefaultOptions.maxThreads = cpuCount * 1.5`. -/
def defaultMaxThreads (cpuCount : ℚ) : ℚ := cpuCount * (3 / 2)

/-- `kDefaultOptions.maxQueue = Infinity`. -/
def defaultMaxQueue : WithTop ℚ := ⊤

/-- The thread-count and queue-bound fields of `this.options` after the
`ThreadPool` constructor finished normalizing. -/
structure FilledThreadOptions where
  minThreads : ℚ
  maxThreads : ℚ
  maxQueue : WithTop ℚ
deriving DecidableEq

/-- The option normalization performed by the `ThreadPool` constructor:
`this.options = { ...kDefaultOptions, ...options, filename, maxQueue: 0 }`
(the merged `maxQueue` is the dead value `0`, unconditionally reassigned
below), then the two bound clamps, then the `maxQueue` reassignment (`'auto'`
squares the already-clamped `maxThreads`; otherwise
`options.maxQueue ?? kDefaultOptions.maxQueue`). -/
def threadPoolOptions (cpuCount : ℚ) (o : OptionsIn) : FilledThreadOptions :=
  let minThreads0 := o.minThreads.getD (defaultMinThreads cpuCount)
  let maxThreads0 := o.maxThreads.getD (defaultMaxThreads cpuCount)
  let maxQueue0 : WithTop ℚ := 0
  -- if (options.maxThreads !== undefined && this.options.minThreads >= options.maxThreads)
  let minThreads1 := match o.maxThreads with
    | some mt => if minThreads0 ≥ mt then mt else minThreads0
    | none => minThreads0
  -- if (options.minThreads !== undefined && this.options.maxThreads <= options.minThreads)
  let maxThreads1 := match o.minThreads with
    | some mn => if maxThreads0 ≤ mn then mn else maxThreads0
    | none => maxThreads0
  let maxQueue1 := match o.maxQueue with
    | some .auto => ((maxThreads1 * maxThreads1 : ℚ) : WithTop ℚ)
    | some (.val v) => v
    | none => defaultMaxQueue
  -- maxQueue0 is dead, exactly as in the source
  let _ := maxQueue0
  { minThreads := minThreads1, maxThreads := maxThreads1, maxQueue := maxQueue1 }

/-- The `minThreads` / `maxThreads` validation of the `Piscina` constructor:
`true` iff it throws.  (The `typeof` checks are vacuous here because the
model's option values are already numbers.) -/
def piscinaConstructorThrows (o : OptionsIn) : Bool :=
  (match o.minThreads with | some v => decide (v < 0) | none => false) ||
  (match o.maxThreads with | some v => decide (v < 1) | none => false) ||
  (match o.minThreads, o.maxThreads with
   | some mn, some mx => decide (mn > mx)
   | _, _ => false)

/-! ## The pool state machine -/

/-- The members of the `Errors` taxonomy, plus the error classes raised on
the other completion paths. -/
inductive PoolError where
  | threadTermination
  | taskQueueAtLimit
  | noTaskQueueAvailable
  | abortError
  | sendError
  | workerError
deriving DecidableEq

/-- The settled value of a submission's promise. -/
inductive SettleVal where
  | resolved
  | rejected (e : PoolError)
deriving DecidableEq

/-- Specification-only lifecycle stage of a task descriptor. -/
inductive TStatus where
  | created           -- freshly constructed, not yet routed (transient)
  | queuedS           -- sitting in `taskQueue`
  | running           -- posted to a worker, present in its task map
  | doneCb            -- the completion callback (`TaskInfo.done`) has run
  | abortedFromQueue  -- aborted while queued: rejected without the callback
  | rejectedAtSubmit  -- `runTask` returned an early `Promise.reject`
deriving DecidableEq

/-- `TaskInfo`: one task descriptor.  `abortable` records whether an abort
signal was supplied; `workerInfo` is the owning worker's id (`null` until
dispatched, never reset).  `callbackCount`, `promise`, `abortFired` and
`status` are ghost fields (see the file comment). -/
structure TaskInfo where
  taskId : Nat
  abortable : Bool
  workerInfo : Option Nat := none
  callbackCount : Nat := 0
  promise : Option SettleVal := none
  abortFired : Bool := false
  status : TStatus := .created
deriving DecidableEq

/-- `WorkerInfo`: one worker handle.  `taskInfos` is the task map as an
association list `taskId ↦ (task has an abort signal)`; `ready` is
`isReady()`; `idleTimeout` records a pending idle timer; `refed` is the port
ref state; `sharedRequestCount` is `sharedBuffer[kRequestCountField]` and
`notifyCount` counts `Atomics.notify` wake notifications. -/
structure WorkerInfo where
  wid : Nat
  taskInfos : List (Nat × Bool) := []
  ready : Bool := false
  idleTimeout : Bool := false
  refed : Bool := true
  sharedRequestCount : Nat := 0
  notifyCount : Nat := 0
deriving DecidableEq

/-- `WorkerInfo.isRunningAbortableTask`: the task map holds exactly one
descriptor and that descriptor has an abort signal. -/
def WorkerInfo.isRunningAbortableTask (w : WorkerInfo) : Bool :=
  match w.taskInfos with
  | [(_, ab)] => ab
  | _ => false

/-- `WorkerInfo.currentUsage`: `Infinity` while running an abortable task,
otherwise the task-map size. -/
def WorkerInfo.currentUsage (w : WorkerInfo) : ℕ∞ :=
  if w.isRunningAbortableTask then ⊤ else (w.taskInfos.length : ℕ∞)

/-- `AsynchronouslyCreatedResourcePool`: the two insertion-ordered sets of
pending and ready workers. -/
structure ResourcePool where
  pendingItems : List WorkerInfo := []
  readyItems : List WorkerInfo := []
deriving DecidableEq

/-- `size = pendingItems.size + readyItems.size`. -/
def ResourcePool.size (rp : ResourcePool) : Nat :=
  rp.pendingItems.length + rp.readyItems.length

/-- Iteration order of the pool: pending items, then ready items. -/
def ResourcePool.allItems (rp : ResourcePool) : List WorkerInfo :=
  rp.pendingItems ++ rp.readyItems

/-- Apply `f` to the worker with id `wid` (wherever it sits). -/
def ResourcePool.updateItem (rp : ResourcePool) (wid : Nat)
    (f : WorkerInfo → WorkerInfo) : ResourcePool :=
  { pendingItems := rp.pendingItems.map fun w => if w.wid = wid then f w else w,
    readyItems := rp.readyItems.map fun w => if w.wid = wid then f w else w }

/-- `AsynchronouslyCreatedResourcePool.delete`. -/
def ResourcePool.removeItem (rp : ResourcePool) (wid : Nat) : ResourcePool :=
  { pendingItems := rp.pendingItems.filter fun w => decide (w.wid ≠ wid),
    readyItems := rp.readyItems.filter fun w => decide (w.wid ≠ wid) }

/-- The accumulator loop of `findAvailable`: scan `readyItems` keeping the
candidate with the least usage seen so far (starting at `maximumUsage`),
returning immediately on usage `0`. -/
def findAvailableGo (maximumUsage : ℕ∞) :
    List WorkerInfo → Option WorkerInfo → ℕ∞ → Option WorkerInfo
  | [], candidate, _ => candidate
  | item :: rest, candidate, minUsage =>
    if item.currentUsage = 0 then some item
    else if item.currentUsage < minUsage then
      findAvailableGo maximumUsage rest (some item) item.currentUsage
    else
      findAvailableGo maximumUsage rest candidate minUsage

/-- `AsynchronouslyCreatedResourcePool.findAvailable`. -/
def findAvailable (readyItems : List WorkerInfo) (maximumUsage : ℕ∞) :
    Option WorkerInfo :=
  findAvailableGo maximumUsage readyItems none maximumUsage

/-- The normalized options the pool itself consumes.  (Realistic
configurations have integral thread counts; `maxQueue` may be `Infinity`.) -/
structure FilledOptions where
  minThreads : Nat
  maxThreads : Nat
  maxQueue : ℕ∞
  concurrentTasksPerWorker : Nat
deriving DecidableEq

/-- The controller-side state of `ThreadPool` (plus ghost bookkeeping:
`tasks` is the registry of every descriptor ever constructed,
`emittedErrors` counts `'error'` events emitted on the public interface). -/
structure ThreadPool where
  options : FilledOptions
  workers : ResourcePool := {}
  taskQueue : List Nat := []
  tasks : List TaskInfo := []
  nextTaskId : Nat := 0
  nextWorkerId : Nat := 0
  completed : Nat := 0
  workerFailsDuringBootstrap : Bool := false
  emittedErrors : Nat := 0
deriving DecidableEq

/-- Update the descriptor with id `tid` in the registry. -/
def updateTask (tid : Nat) (f : TaskInfo → TaskInfo) (p : ThreadPool) :
    ThreadPool :=
  { p with tasks := p.tasks.map fun t => if t.taskId = tid then f t else t }

/-- Update the worker with id `wid`. -/
def updateWorker (wid : Nat) (f : WorkerInfo → WorkerInfo) (p : ThreadPool) :
    ThreadPool :=
  { p with workers := p.workers.updateItem wid f }

/-- Settle a promise: the first settlement wins, later ones are no-ops
(`getD` keeps an existing settled value and installs `v` otherwise). -/
def settlePromise (v : SettleVal) (t : TaskInfo) : TaskInfo :=
  { t with promise := some (t.promise.getD v) }

/-- The effect of one `TaskInfo.done` invocation on the descriptor itself:
the callback ran once more, the promise settles with `v` unless already
settled, and the ghost status becomes `doneCb`. -/
def doneF (v : SettleVal) (t : TaskInfo) : TaskInfo :=
  settlePromise v { t with callbackCount := t.callbackCount + 1, status := .doneCb }

/-- The state change of one invocation of the completion callback
(`TaskInfo.done` running the callback built in `runTask`): bump the ghost
invocation counter, settle the promise with `v`, and increment the pool's
`completed` counter. -/
def ThreadPool.doneOn (p : ThreadPool) (tid : Nat) (v : SettleVal) :
    ThreadPool :=
  let p1 := updateTask tid (doneF v) p
  { p1 with completed := p1.completed + 1 }

/-- Find a worker handle by id (`pendingItems` first, as iteration does). -/
def ThreadPool.findWorker (p : ThreadPool) (wid : Nat) : Option WorkerInfo :=
  p.workers.allItems.find? fun w => w.wid == wid

/-- Find a task descriptor by id. -/
def ThreadPool.findTask (p : ThreadPool) (tid : Nat) : Option TaskInfo :=
  p.tasks.find? fun t => t.taskId == tid

/-- `WorkerInfo.postTask` at pool level.  `sendOk = false` models
`port.postMessage` throwing: the descriptor is completed with the send error
and nothing else changes.  On success the descriptor is recorded in the task
map, its owning worker is set, the port is reffed, any idle timer is
cleared, and the shared request counter is incremented and notified. -/
def ThreadPool.postTask (p : ThreadPool) (wid tid : Nat) (sendOk : Bool) :
    ThreadPool :=
  match p.findTask tid with
  | none => p  -- unreachable: postTask is only invoked with a live descriptor
  | some t =>
    if sendOk then
      let p1 := updateTask tid
        (fun t2 => { t2 with workerInfo := some wid, status := .running }) p
      updateWorker wid (fun w =>
        { w with taskInfos := w.taskInfos ++ [(tid, t.abortable)],
                 refed := true,
                 idleTimeout := false,
                 sharedRequestCount := w.sharedRequestCount + 1,
                 notifyCount := w.notifyCount + 1 }) p1
    else
      p.doneOn tid (.rejected .sendError)

/-- `WorkerInfo.destroy` plus `ThreadPool._removeWorker`: complete every
descriptor still in the task map with the thread-termination error, then
delete the handle from the pool. -/
def ThreadPool.removeWorker (p : ThreadPool) (wid : Nat) : ThreadPool :=
  match p.findWorker wid with
  | none => p
  | some w =>
    let p1 := w.taskInfos.foldl
      (fun acc e => acc.doneOn e.1 (.rejected .threadTermination)) p
    { p1 with workers := p1.workers.removeItem wid }

/-- `ThreadPool._addNewWorker`.  During constructor startup the new handle is
marked ready immediately and lands in `readyItems`; otherwise it is pending. -/
def ThreadPool.addNewWorker (p : ThreadPool) (markReady : Bool) : ThreadPool :=
  let w : WorkerInfo := { wid := p.nextWorkerId, ready := markReady }
  if markReady then
    { p with
      workers := { p.workers with readyItems := p.workers.readyItems ++ [w] },
      nextWorkerId := p.nextWorkerId + 1 }
  else
    { p with
      workers := { p.workers with pendingItems := p.workers.pendingItems ++ [w] },
      nextWorkerId := p.nextWorkerId + 1 }

/-- Fuel-indexed loop of `_ensureMinimumWorkers`. -/
def ThreadPool.ensureMinGo : Nat → ThreadPool → ThreadPool
  | 0, p => p
  | n + 1, p => ensureMinGo n (p.addNewWorker false)

/-- `ThreadPool._ensureMinimumWorkers`: spawn workers until the pool holds
`minThreads` of them. -/
def ThreadPool.ensureMinimumWorkers (p : ThreadPool) : ThreadPool :=
  ThreadPool.ensureMinGo (p.options.minThreads - p.workers.size) p

/-- `ThreadPool._onWorkerAvailable`.  The `while` loop body dispatches at
most one queued task (it ends in `return`); when nothing is dispatched, an
idle timer is armed for a completely idle supernumerary worker. -/
def ThreadPool.onWorkerAvailable (p : ThreadPool) (wid : Nat) (sendOk : Bool) :
    ThreadPool :=
  match p.findWorker wid with
  | none => p
  | some w =>
    match p.taskQueue with
    | tid :: rest =>
      if w.currentUsage < (p.options.concurrentTasksPerWorker : ℕ∞) then
        ThreadPool.postTask { p with taskQueue := rest } wid tid sendOk
      else if w.taskInfos.length = 0 ∧ p.options.minThreads < p.workers.size then
        updateWorker wid (fun w2 => { w2 with idleTimeout := true }) p
      else p
    | [] =>
      if w.taskInfos.length = 0 ∧ p.options.minThreads < p.workers.size then
        updateWorker wid (fun w2 => { w2 with idleTimeout := true }) p
      else p

/-- `AsynchronouslyCreatedResourcePool.maybeAvailable`: notify the
`onAvailable` listener (`_onWorkerAvailable`) when the worker's usage is
below the per-worker limit. -/
def ThreadPool.maybeAvailable (p : ThreadPool) (wid : Nat) (sendOk : Bool) :
    ThreadPool :=
  match p.findWorker wid with
  | none => p
  | some w =>
    if w.currentUsage < (p.options.concurrentTasksPerWorker : ℕ∞) then
      p.onWorkerAvailable wid sendOk
    else p

/-- `ThreadPool.pendingCapacity`. -/
def ThreadPool.pendingCapacity (p : ThreadPool) : Nat :=
  p.workers.pendingItems.length * p.options.concurrentTasksPerWorker

/-- How `runTask` routed the submission. -/
inductive RunOutcome where
  | rejectedEarly (e : PoolError)
  | enqueued
  | posted (wid : Nat)
deriving DecidableEq

/-- `ThreadPool.runTask` after filename validation (the filename check
precedes everything modelled here and is independent of it).  Builds the
descriptor, then: if the queue is non-empty, admit against
`maxQueue + pendingCapacity` or reject; otherwise select a worker with
`findAvailable` (discarding a loaded worker for abortable tasks), spawn a
new worker when allowed, and dispatch or enqueue or reject. -/
def ThreadPool.runTask (p : ThreadPool) (abortable sendOk : Bool) :
    ThreadPool × RunOutcome :=
  let tid := p.nextTaskId
  let p0 : ThreadPool :=
    { p with tasks := p.tasks ++ [{ taskId := tid, abortable := abortable }],
             nextTaskId := tid + 1 }
  if 0 < p0.taskQueue.length then
    if (p0.taskQueue.length : ℕ∞) ≥ p0.options.maxQueue + (p0.pendingCapacity : ℕ∞) then
      if p0.options.maxQueue = 0 then
        (updateTask tid (fun t => { t with status := .rejectedAtSubmit }) p0,
         .rejectedEarly .noTaskQueueAvailable)
      else
        (updateTask tid (fun t => { t with status := .rejectedAtSubmit }) p0,
         .rejectedEarly .taskQueueAtLimit)
    else
      let p1 := if p0.workers.size < p0.options.maxThreads
        then p0.addNewWorker false else p0
      (updateTask tid (fun t => { t with status := .queuedS })
         { p1 with taskQueue := p1.taskQueue ++ [tid] },
       .enqueued)
  else
    let found := findAvailable p0.workers.readyItems
      (p0.options.concurrentTasksPerWorker : ℕ∞)
    -- if we want the ability to abort, use only workers with no running tasks
    let chosen := match found with
      | some w => if 0 < w.currentUsage ∧ abortable then none else some w
      | none => none
    let waitingForNewWorker :=
      (match chosen with
       | none => true
       | some w => decide (0 < w.currentUsage)) &&
      decide (p0.workers.size < p0.options.maxThreads)
    let p1 := if waitingForNewWorker then p0.addNewWorker false else p0
    match chosen with
    | none =>
      if p1.options.maxQueue = 0 ∧ waitingForNewWorker = false then
        (updateTask tid (fun t => { t with status := .rejectedAtSubmit }) p1,
         .rejectedEarly .noTaskQueueAvailable)
      else
        (updateTask tid (fun t => { t with status := .queuedS })
           { p1 with taskQueue := p1.taskQueue ++ [tid] },
         .enqueued)
    | some w =>
      (p1.postTask w.wid tid sendOk, .posted w.wid)

/-- The `onMessage` response handler of `_addNewWorker` wrapped in
`WorkerInfo._handleResponse`: delete the descriptor from the task map,
signal `maybeAvailable` (which may dispatch a queued task to this worker),
complete the descriptor, and unref the port when the map emptied. -/
def ThreadPool.onResponse (p : ThreadPool) (wid tid : Nat) (ok sendOk : Bool) :
    ThreadPool :=
  let p1 := updateWorker wid
    (fun w => { w with taskInfos := w.taskInfos.filter fun e => e.1 != tid }) p
  let p2 := p1.maybeAvailable wid sendOk
  let p3 := p2.doneOn tid (if ok then .resolved else .rejected .workerError)
  match p3.findWorker wid with
  | some w =>
    if w.taskInfos.length = 0 then
      updateWorker wid (fun w2 => { w2 with refed := false }) p3
    else p3
  | none => p3

/-- The `ready` message handler: unref an idle worker, move the handle from
`pendingItems` to `readyItems` (`markAsReady` firing the pool's `onReady`
callback), and signal `maybeAvailable`. -/
def ThreadPool.onWorkerReady (p : ThreadPool) (wid : Nat) (sendOk : Bool) :
    ThreadPool :=
  match p.findWorker wid with
  | none => p
  | some w =>
    let w1 := if w.currentUsage = 0 then { w with refed := false } else w
    let p1 : ThreadPool :=
      { p with workers :=
        { pendingItems := p.workers.pendingItems.filter fun x => decide (x.wid ≠ wid),
          readyItems := p.workers.readyItems ++ [{ w1 with ready := true }] } }
    p1.maybeAvailable wid sendOk

/-- The `worker.on('error')` handler of `_addNewWorker`: snapshot and clear
the task map, remove the handle, replenish to `minThreads` when the handle
was ready and the sticky bootstrap-failure flag is unset (otherwise set the
sticky flag), then complete every snapshotted descriptor with the thrown
error — or, if there were none, emit the error on the public interface. -/
def ThreadPool.onWorkerError (p : ThreadPool) (wid : Nat) : ThreadPool :=
  match p.findWorker wid with
  | none => p
  | some w =>
    let p1 := updateWorker wid (fun w2 => { w2 with taskInfos := [] }) p
    let p2 := p1.removeWorker wid  -- the map was cleared: no callbacks fire here
    let p3 := if w.ready = true ∧ p.workerFailsDuringBootstrap = false
      then p2.ensureMinimumWorkers
      else { p2 with workerFailsDuringBootstrap := true }
    if 0 < w.taskInfos.length then
      w.taskInfos.foldl (fun acc e => acc.doneOn e.1 (.rejected .workerError)) p3
    else
      { p3 with emittedErrors := p3.emittedErrors + 1 }

/-- The `onabort` listener installed by `runTask`: `reject()` first (so the
abort error wins over the termination error caused by the teardown below);
then destroy the owning worker and replenish if the task was dispatched,
else splice it out of the queue by identity. -/
def ThreadPool.onAbort (p : ThreadPool) (tid : Nat) : ThreadPool :=
  match p.findTask tid with
  | none => p
  | some t =>
    let p1 := updateTask tid
      (fun t2 => settlePromise (.rejected .abortError)
        { t2 with abortFired := true }) p
    match t.workerInfo with
    | some wid => (p1.removeWorker wid).ensureMinimumWorkers
    | none =>
      updateTask tid (fun t2 => { t2 with status := .abortedFromQueue })
        { p1 with taskQueue := p1.taskQueue.erase tid }

/-- The idle-timer callback armed by `_onWorkerAvailable`: the timer is
consumed; the worker is removed if the pool is still above `minThreads`. -/
def ThreadPool.onIdleTimeout (p : ThreadPool) (wid : Nat) : ThreadPool :=
  match p.findWorker wid with
  | none => p
  | some _ =>
    let p1 := updateWorker wid (fun w => { w with idleTimeout := false }) p
    if p1.options.minThreads < p1.workers.size then p1.removeWorker wid else p1

/-- `ThreadPool.destroy`: fail every queued descriptor with the termination
error, then remove every worker. -/
def ThreadPool.destroyPool (p : ThreadPool) : ThreadPool :=
  let p1 := p.taskQueue.foldl
    (fun acc tid => acc.doneOn tid (.rejected .threadTermination)) p
  let p2 := { p1 with taskQueue := ([] : List Nat) }
  p2.workers.allItems.foldl (fun acc w => acc.removeWorker w.wid) p2

/-- One entry of the single-threaded controller: everything the event loop
can run against the pool. -/
inductive Event where
  | submit (abortable sendOk : Bool)
  | response (wid tid : Nat) (ok sendOk : Bool)
  | workerReady (wid : Nat) (sendOk : Bool)
  | workerError (wid : Nat)
  | abortSignal (tid : Nat)
  | idleTimeout (wid : Nat)
  | shutdown
deriving DecidableEq

/-- Whether an event can actually occur in a given state: responses only
arrive for tasks posted to that worker; `ready` only from a pending worker;
an abort signal is single-shot, only exists when one was supplied, and (as
the listener asserts) finds the descriptor dispatched or queued; an idle
timer only fires when armed, for an idle worker (the callback asserts an
empty task map). -/
def enabled : Event → ThreadPool → Bool
  | .submit _ _, _ => true
  | .response wid tid _ _, p =>
    p.workers.allItems.any fun w =>
      w.wid == wid && w.taskInfos.any fun e => e.1 == tid
  | .workerReady wid _, p =>
    p.workers.pendingItems.any fun w => w.wid == wid
  | .workerError wid, p =>
    p.workers.allItems.any fun w => w.wid == wid
  | .abortSignal tid, p =>
    (p.findTask tid).elim false fun t =>
      t.abortable && !t.abortFired &&
        (t.workerInfo.isSome || p.taskQueue.contains tid)
  | .idleTimeout wid, p =>
    p.workers.allItems.any fun w =>
      w.wid == wid && w.idleTimeout && w.taskInfos.isEmpty
  | .shutdown, _ => true

/-- The state change of one event. -/
def applyEvent (e : Event) (p : ThreadPool) : ThreadPool :=
  match e with
  | .submit ab sOk => (p.runTask ab sOk).1
  | .response wid tid ok sOk => p.onResponse wid tid ok sOk
  | .workerReady wid sOk => p.onWorkerReady wid sOk
  | .workerError wid => p.onWorkerError wid
  | .abortSignal tid => p.onAbort tid
  | .idleTimeout wid => p.onIdleTimeout wid
  | .shutdown => p.destroyPool

/-- The constructor's startup fill: `minThreads` workers, marked ready
immediately (`startingUp`). -/
def ThreadPool.fillReadyGo : Nat → ThreadPool → ThreadPool
  | 0, p => p
  | n + 1, p => fillReadyGo n (p.addNewWorker true)

/-- The pool state right after the `ThreadPool` constructor. -/
def initialPool (opts : FilledOptions) : ThreadPool :=
  ThreadPool.fillReadyGo opts.minThreads { options := opts }

/-- States reachable from the constructor through enabled events. -/
inductive Reachable (opts : FilledOptions) : ThreadPool → Prop
  | init : Reachable opts (initialPool opts)
  | step (e : Event) (p : ThreadPool) :
      Reachable opts p → enabled e p = true → Reachable opts (applyEvent e p)

/-- Run a whole trace of events. -/
def applyEvents (p : ThreadPool) : List Event → ThreadPool
  | [] => p
  | e :: es => applyEvents (applyEvent e p) es

/-- Check that each event of a trace is enabled when it runs. -/
def eventsEnabled (p : ThreadPool) : List Event → Bool
  | [] => true
  | e :: es => enabled e p && eventsEnabled (applyEvent e p) es

/-- Proof-side recursive description of the candidate scan of
`findAvailable`: the first element whose usage is strictly below every
usage seen before it (starting from `minUsage`), i.e. the first element
attaining the least usage `< minUsage`. -/
def pickMin (minUsage : ℕ∞) : List WorkerInfo → Option WorkerInfo
  | [] => none
  | w :: ws =>
    if w.currentUsage < minUsage then
      match pickMin w.currentUsage ws with
      | some w2 => some w2
      | none => some w
    else pickMin minUsage ws

/-- The inductive invariant of the pool state machine.  `ex` exempts at most
one task id from the `runningMem` clause; this is used to thread the
invariant through `onResponse`, where a descriptor is deleted from the task
map strictly before its completion callback runs.  `PoolInv opts none p` is the
full invariant. -/
structure PoolInv (opts : FilledOptions) (ex : Option Nat) (p : ThreadPool) :
    Prop where
  optionsEq : p.options = opts
  taskIdsNodup : (p.tasks.map TaskInfo.taskId).Nodup
  taskIdsBound : ∀ t ∈ p.tasks, t.taskId < p.nextTaskId
  widsNodup : (p.workers.allItems.map WorkerInfo.wid).Nodup
  widsBound : ∀ w ∈ p.workers.allItems, w.wid < p.nextWorkerId
  workerRefBound : ∀ t ∈ p.tasks, ∀ wid, t.workerInfo = some wid →
    wid < p.nextWorkerId
  queueNodup : p.taskQueue.Nodup
  queueTasks : ∀ tid ∈ p.taskQueue, ∃ t ∈ p.tasks, t.taskId = tid ∧
    t.status = .queuedS ∧ t.workerInfo = none ∧ t.promise = none
  queuedMem : ∀ t ∈ p.tasks, t.status = .queuedS → t.taskId ∈ p.taskQueue
  mapKeysNodup : ∀ w ∈ p.workers.allItems, (w.taskInfos.map Prod.fst).Nodup
  mapTasks : ∀ w ∈ p.workers.allItems, ∀ e ∈ w.taskInfos, ∃ t ∈ p.tasks,
    t.taskId = e.1 ∧ t.status = .running ∧ t.workerInfo = some w.wid ∧
    t.abortable = e.2 ∧ t.promise = none
  runningMem : ∀ t ∈ p.tasks, t.status = .running →
    some t.taskId = ex ∨ ∃ w ∈ p.workers.allItems,
      t.workerInfo = some w.wid ∧ t.taskId ∈ w.taskInfos.map Prod.fst
  counts : ∀ t ∈ p.tasks,
    (t.status = .doneCb → t.callbackCount = 1) ∧
    (t.status ≠ .doneCb → t.callbackCount = 0)
  abortedInert : ∀ t ∈ p.tasks, t.status = .abortedFromQueue →
    t.promise = some (.rejected .abortError)
  sizeBound : ∀ w ∈ p.workers.allItems,
    w.taskInfos.length ≤ opts.concurrentTasksPerWorker

/-- Proof-side description of the combined effect of the abort listener on
a queued descriptor: `reject()` settles the promise (first settlement wins)
and the ghost status becomes `abortedFromQueue`. -/
def abortDone (tid : Nat) (t2 : TaskInfo) : TaskInfo :=
  if t2.taskId = tid then
    { t2 with promise := some (t2.promise.getD (.rejected .abortError)),
              abortFired := true, status := .abortedFromQueue }
  else t2

/-! ## C10: transferable marking -/

/-- **C10.** For every value `v`, `isMovable v` is true only if
`isTransferable v` is true, so `isMovable` is false for `null`, `undefined`
and every non-object; for every object with a `transferable` property,
`isMovable` is false while the marker is unset and true after `markMovable`,
which defines the marker property non-enumerably as `true` and changes
nothing else. -/
theorem C10_isMovable_isTransferable_markMovable :
    (∀ v : JSValue, isMovable v = true → isTransferable v = true) ∧
    (∀ v : JSValue, (∀ o : JSObject, v ≠ .objectv o) → isMovable v = false) ∧
    (∀ o : JSObject, "transferable" ∈ o.props →
      (o.kMovable = false → isMovable (.objectv o) = false) ∧
      isMovable (.objectv (markMovable o)) = true ∧
      (markMovable o).kMovable = true ∧
      (markMovable o).kMovableEnumerable = false ∧
      (markMovable o).props = o.props) := by
  refine ⟨?_, ?_, ?_⟩
  · intro v h
    cases v <;> simp_all [isMovable, isTransferable]
  · intro v h
    cases v with
    | objectv o => exact absurd rfl (h o)
    | _ => rfl
  · intro o hmem
    refine ⟨?_, ?_, rfl, rfl, rfl⟩
    · intro hk
      simp [isMovable, isTransferable, kMovableIsTrue, hk]
    · simp [isMovable, isTransferable, kMovableIsTrue, markMovable, hmem]

/-- Witness for C10 at concrete inputs. -/
theorem C10_witness :
    isTransferable (.objectv ⟨["transferable"], true, false⟩) = true ∧
    isMovable .nullv = false ∧
    isMovable (.objectv ⟨["transferable"], false, false⟩) = false ∧
    isMovable (.objectv (markMovable ⟨["transferable"], false, false⟩)) = true := by
  refine ⟨?_, ?_, ?_, ?_⟩
  · exact C10_isMovable_isTransferable_markMovable.1 _ (by decide)
  · exact C10_isMovable_isTransferable_markMovable.2.1 .nullv (by intro o; simp)
  · exact (C10_isMovable_isTransferable_markMovable.2.2
      ⟨["transferable"], false, false⟩ (by simp)).1 rfl
  · exact (C10_isMovable_isTransferable_markMovable.2.2
      ⟨["transferable"], false, false⟩ (by simp)).2.1

/-! ## C7: `maxQueue` normalization -/

/-- **C7.** Although the constructor's option merge initially sets
`maxQueue` to the dead value `0`, the effective `maxQueue` after
construction is: the caller's value when one is supplied, the square of the
(normalized) `maxThreads` for `'auto'`, and the default `Infinity` when the
option is omitted. -/
theorem C7_maxQueue_normalization (cpuCount : ℚ) (o : OptionsIn) :
    (threadPoolOptions cpuCount o).maxQueue =
      match o.maxQueue with
      | some (.val v) => v
      | some .auto =>
        (((threadPoolOptions cpuCount o).maxThreads *
          (threadPoolOptions cpuCount o).maxThreads : ℚ) : WithTop ℚ)
      | none => (⊤ : WithTop ℚ) := by
  cases h : o.maxQueue with
  | none => simp [threadPoolOptions, h, defaultMaxQueue]
  | some a => cases a <;> simp [threadPoolOptions, h, defaultMaxQueue]

/-! ## C9: thread-bound clamping -/

/-- **C9.** After construction `minThreads ≤ maxThreads`: when only
`maxThreads` is supplied and the default `minThreads` reaches it, the
minimum is clamped down to it; symmetrically the maximum is clamped up to a
caller-supplied `minThreads`; and the `Piscina` constructor throws (among
individually valid bounds) exactly when both bounds are supplied with
`minThreads > maxThreads`. -/
theorem C9_minThreads_le_maxThreads (cpuCount : ℚ) (o : OptionsIn)
    (hcpu : 1 ≤ cpuCount)
    (hmin : ∀ v, o.minThreads = some v → 0 ≤ v)
    (hmax : ∀ v, o.maxThreads = some v → 1 ≤ v) :
    (piscinaConstructorThrows o = false →
      (threadPoolOptions cpuCount o).minThreads ≤
        (threadPoolOptions cpuCount o).maxThreads) ∧
    (∀ mx, o.minThreads = none → o.maxThreads = some mx →
      mx ≤ defaultMinThreads cpuCount →
      (threadPoolOptions cpuCount o).minThreads = mx) ∧
    (∀ mn, o.maxThreads = none → o.minThreads = some mn →
      defaultMaxThreads cpuCount ≤ mn →
      (threadPoolOptions cpuCount o).maxThreads = mn) ∧
    (piscinaConstructorThrows o = true ↔
      ∃ mn mx, o.minThreads = some mn ∧ o.maxThreads = some mx ∧ mx < mn) := by
  refine ⟨?_, ?_, ?_, ?_⟩
  · intro hnothrow
    rcases homin : o.minThreads with _ | mn <;>
      rcases homax : o.maxThreads with _ | mx
    · simp only [threadPoolOptions, homin, homax, Option.getD_none,
        defaultMinThreads, defaultMaxThreads]
      exact max_le (by linarith) (by linarith)
    · simp only [threadPoolOptions, homin, homax, Option.getD_none,
        Option.getD_some, defaultMinThreads, ge_iff_le]
      split_ifs with hc
      · exact le_refl mx
      · exact (not_le.mp hc).le
    · simp only [threadPoolOptions, homin, homax, Option.getD_none,
        Option.getD_some, defaultMaxThreads]
      split_ifs with hc
      · exact le_refl mn
      · exact (not_le.mp hc).le
    · simp only [piscinaConstructorThrows, homin, homax, Bool.or_eq_false_iff,
        decide_eq_false_iff_not, not_lt] at hnothrow
      simp only [threadPoolOptions, homin, homax, Option.getD_some, ge_iff_le]
      split_ifs <;> linarith [hnothrow.2]
  · intro mx h1 h2 h3
    simp only [defaultMinThreads] at h3
    simp only [threadPoolOptions, h1, h2, Option.getD_none, defaultMinThreads,
      ge_iff_le]
    split_ifs
    · rfl
  · intro mn h1 h2 h3
    simp only [defaultMaxThreads] at h3
    simp only [threadPoolOptions, h1, h2, Option.getD_none, Option.getD_some,
      defaultMaxThreads]
    split_ifs
    · rfl
  · rcases homin : o.minThreads with _ | mn <;>
      rcases homax : o.maxThreads with _ | mx
    · simp [piscinaConstructorThrows, homin, homax]
    · have h1 : ¬ mx < 1 := not_lt.2 (hmax mx homax)
      simp [piscinaConstructorThrows, homin, homax, h1]
    · have h0 : ¬ mn < 0 := not_lt.2 (hmin mn homin)
      simp [piscinaConstructorThrows, homin, homax, h0]
    · have h0 : ¬ mn < 0 := not_lt.2 (hmin mn homin)
      have h1 : ¬ mx < 1 := not_lt.2 (hmax mx homax)
      constructor
      · intro h
        refine ⟨mn, mx, rfl, rfl, ?_⟩
        by_contra hnot
        have hff : piscinaConstructorThrows o = false := by
          simp only [piscinaConstructorThrows, homin, homax, gt_iff_lt,
            decide_eq_false h0, decide_eq_false h1, Bool.false_or]
          exact decide_eq_false hnot
        rw [h] at hff
        exact Bool.noConfusion hff
      · rintro ⟨a, b, ha, hb, hlt⟩
        injection ha with ha2
        injection hb with hb2
        subst ha2; subst hb2
        simp only [piscinaConstructorThrows, homin, homax, Bool.or_eq_true,
          decide_eq_true_eq, gt_iff_lt]
        exact Or.inr hlt

/-- Witness for C9: default options on a 4-cpu host. -/
theorem C9_witness :
    (threadPoolOptions 4 {}).minThreads ≤ (threadPoolOptions 4 {}).maxThreads :=
  (C9_minThreads_le_maxThreads 4 {} (by norm_num) (by simp) (by simp)).1 rfl

/-! ## C5: worker selection -/

/-- When some ready worker has usage `0`, the scan returns the first such
worker, whatever the accumulator holds. -/
theorem findAvailableGo_zero (maximumUsage : ℕ∞) (ws : List WorkerInfo) :
    ∀ candidate minUsage, (∃ w ∈ ws, w.currentUsage = 0) →
      findAvailableGo maximumUsage ws candidate minUsage =
        ws.find? (fun w => w.currentUsage == 0) := by
  induction ws with
  | nil => rintro _ _ ⟨w, hw, _⟩; exact absurd hw (List.not_mem_nil w)
  | cons w rest ih =>
    rintro candidate minUsage ⟨w2, hw2, hz⟩
    by_cases h0 : w.currentUsage = 0
    · simp [findAvailableGo, List.find?, h0]
    · have hz2 : ∃ w3 ∈ rest, w3.currentUsage = 0 := by
        rcases List.mem_cons.mp hw2 with h | h
        · exact absurd (h ▸ hz) h0
        · exact ⟨w2, h, hz⟩
      have hb : (w.currentUsage == 0) = false := beq_eq_false_iff_ne.mpr h0
      by_cases hlt : w.currentUsage < minUsage <;>
        simp [findAvailableGo, List.find?, h0, hlt, hb, ih _ _ hz2]

/-- When no ready worker has usage `0`, the scan computes `pickMin`, falling
back to the incoming candidate. -/
theorem findAvailableGo_pickMin (maximumUsage : ℕ∞) (ws : List WorkerInfo) :
    ∀ candidate minUsage, (∀ w ∈ ws, w.currentUsage ≠ 0) →
      findAvailableGo maximumUsage ws candidate minUsage =
        match pickMin minUsage ws with
        | some w2 => some w2
        | none => candidate := by
  induction ws with
  | nil => intro candidate minUsage _; simp [findAvailableGo, pickMin]
  | cons w rest ih =>
    intro candidate minUsage hnz
    have h0 : w.currentUsage ≠ 0 := hnz w (List.mem_cons_self w rest)
    have hrest : ∀ w2 ∈ rest, w2.currentUsage ≠ 0 :=
      fun w2 h => hnz w2 (List.mem_cons_of_mem w h)
    by_cases hlt : w.currentUsage < minUsage
    · simp only [findAvailableGo, if_neg h0, if_pos hlt, pickMin]
      rw [ih _ _ hrest]
      rcases hp : pickMin w.currentUsage rest with _ | w2
      · simp only [hp]
      · simp only [hp]
    · simp only [findAvailableGo, if_neg h0, if_neg hlt, pickMin]
      rw [ih _ _ hrest]

/-- If `pickMin` finds nothing, every usage is at least the threshold. -/
theorem pickMin_none (minUsage : ℕ∞) (ws : List WorkerInfo) :
    pickMin minUsage ws = none → ∀ w ∈ ws, minUsage ≤ w.currentUsage := by
  induction ws generalizing minUsage with
  | nil => intro _ w hw; exact absurd hw (List.not_mem_nil w)
  | cons w rest ih =>
    intro hnone w2 hw2
    by_cases hlt : w.currentUsage < minUsage
    · exfalso
      simp only [pickMin, if_pos hlt] at hnone
      rcases hp : pickMin w.currentUsage rest with _ | w3 <;> simp [hp] at hnone
    · simp only [pickMin, if_neg hlt] at hnone
      rcases List.mem_cons.mp hw2 with h | h
      · exact h ▸ not_lt.mp hlt
      · exact ih minUsage hnone w2 h

/-- What a successful `pickMin` returns: the first worker attaining the
least usage strictly below the threshold. -/
theorem pickMin_spec (minUsage : ℕ∞) (ws : List WorkerInfo)
    (w2 : WorkerInfo) :
    pickMin minUsage ws = some w2 →
      ∃ l1 l2, ws = l1 ++ w2 :: l2 ∧ w2.currentUsage < minUsage ∧
        (∀ w' ∈ l1, w2.currentUsage < w'.currentUsage) ∧
        (∀ w' ∈ ws, w2.currentUsage ≤ w'.currentUsage) := by
  induction ws generalizing minUsage with
  | nil => intro h; simp [pickMin] at h
  | cons w rest ih =>
    intro hsome
    by_cases hlt : w.currentUsage < minUsage
    · simp only [pickMin, if_pos hlt] at hsome
      rcases hp : pickMin w.currentUsage rest with _ | w3
      · rw [hp] at hsome
        simp only at hsome
        cases hsome
        have hmin := pickMin_none _ _ hp
        refine ⟨[], rest, rfl, hlt, ?_, ?_⟩
        · intro w' hw'; exact absurd hw' (List.not_mem_nil w')
        · intro w' hw'
          rcases List.mem_cons.mp hw' with h | h
          · exact h ▸ le_refl _
          · exact hmin w' h
      · rw [hp] at hsome
        simp only at hsome
        cases hsome
        obtain ⟨l1, l2, hsplit, hulow, hfirst, hleast⟩ := ih _ hp
        refine ⟨w :: l1, l2, by simp [hsplit], lt_trans hulow hlt, ?_, ?_⟩
        · intro w' hw'
          rcases List.mem_cons.mp hw' with h | h
          · exact h ▸ hulow
          · exact hfirst w' h
        · intro w' hw'
          rcases List.mem_cons.mp hw' with h | h
          · exact h ▸ hulow.le
          · exact hleast w' h
    · simp only [pickMin, if_neg hlt] at hsome
      obtain ⟨l1, l2, hsplit, hulow, hfirst, hleast⟩ := ih _ hsome
      refine ⟨w :: l1, l2, by simp [hsplit], hulow, ?_, ?_⟩
      · intro w' hw'
        rcases List.mem_cons.mp hw' with h | h
        · exact h ▸ lt_of_lt_of_le hulow (not_lt.mp hlt)
        · exact hfirst w' h
      · intro w' hw'
        rcases List.mem_cons.mp hw' with h | h
        · exact h ▸ (lt_of_lt_of_le hulow (not_lt.mp hlt)).le
        · exact hleast w' h

/-- `isRunningAbortableTask` holds exactly for a singleton task map whose
descriptor has an abort signal. -/
theorem isRunningAbortableTask_iff (w : WorkerInfo) :
    w.isRunningAbortableTask = true ↔ ∃ tid, w.taskInfos = [(tid, true)] := by
  unfold WorkerInfo.isRunningAbortableTask
  rcases hti : w.taskInfos with _ | ⟨⟨tid, ab⟩, rest⟩
  · simp
  · rcases rest with _ | ⟨e2, rest2⟩
    · cases ab <;> simp
    · simp

/-- **C5.** `currentUsage` is `∞` exactly when the task map holds exactly
one descriptor whose abort hook is non-null, and is the task-map size
otherwise; `findAvailable` returns the first ready worker with usage `0`
when one exists, otherwise the first worker attaining the least usage
strictly below `maximumUsage` (ties broken by iteration order), otherwise
`null`. -/
theorem C5_findAvailable_selection (maximumUsage : ℕ∞) (ws : List WorkerInfo) :
    (∀ w : WorkerInfo,
      (w.currentUsage = ⊤ ↔ ∃ tid, w.taskInfos = [(tid, true)]) ∧
      ((∀ tid, w.taskInfos ≠ [(tid, true)]) →
        w.currentUsage = (w.taskInfos.length : ℕ∞))) ∧
    ((∃ w ∈ ws, w.currentUsage = 0) →
      findAvailable ws maximumUsage = ws.find? (fun w => w.currentUsage == 0)) ∧
    ((∀ w ∈ ws, w.currentUsage ≠ 0) →
      (∃ w ∈ ws, w.currentUsage < maximumUsage) →
      ∃ l1 w2 l2, ws = l1 ++ w2 :: l2 ∧
        findAvailable ws maximumUsage = some w2 ∧
        w2.currentUsage < maximumUsage ∧
        (∀ w' ∈ ws, w2.currentUsage ≤ w'.currentUsage) ∧
        (∀ w' ∈ l1, w2.currentUsage < w'.currentUsage)) ∧
    ((∀ w ∈ ws, w.currentUsage ≠ 0) →
      (∀ w ∈ ws, maximumUsage ≤ w.currentUsage) →
      findAvailable ws maximumUsage = none) := by
  refine ⟨?_, ?_, ?_, ?_⟩
  · intro w
    constructor
    · constructor
      · intro h
        apply (isRunningAbortableTask_iff w).mp
        by_contra hab
        have hab2 : w.isRunningAbortableTask = false := by
          cases hh : w.isRunningAbortableTask
          · rfl
          · exact absurd hh hab
        unfold WorkerInfo.currentUsage at h
        rw [hab2] at h
        simp at h
      · intro hex
        unfold WorkerInfo.currentUsage
        rw [(isRunningAbortableTask_iff w).mpr hex]
        simp
    · intro hne
      have hab2 : w.isRunningAbortableTask = false := by
        cases hh : w.isRunningAbortableTask
        · rfl
        · obtain ⟨tid, hti⟩ := (isRunningAbortableTask_iff w).mp hh
          exact absurd hti (hne tid)
      unfold WorkerInfo.currentUsage
      rw [hab2]
      simp
  · intro hz
    exact findAvailableGo_zero maximumUsage ws none maximumUsage hz
  · intro hnz hex
    have hgo := findAvailableGo_pickMin maximumUsage ws none maximumUsage hnz
    rcases hp : pickMin maximumUsage ws with _ | w2
    · exfalso
      obtain ⟨w, hw, hlt⟩ := hex
      exact absurd (pickMin_none _ _ hp w hw) (not_le.mpr hlt)
    · obtain ⟨l1, l2, hsplit, hulow, hfirst, hleast⟩ := pickMin_spec _ _ _ hp
      refine ⟨l1, w2, l2, hsplit, ?_, hulow, hleast, hfirst⟩
      rw [findAvailable, hgo, hp]
  · intro hnz hge
    have hgo := findAvailableGo_pickMin maximumUsage ws none maximumUsage hnz
    have hp : pickMin maximumUsage ws = none := by
      rcases hp2 : pickMin maximumUsage ws with _ | w2
      · rfl
      · obtain ⟨l1, l2, hsplit, hulow, _, _⟩ := pickMin_spec _ _ _ hp2
        have hmem : w2 ∈ ws := by
          rw [hsplit]
          exact List.mem_append_right _ (List.mem_cons_self _ _)
        exact absurd (hge w2 hmem) (not_le.mpr hulow)
    rw [findAvailable, hgo, hp]

/-- Witness for C5: two ready workers, the second idle; the scan returns the
first zero-usage worker. -/
theorem C5_witness :
    findAvailable [⟨0, [(7, false)], true, false, true, 1, 1⟩,
                   ⟨1, [], true, false, true, 0, 0⟩] 2 =
      some ⟨1, [], true, false, true, 0, 0⟩ := by
  have h := (C5_findAvailable_selection 2
    [⟨0, [(7, false)], true, false, true, 1, 1⟩,
     ⟨1, [], true, false, true, 0, 0⟩]).2.1
    ⟨⟨1, [], true, false, true, 0, 0⟩, by decide, by decide⟩
  rw [h]
  decide

/-! ## C3: queue admission -/

/-- **C3.** When a submission arrives while the task queue is non-empty: if
the queue length has reached `maxQueue + pendingCapacity`, the submission is
rejected — with `NoTaskQueueAvailable` when `maxQueue = 0`, otherwise with
`TaskQueueAtLimit` — and the queue is unchanged; below that bound the
descriptor is appended to the queue, not rejected, after spawning one extra
worker exactly when the worker count is below `maxThreads`. -/
theorem C3_queue_admission (p : ThreadPool) (abortable sendOk : Bool)
    (hq : p.taskQueue ≠ []) :
    (((p.taskQueue.length : ℕ∞) ≥
        p.options.maxQueue + (p.pendingCapacity : ℕ∞)) →
      (p.options.maxQueue = 0 →
        (p.runTask abortable sendOk).2 = .rejectedEarly .noTaskQueueAvailable) ∧
      (p.options.maxQueue ≠ 0 →
        (p.runTask abortable sendOk).2 = .rejectedEarly .taskQueueAtLimit) ∧
      (p.runTask abortable sendOk).1.taskQueue = p.taskQueue) ∧
    (((p.taskQueue.length : ℕ∞) <
        p.options.maxQueue + (p.pendingCapacity : ℕ∞)) →
      (p.runTask abortable sendOk).2 = .enqueued ∧
      (p.runTask abortable sendOk).1.taskQueue = p.taskQueue ++ [p.nextTaskId] ∧
      (p.workers.size < p.options.maxThreads →
        (p.runTask abortable sendOk).1.workers.size = p.workers.size + 1) ∧
      (¬ p.workers.size < p.options.maxThreads →
        (p.runTask abortable sendOk).1.workers.size = p.workers.size)) := by
  obtain ⟨popts, pworkers, pqueue, ptasks, ptid, pwid, pcomp, pboot, perr⟩ := p
  have hq0 : 0 < pqueue.length := List.length_pos.mpr hq
  constructor
  · intro hcap
    have hcap2 : (pqueue.length : ℕ∞) ≥
        popts.maxQueue +
          ((pworkers.pendingItems.length * popts.concurrentTasksPerWorker : ℕ) : ℕ∞) :=
      hcap
    refine ⟨fun hmq => ?_, fun hmq => ?_, ?_⟩
    · simp only [ThreadPool.runTask, ThreadPool.pendingCapacity]
      rw [if_pos hq0, if_pos hcap2, if_pos hmq]
    · simp only [ThreadPool.runTask, ThreadPool.pendingCapacity]
      rw [if_pos hq0, if_pos hcap2, if_neg hmq]
    · simp only [ThreadPool.runTask, ThreadPool.pendingCapacity]
      rw [if_pos hq0, if_pos hcap2]
      split_ifs <;> rfl
  · intro hlt
    have hcap2 : ¬ ((pqueue.length : ℕ∞) ≥
        popts.maxQueue +
          ((pworkers.pendingItems.length * popts.concurrentTasksPerWorker : ℕ) : ℕ∞)) :=
      not_le.mpr hlt
    refine ⟨?_, ?_, fun hsz => ?_, fun hsz => ?_⟩
    · simp only [ThreadPool.runTask, ThreadPool.pendingCapacity]
      rw [if_pos hq0, if_neg hcap2]
    · simp only [ThreadPool.runTask, ThreadPool.pendingCapacity, updateTask]
      rw [if_pos hq0, if_neg hcap2]
      split_ifs <;> rfl
    · have hsz2 : (pworkers.pendingItems.length + pworkers.readyItems.length <
        popts.maxThreads) := hsz
      simp only [ThreadPool.runTask, ThreadPool.pendingCapacity, updateTask,
        ThreadPool.addNewWorker, ResourcePool.size]
      rw [if_pos hq0, if_neg hcap2, if_pos hsz2]
      simp [List.length_append]
      omega
    · have hsz2 : ¬ (pworkers.pendingItems.length + pworkers.readyItems.length <
        popts.maxThreads) := hsz
      simp only [ThreadPool.runTask, ThreadPool.pendingCapacity, updateTask,
        ThreadPool.addNewWorker, ResourcePool.size]
      rw [if_pos hq0, if_neg hcap2, if_neg hsz2]

/-- Witness for C3: a pool with `maxQueue = 0`, one busy worker and one
queued stranger: the submission is rejected with `NoTaskQueueAvailable`. -/
theorem C3_witness :
    (ThreadPool.runTask
      { options := ⟨1, 1, 0, 1⟩, taskQueue := [0],
        tasks := [{ taskId := 0, abortable := false, status := .queuedS }],
        nextTaskId := 1 } false true).2 =
      .rejectedEarly .noTaskQueueAvailable :=
  ((C3_queue_admission _ false true (by decide)).1 (by decide)).1 rfl

/-! ## C6: posting a task to a worker -/

/-- `updateItem` acts as a pointwise map on the iteration order. -/
theorem allItems_updateItem (rp : ResourcePool) (wid : Nat)
    (f : WorkerInfo → WorkerInfo) :
    (rp.updateItem wid f).allItems =
      rp.allItems.map (fun w => if w.wid = wid then f w else w) := by
  simp [ResourcePool.updateItem, ResourcePool.allItems]

/-- A successful `findTask` returns a registry member with the requested id. -/
theorem findTask_mem (p : ThreadPool) (tid : Nat) (t : TaskInfo)
    (h : p.findTask tid = some t) : t ∈ p.tasks ∧ t.taskId = tid := by
  refine ⟨List.mem_of_find?_eq_some h, ?_⟩
  have := List.find?_some h
  exact beq_iff_eq.mp this

/-- **C6.** `postTask` with a failing send completes the descriptor with the
send error and leaves the worker pool untouched (no task-map entry, no
owning worker, no idle-timer change, no shared-counter change); a
successful send records the descriptor in the task map, sets its owning
worker, refs the port, clears any idle timer, and increments the shared
request counter by exactly one with a wake notification. -/
theorem C6_postTask_effects (p : ThreadPool) (wid tid : Nat) (sendOk : Bool)
    (t : TaskInfo) (hfind : p.findTask tid = some t)
    (w : WorkerInfo) (hw : w ∈ p.workers.allItems) (hwid : w.wid = wid) :
    (sendOk = false →
      (p.postTask wid tid sendOk).workers = p.workers ∧
      ∃ t2 ∈ (p.postTask wid tid sendOk).tasks, t2.taskId = t.taskId ∧
        t2.callbackCount = t.callbackCount + 1 ∧
        t2.workerInfo = t.workerInfo ∧
        (t.promise = none → t2.promise = some (.rejected .sendError))) ∧
    (sendOk = true →
      (∃ w2 ∈ (p.postTask wid tid sendOk).workers.allItems, w2.wid = wid ∧
        w2.taskInfos = w.taskInfos ++ [(tid, t.abortable)] ∧
        w2.refed = true ∧ w2.idleTimeout = false ∧
        w2.sharedRequestCount = w.sharedRequestCount + 1 ∧
        w2.notifyCount = w.notifyCount + 1) ∧
      (∃ t2 ∈ (p.postTask wid tid sendOk).tasks, t2.taskId = t.taskId ∧
        t2.workerInfo = some wid ∧
        t2.callbackCount = t.callbackCount)) := by
  obtain ⟨hmem, htid⟩ := findTask_mem p tid t hfind
  constructor
  · intro hs
    subst hs
    constructor
    · simp [ThreadPool.postTask, hfind, ThreadPool.doneOn, updateTask]
    · refine ⟨doneF (.rejected .sendError) t, ?_, ?_⟩
      · simp only [ThreadPool.postTask, hfind, Bool.false_eq_true, if_false,
          ThreadPool.doneOn, updateTask]
        refine List.mem_map.mpr ⟨t, hmem, ?_⟩
        rw [if_pos htid]
      · rcases hpr : t.promise with _ | v <;>
          simp [doneF, settlePromise, hpr, htid]
  · intro hs
    subst hs
    constructor
    · refine ⟨{ w with
          taskInfos := w.taskInfos ++ [(tid, t.abortable)],
          refed := true,
          idleTimeout := false,
          sharedRequestCount := w.sharedRequestCount + 1,
          notifyCount := w.notifyCount + 1 }, ?_, (by simp [hwid])⟩
      simp only [ThreadPool.postTask, hfind, if_true, updateWorker,
        updateTask, allItems_updateItem]
      refine List.mem_map.mpr ⟨w, hw, ?_⟩
      rw [if_pos hwid]
    · refine ⟨{ t with workerInfo := some wid, status := .running }, ?_,
        (by simp [htid])⟩
      simp only [ThreadPool.postTask, hfind, if_true, updateWorker,
        ResourcePool.updateItem, updateTask]
      refine List.mem_map.mpr ⟨t, hmem, ?_⟩
      rw [if_pos htid]

/-- Witness for C6: a successful post of descriptor 5 onto idle worker 0. -/
theorem C6_witness :
    (∃ w2 ∈ (ThreadPool.postTask
        { options := ⟨1, 1, ⊤, 1⟩,
          workers := { readyItems := [⟨0, [], true, false, true, 0, 0⟩] },
          tasks := [⟨5, false, none, 0, none, false, .created⟩],
          nextTaskId := 6 } 0 5 true).workers.allItems, w2.wid = 0 ∧
      w2.taskInfos = [(5, false)] ∧
      w2.refed = true ∧ w2.idleTimeout = false ∧
      w2.sharedRequestCount = 1 ∧ w2.notifyCount = 1) ∧
    (∃ t2 ∈ (ThreadPool.postTask
        { options := ⟨1, 1, ⊤, 1⟩,
          workers := { readyItems := [⟨0, [], true, false, true, 0, 0⟩] },
          tasks := [⟨5, false, none, 0, none, false, .created⟩],
          nextTaskId := 6 } 0 5 true).tasks, t2.taskId = 5 ∧
      t2.workerInfo = some 0 ∧ t2.callbackCount = 0) :=
  (C6_postTask_effects
    { options := ⟨1, 1, ⊤, 1⟩,
      workers := { readyItems := [⟨0, [], true, false, true, 0, 0⟩] },
      tasks := [⟨5, false, none, 0, none, false, .created⟩],
      nextTaskId := 6 } 0 5 true ⟨5, false, none, 0, none, false, .created⟩ rfl
    ⟨0, [], true, false, true, 0, 0⟩ (by decide) rfl).2 rfl

/-! ## Structural lemmas for the pool state machine -/

/-- `doneF` preserves every field except the callback counter, the status
and the promise. -/
theorem doneF_taskId (v : SettleVal) (t : TaskInfo) :
    (doneF v t).taskId = t.taskId := rfl

theorem doneF_abortable (v : SettleVal) (t : TaskInfo) :
    (doneF v t).abortable = t.abortable := rfl

theorem doneF_workerInfo (v : SettleVal) (t : TaskInfo) :
    (doneF v t).workerInfo = t.workerInfo := rfl

theorem doneF_status (v : SettleVal) (t : TaskInfo) :
    (doneF v t).status = .doneCb := rfl

theorem doneF_callbackCount (v : SettleVal) (t : TaskInfo) :
    (doneF v t).callbackCount = t.callbackCount + 1 := rfl

/-- `removeItem` filters the iteration order. -/
theorem allItems_removeItem (rp : ResourcePool) (wid : Nat) :
    (rp.removeItem wid).allItems =
      rp.allItems.filter (fun w => decide (w.wid ≠ wid)) := by
  simp [ResourcePool.removeItem, ResourcePool.allItems]

/-- A successful `findWorker` returns a pool member with the requested id. -/
theorem findWorker_mem (p : ThreadPool) (wid : Nat) (w : WorkerInfo)
    (h : p.findWorker wid = some w) : w ∈ p.workers.allItems ∧ w.wid = wid := by
  refine ⟨List.mem_of_find?_eq_some h, ?_⟩
  have := List.find?_some h
  exact beq_iff_eq.mp this

/-- A failing `findWorker` means no pool member has the requested id. -/
theorem findWorker_eq_none (p : ThreadPool) (wid : Nat)
    (h : p.findWorker wid = none) : ∀ w ∈ p.workers.allItems, w.wid ≠ wid := by
  intro w hw
  have := List.find?_eq_none.mp h w hw
  simpa using this

/-- Folding `doneOn` over distinct task ids applies `doneF` pointwise. -/
theorem foldl_doneOn (v : SettleVal) (ks : List Nat) (p : ThreadPool)
    (hnd : ks.Nodup) :
    ks.foldl (fun acc k => acc.doneOn k v) p =
      { p with
        tasks := p.tasks.map (fun t => if t.taskId ∈ ks then doneF v t else t),
        completed := p.completed + ks.length } := by
  induction ks generalizing p with
  | nil => simp
  | cons k rest ih =>
    have hk : k ∉ rest := (List.nodup_cons.mp hnd).1
    have hrest := (List.nodup_cons.mp hnd).2
    have hfun : ((fun t : TaskInfo => if t.taskId ∈ rest then doneF v t else t) ∘
        (fun t : TaskInfo => if t.taskId = k then doneF v t else t)) =
        (fun t : TaskInfo => if t.taskId ∈ k :: rest then doneF v t else t) := by
      funext t
      by_cases h1 : t.taskId = k
      · simp [h1, doneF_taskId, hk]
      · simp only [Function.comp_apply, if_neg h1]
        by_cases h2 : t.taskId ∈ rest
        · simp [h2, List.mem_cons]
        · simp [h2, List.mem_cons, h1]
    rw [List.foldl_cons, ih _ hrest]
    simp only [ThreadPool.doneOn, updateTask, List.map_map, hfun,
      List.length_cons]
    congr 1
    omega

/-- Folding `doneOn` over task-map entries is folding it over their keys. -/
theorem foldl_doneOn_entries (v : SettleVal) (es : List (Nat × Bool))
    (p : ThreadPool) :
    es.foldl (fun acc e => acc.doneOn e.1 v) p =
      (es.map Prod.fst).foldl (fun acc k => acc.doneOn k v) p := by
  rw [List.foldl_map]

/-- `_addNewWorker` outside startup: a fresh pending handle. -/
theorem addNewWorker_false (p : ThreadPool) :
    p.addNewWorker false =
      { p with
        workers := { p.workers with
          pendingItems :=
            p.workers.pendingItems ++ [{ wid := p.nextWorkerId, ready := false }] },
        nextWorkerId := p.nextWorkerId + 1 } := rfl

/-- `_addNewWorker` during startup: a fresh handle marked ready at once. -/
theorem addNewWorker_true (p : ThreadPool) :
    p.addNewWorker true =
      { p with
        workers := { p.workers with
          readyItems :=
            p.workers.readyItems ++ [{ wid := p.nextWorkerId, ready := true }] },
        nextWorkerId := p.nextWorkerId + 1 } := rfl

/-- `_removeWorker` in explicit form: every descriptor of the removed
worker's task map completes with the termination error, the handle leaves
both pool sets, and nothing else changes. -/
theorem removeWorker_spec (p : ThreadPool) (wid : Nat) (w : WorkerInfo)
    (hfind : p.findWorker wid = some w)
    (hnd : (w.taskInfos.map Prod.fst).Nodup) :
    p.removeWorker wid =
      { p with
        tasks := p.tasks.map (fun t =>
          if t.taskId ∈ w.taskInfos.map Prod.fst then
            doneF (.rejected .threadTermination) t else t),
        workers := p.workers.removeItem wid,
        completed := p.completed + w.taskInfos.length } := by
  unfold ThreadPool.removeWorker
  simp only [hfind]
  rw [foldl_doneOn_entries, foldl_doneOn _ _ _ hnd]
  simp [List.length_map]

/-- `_ensureMinimumWorkers`'s loop appends `n` fresh pending workers with
consecutive ids starting at `nextWorkerId`. -/
theorem ensureMinGo_spec (n : Nat) (p : ThreadPool) :
    ∃ fresh : List WorkerInfo,
      ThreadPool.ensureMinGo n p =
        { p with
          workers := { p.workers with
            pendingItems := p.workers.pendingItems ++ fresh },
          nextWorkerId := p.nextWorkerId + n } ∧
      fresh.length = n ∧
      (∀ w ∈ fresh, w.taskInfos = [] ∧ w.ready = false ∧ w.idleTimeout = false ∧
        p.nextWorkerId ≤ w.wid ∧ w.wid < p.nextWorkerId + n) ∧
      (fresh.map WorkerInfo.wid).Nodup := by
  induction n generalizing p with
  | zero =>
    refine ⟨[], ?_, rfl, ?_, List.nodup_nil⟩
    · simp [ThreadPool.ensureMinGo]
    · intro w hw; exact absurd hw (List.not_mem_nil w)
  | succ n ih =>
    obtain ⟨fresh, heq, hlen, hprops, hnd⟩ := ih (p.addNewWorker false)
    have hnext : (p.addNewWorker false).nextWorkerId = p.nextWorkerId + 1 := rfl
    refine ⟨{ wid := p.nextWorkerId, ready := false } :: fresh, ?_,
      by simp [hlen], ?_, ?_⟩
    · show ThreadPool.ensureMinGo n (p.addNewWorker false) = _
      rw [heq, addNewWorker_false]
      dsimp only
      congr 1
      · congr 1
        simp [List.append_assoc]
      · omega
    · intro w hw
      rcases List.mem_cons.mp hw with h | h
      · subst h
        refine ⟨rfl, rfl, rfl, le_refl _, ?_⟩
        show p.nextWorkerId < p.nextWorkerId + (n + 1)
        omega
      · obtain ⟨h1, h2, h3, h4, h5⟩ := hprops w h
        rw [hnext] at h4 h5
        exact ⟨h1, h2, h3, by omega, by omega⟩
    · refine List.nodup_cons.mpr ⟨?_, hnd⟩
      intro hmem
      obtain ⟨w, hw, hwid⟩ := List.mem_map.mp hmem
      obtain ⟨_, _, _, h4, _⟩ := hprops w hw
      rw [hnext] at h4
      have : w.wid = p.nextWorkerId := hwid
      omega

/-- `_ensureMinimumWorkers` makes the pool hold at least `minThreads`
workers. -/
theorem ensureMinimumWorkers_size (p : ThreadPool) :
    (p.ensureMinimumWorkers).workers.size =
      max p.workers.size p.options.minThreads := by
  unfold ThreadPool.ensureMinimumWorkers
  obtain ⟨fresh, heq, hlen, _, _⟩ :=
    ensureMinGo_spec (p.options.minThreads - p.workers.size) p
  rw [heq]
  simp only [ResourcePool.size, List.length_append, hlen]
  omega

/-- `find?` by key hits the (unique) member with that key. -/
theorem find?_key_eq_of_mem {α : Type} (key : α → Nat) (l : List α)
    (hnd : (l.map key).Nodup) (a : α) (ha : a ∈ l) :
    l.find? (fun x => key x == key a) = some a := by
  induction l with
  | nil => cases ha
  | cons x rest ih =>
    simp only [List.map_cons, List.nodup_cons] at hnd
    rcases List.mem_cons.mp ha with h | h
    · subst h; simp [List.find?]
    · have hx : key x ≠ key a := by
        intro he
        exact hnd.1 (he ▸ List.mem_map_of_mem key h)
      have hb : (key x == key a) = false := beq_eq_false_iff_ne.mpr hx
      simp only [List.find?, hb]
      exact ih hnd.2 h

/-- With distinct task ids, `findTask` finds exactly the registry member. -/
theorem findTask_eq (p : ThreadPool) (t : TaskInfo)
    (hnd : (p.tasks.map TaskInfo.taskId).Nodup) (ht : t ∈ p.tasks) :
    p.findTask t.taskId = some t :=
  find?_key_eq_of_mem TaskInfo.taskId p.tasks hnd t ht

/-- With distinct worker ids, `findWorker` finds exactly the pool member. -/
theorem findWorker_eq (p : ThreadPool) (w : WorkerInfo)
    (hnd : (p.workers.allItems.map WorkerInfo.wid).Nodup)
    (hw : w ∈ p.workers.allItems) :
    p.findWorker w.wid = some w :=
  find?_key_eq_of_mem WorkerInfo.wid p.workers.allItems hnd w hw

/-- Registry members with equal ids coincide. -/
theorem task_eq_of_id {p : ThreadPool}
    (hnd : (p.tasks.map TaskInfo.taskId).Nodup) {t1 t2 : TaskInfo}
    (h1 : t1 ∈ p.tasks) (h2 : t2 ∈ p.tasks) (he : t1.taskId = t2.taskId) :
    t1 = t2 :=
  List.inj_on_of_nodup_map hnd h1 h2 he

/-- Pool members with equal ids coincide. -/
theorem worker_eq_of_id {p : ThreadPool}
    (hnd : (p.workers.allItems.map WorkerInfo.wid).Nodup) {w1 w2 : WorkerInfo}
    (h1 : w1 ∈ p.workers.allItems) (h2 : w2 ∈ p.workers.allItems)
    (he : w1.wid = w2.wid) : w1 = w2 :=
  List.inj_on_of_nodup_map hnd h1 h2 he

/-- A finite usage bound gives a task-map length bound. -/
theorem currentUsage_lt (w : WorkerInfo) (c : Nat)
    (h : w.currentUsage < (c : ℕ∞)) : w.taskInfos.length < c := by
  unfold WorkerInfo.currentUsage at h
  split at h
  · exact absurd h (by simp)
  · exact_mod_cast h

/-- Usage zero means an empty task map. -/
theorem currentUsage_zero (w : WorkerInfo) (h : w.currentUsage = 0) :
    w.taskInfos.length = 0 := by
  unfold WorkerInfo.currentUsage at h
  split at h
  · exact absurd h (by simp)
  · exact_mod_cast h

/-- What a successful `findAvailable` guarantees about the chosen worker. -/
theorem findAvailableGo_some (maximumUsage : ℕ∞) (ws : List WorkerInfo) :
    ∀ candidate minUsage w, minUsage ≤ maximumUsage →
      findAvailableGo maximumUsage ws candidate minUsage = some w →
      (w ∈ ws ∧ (w.currentUsage = 0 ∨ w.currentUsage < maximumUsage)) ∨
        candidate = some w := by
  induction ws with
  | nil => intro candidate minUsage w _ h; exact Or.inr h
  | cons x rest ih =>
    intro candidate minUsage w hle h
    by_cases h0 : x.currentUsage = 0
    · simp only [findAvailableGo, if_pos h0] at h
      cases h
      exact Or.inl ⟨List.mem_cons_self _ _, Or.inl h0⟩
    · by_cases hlt : x.currentUsage < minUsage
      · simp only [findAvailableGo, if_neg h0, if_pos hlt] at h
        rcases ih (some x) x.currentUsage w (le_of_lt (lt_of_lt_of_le hlt hle)) h with
          ⟨hmem, hu⟩ | hc
        · exact Or.inl ⟨List.mem_cons_of_mem _ hmem, hu⟩
        · cases hc
          exact Or.inl ⟨List.mem_cons_self _ _,
            Or.inr (lt_of_lt_of_le hlt hle)⟩
      · simp only [findAvailableGo, if_neg h0, if_neg hlt] at h
        rcases ih candidate minUsage w hle h with ⟨hmem, hu⟩ | hc
        · exact Or.inl ⟨List.mem_cons_of_mem _ hmem, hu⟩
        · exact Or.inr hc

/-- `findAvailable` only returns a ready worker that is idle or below the
usage limit. -/
theorem findAvailable_some (ws : List WorkerInfo) (maximumUsage : ℕ∞)
    (w : WorkerInfo) (h : findAvailable ws maximumUsage = some w) :
    w ∈ ws ∧ (w.currentUsage = 0 ∨ w.currentUsage < maximumUsage) := by
  rcases findAvailableGo_some maximumUsage ws none maximumUsage w (le_refl _) h with
    hres | hc
  · exact hres
  · cases hc

/-- Completing a descriptor that sits in neither the queue nor any task map
preserves the invariant.  The queued-membership hypothesis `H` is weakened
to exempt `tid` itself, because `_onWorkerAvailable` completes a descriptor
it has just popped from the queue; `hex` lets a `runningMem` exemption for
`tid` be discharged, because `tid` stops being running here. -/
theorem inv_doneOn (opts : FilledOptions) (ex ex' : Option Nat)
    (q : ThreadPool) (tid : Nat) (v : SettleVal) (t : TaskInfo)
    (hO : q.options = opts)
    (A : (q.tasks.map TaskInfo.taskId).Nodup)
    (B : ∀ t2 ∈ q.tasks, t2.taskId < q.nextTaskId)
    (C : (q.workers.allItems.map WorkerInfo.wid).Nodup)
    (D : ∀ w2 ∈ q.workers.allItems, w2.wid < q.nextWorkerId)
    (E : ∀ t2 ∈ q.tasks, ∀ wid2, t2.workerInfo = some wid2 →
      wid2 < q.nextWorkerId)
    (F : q.taskQueue.Nodup)
    (G : ∀ tid2 ∈ q.taskQueue, ∃ t2 ∈ q.tasks, t2.taskId = tid2 ∧
      t2.status = .queuedS ∧ t2.workerInfo = none ∧ t2.promise = none)
    (H : ∀ t2 ∈ q.tasks, t2.status = .queuedS →
      t2.taskId = tid ∨ t2.taskId ∈ q.taskQueue)
    (I : ∀ w2 ∈ q.workers.allItems, (w2.taskInfos.map Prod.fst).Nodup)
    (J : ∀ w2 ∈ q.workers.allItems, ∀ e ∈ w2.taskInfos, ∃ t2 ∈ q.tasks,
      t2.taskId = e.1 ∧ t2.status = .running ∧ t2.workerInfo = some w2.wid ∧
      t2.abortable = e.2 ∧ t2.promise = none)
    (K : ∀ t2 ∈ q.tasks, t2.status = .running →
      some t2.taskId = ex ∨ ∃ w2 ∈ q.workers.allItems,
        t2.workerInfo = some w2.wid ∧ t2.taskId ∈ w2.taskInfos.map Prod.fst)
    (L : ∀ t2 ∈ q.tasks,
      (t2.status = .doneCb → t2.callbackCount = 1) ∧
      (t2.status ≠ .doneCb → t2.callbackCount = 0))
    (M : ∀ t2 ∈ q.tasks, t2.status = .abortedFromQueue →
      t2.promise = some (.rejected .abortError))
    (N : ∀ w2 ∈ q.workers.allItems,
      w2.taskInfos.length ≤ opts.concurrentTasksPerWorker)
    (ht : t ∈ q.tasks) (htid : t.taskId = tid)
    (hnd2 : t.status ≠ .doneCb)
    (hq : tid ∉ q.taskQueue)
    (hmaps : ∀ w2 ∈ q.workers.allItems, tid ∉ w2.taskInfos.map Prod.fst)
    (hex : ex = ex' ∨ ex = some tid) :
    PoolInv opts ex' (q.doneOn tid v) := by
  have htasks : (q.doneOn tid v).tasks =
      q.tasks.map (fun t2 => if t2.taskId = tid then doneF v t2 else t2) := rfl
  have hwork : (q.doneOn tid v).workers = q.workers := rfl
  have hqueue : (q.doneOn tid v).taskQueue = q.taskQueue := rfl
  have hnid : (q.doneOn tid v).nextTaskId = q.nextTaskId := rfl
  have hnwid : (q.doneOn tid v).nextWorkerId = q.nextWorkerId := rfl
  have hopt : (q.doneOn tid v).options = q.options := rfl
  refine
    { optionsEq := by rw [hopt, hO]
      taskIdsNodup := ?_
      taskIdsBound := ?_
      widsNodup := by rw [hwork]; exact C
      widsBound := by rw [hwork, hnwid]; exact D
      workerRefBound := ?_
      queueNodup := by rw [hqueue]; exact F
      queueTasks := ?_
      queuedMem := ?_
      mapKeysNodup := by rw [hwork]; exact I
      mapTasks := ?_
      runningMem := ?_
      counts := ?_
      abortedInert := ?_
      sizeBound := by rw [hwork]; exact N }
  · rw [htasks, List.map_map]
    have : (TaskInfo.taskId ∘ fun t2 : TaskInfo =>
        if t2.taskId = tid then doneF v t2 else t2) = TaskInfo.taskId := by
      funext t2
      by_cases h2 : t2.taskId = tid <;> simp [h2, doneF_taskId]
    rw [this]
    exact A
  · rw [htasks, hnid]
    intro t2 h2
    obtain ⟨t0, h0, he⟩ := List.mem_map.mp h2
    have : t2.taskId = t0.taskId := by
      subst he
      by_cases h3 : t0.taskId = tid <;> simp [h3, doneF_taskId]
    rw [this]
    exact B t0 h0
  · rw [htasks, hnwid]
    intro t2 h2 wid2 hw2
    obtain ⟨t0, h0, he⟩ := List.mem_map.mp h2
    have : t2.workerInfo = t0.workerInfo := by
      subst he
      by_cases h3 : t0.taskId = tid <;> simp [h3, doneF_workerInfo]
    rw [this] at hw2
    exact E t0 h0 wid2 hw2
  · rw [htasks, hqueue]
    intro tid2 h2
    obtain ⟨t0, h0, hid, hstq, hwi, hpr⟩ := G tid2 h2
    have hne : t0.taskId ≠ tid := by
      rw [hid]; intro he; exact hq (he ▸ h2)
    refine ⟨t0, List.mem_map.mpr ⟨t0, h0, if_neg hne⟩, hid, hstq, hwi, hpr⟩
  · rw [htasks, hqueue]
    intro t2 h2 hst
    obtain ⟨t0, h0, he⟩ := List.mem_map.mp h2
    by_cases h3 : t0.taskId = tid
    · rw [if_pos h3] at he
      rw [← he, doneF_status] at hst
      cases hst
    · rw [if_neg h3] at he
      subst he
      rcases H t0 h0 hst with h4 | h4
      · exact absurd h4 h3
      · exact h4
  · rw [htasks, hwork]
    intro w2 hw2 e he2
    obtain ⟨t0, h0, hid, hstr, hwi, hab, hpr⟩ := J w2 hw2 e he2
    have hne : t0.taskId ≠ tid := by
      rw [hid]
      intro h4
      exact hmaps w2 hw2 (h4 ▸ List.mem_map_of_mem Prod.fst he2)
    refine ⟨t0, List.mem_map.mpr ⟨t0, h0, if_neg hne⟩, hid, hstr, hwi, hab, hpr⟩
  · rw [htasks, hwork]
    intro t2 h2 hst
    obtain ⟨t0, h0, he⟩ := List.mem_map.mp h2
    by_cases h3 : t0.taskId = tid
    · rw [if_pos h3] at he
      rw [← he, doneF_status] at hst
      cases hst
    · rw [if_neg h3] at he
      subst he
      rcases K t0 h0 hst with h4 | h4
      · rcases hex with h5 | h5
        · exact Or.inl (h5 ▸ h4)
        · rw [h5] at h4
          exact absurd (Option.some.injEq _ _ ▸ h4) h3
      · exact Or.inr h4
  · rw [htasks]
    intro t2 h2
    obtain ⟨t0, h0, he⟩ := List.mem_map.mp h2
    by_cases h3 : t0.taskId = tid
    · rw [if_pos h3] at he
      have ht0 : t0 = t := task_eq_of_id A h0 ht (h3.trans htid.symm)
      subst ht0
      have hc0 : t0.callbackCount = 0 := (L t0 h0).2 hnd2
      constructor
      · intro _
        rw [← he, doneF_callbackCount, hc0]
      · intro h4
        rw [← he, doneF_status] at h4
        exact absurd rfl h4
    · rw [if_neg h3] at he
      subst he
      exact L t0 h0
  · rw [htasks]
    intro t2 h2 hst
    obtain ⟨t0, h0, he⟩ := List.mem_map.mp h2
    by_cases h3 : t0.taskId = tid
    · rw [if_pos h3] at he
      rw [← he, doneF_status] at hst
      cases hst
    · rw [if_neg h3] at he
      subst he
      exact M t0 h0 hst

/-- Posting a live descriptor (fresh or just popped from the queue) to a
worker whose task map is strictly below the concurrency limit preserves the
invariant: on success the descriptor becomes running inside that worker's
map, on send failure it is completed. -/
theorem inv_postTask (opts : FilledOptions) (ex : Option Nat)
    (q : ThreadPool) (wid tid : Nat) (sendOk : Bool) (t : TaskInfo)
    (w : WorkerInfo)
    (hO : q.options = opts)
    (A : (q.tasks.map TaskInfo.taskId).Nodup)
    (B : ∀ t2 ∈ q.tasks, t2.taskId < q.nextTaskId)
    (C : (q.workers.allItems.map WorkerInfo.wid).Nodup)
    (D : ∀ w2 ∈ q.workers.allItems, w2.wid < q.nextWorkerId)
    (E : ∀ t2 ∈ q.tasks, ∀ wid2, t2.workerInfo = some wid2 →
      wid2 < q.nextWorkerId)
    (F : q.taskQueue.Nodup)
    (G : ∀ tid2 ∈ q.taskQueue, ∃ t2 ∈ q.tasks, t2.taskId = tid2 ∧
      t2.status = .queuedS ∧ t2.workerInfo = none ∧ t2.promise = none)
    (H : ∀ t2 ∈ q.tasks, t2.status = .queuedS →
      t2.taskId = tid ∨ t2.taskId ∈ q.taskQueue)
    (I : ∀ w2 ∈ q.workers.allItems, (w2.taskInfos.map Prod.fst).Nodup)
    (J : ∀ w2 ∈ q.workers.allItems, ∀ e ∈ w2.taskInfos, ∃ t2 ∈ q.tasks,
      t2.taskId = e.1 ∧ t2.status = .running ∧ t2.workerInfo = some w2.wid ∧
      t2.abortable = e.2 ∧ t2.promise = none)
    (K : ∀ t2 ∈ q.tasks, t2.status = .running →
      some t2.taskId = ex ∨ ∃ w2 ∈ q.workers.allItems,
        t2.workerInfo = some w2.wid ∧ t2.taskId ∈ w2.taskInfos.map Prod.fst)
    (L : ∀ t2 ∈ q.tasks,
      (t2.status = .doneCb → t2.callbackCount = 1) ∧
      (t2.status ≠ .doneCb → t2.callbackCount = 0))
    (M : ∀ t2 ∈ q.tasks, t2.status = .abortedFromQueue →
      t2.promise = some (.rejected .abortError))
    (N : ∀ w2 ∈ q.workers.allItems,
      w2.taskInfos.length ≤ opts.concurrentTasksPerWorker)
    (ht : t ∈ q.tasks) (htid : t.taskId = tid)
    (hst : t.status = .created ∨ t.status = .queuedS)
    (hpr : t.promise = none)
    (hq : tid ∉ q.taskQueue)
    (hmaps : ∀ w2 ∈ q.workers.allItems, tid ∉ w2.taskInfos.map Prod.fst)
    (hw : w ∈ q.workers.allItems) (hwid : w.wid = wid)
    (hcap : w.taskInfos.length < opts.concurrentTasksPerWorker) :
    PoolInv opts ex (q.postTask wid tid sendOk) := by
  have hfind : q.findTask tid = some t := by
    rw [← htid]
    exact findTask_eq q t A ht
  have hnd2 : t.status ≠ .doneCb := by
    rcases hst with h | h <;> rw [h] <;> intro h2 <;> cases h2
  cases sendOk with
  | false =>
    have hpt : q.postTask wid tid false = q.doneOn tid (.rejected .sendError) := by
      simp [ThreadPool.postTask, hfind]
    rw [hpt]
    exact inv_doneOn opts ex ex q tid _ t hO A B C D E F G H I J K L M N ht htid
      hnd2 hq hmaps (Or.inl rfl)
  | true =>
    have hpt : q.postTask wid tid true =
        updateWorker wid (fun w2 =>
          { w2 with
            taskInfos := w2.taskInfos ++ [(tid, t.abortable)],
            refed := true,
            idleTimeout := false,
            sharedRequestCount := w2.sharedRequestCount + 1,
            notifyCount := w2.notifyCount + 1 })
          (updateTask tid
            (fun t2 => { t2 with workerInfo := some wid, status := .running }) q) := by
      simp [ThreadPool.postTask, hfind]
    rw [hpt]
    set g := fun w2 : WorkerInfo =>
      { w2 with
        taskInfos := w2.taskInfos ++ [(tid, t.abortable)],
        refed := true,
        idleTimeout := false,
        sharedRequestCount := w2.sharedRequestCount + 1,
        notifyCount := w2.notifyCount + 1 } with hg
    set h := fun t2 : TaskInfo =>
      { t2 with workerInfo := some wid, status := TStatus.running } with hh
    have htasks : (updateWorker wid g (updateTask tid h q)).tasks =
        q.tasks.map (fun t2 => if t2.taskId = tid then h t2 else t2) := rfl
    have hwork : (updateWorker wid g (updateTask tid h q)).workers.allItems =
        q.workers.allItems.map (fun w2 => if w2.wid = wid then g w2 else w2) := by
      simp [updateWorker, updateTask, allItems_updateItem]
    have hqueue : (updateWorker wid g (updateTask tid h q)).taskQueue =
        q.taskQueue := rfl
    have hnid : (updateWorker wid g (updateTask tid h q)).nextTaskId =
        q.nextTaskId := rfl
    have hnwid : (updateWorker wid g (updateTask tid h q)).nextWorkerId =
        q.nextWorkerId := rfl
    have hgwid : ∀ w2, (g w2).wid = w2.wid := fun _ => rfl
    have hhid : ∀ t2, (h t2).taskId = t2.taskId := fun _ => rfl
    refine
      { optionsEq := hO
        taskIdsNodup := ?_
        taskIdsBound := ?_
        widsNodup := ?_
        widsBound := ?_
        workerRefBound := ?_
        queueNodup := by rw [hqueue]; exact F
        queueTasks := ?_
        queuedMem := ?_
        mapKeysNodup := ?_
        mapTasks := ?_
        runningMem := ?_
        counts := ?_
        abortedInert := ?_
        sizeBound := ?_ }
    · rw [htasks, List.map_map]
      have : (TaskInfo.taskId ∘ fun t2 : TaskInfo =>
          if t2.taskId = tid then h t2 else t2) = TaskInfo.taskId := by
        funext t2
        by_cases h2 : t2.taskId = tid <;> simp [h2, hhid]
      rw [this]
      exact A
    · rw [htasks, hnid]
      intro t2 h2
      obtain ⟨t0, h0, he⟩ := List.mem_map.mp h2
      have : t2.taskId = t0.taskId := by
        subst he
        by_cases h3 : t0.taskId = tid <;> simp [h3, hhid]
      rw [this]
      exact B t0 h0
    · rw [hwork, List.map_map]
      have : (WorkerInfo.wid ∘ fun w2 : WorkerInfo =>
          if w2.wid = wid then g w2 else w2) = WorkerInfo.wid := by
        funext w2
        by_cases h2 : w2.wid = wid <;> simp [h2, hgwid]
      rw [this]
      exact C
    · rw [hwork, hnwid]
      intro w2 h2
      obtain ⟨w0, h0, he⟩ := List.mem_map.mp h2
      have : w2.wid = w0.wid := by
        subst he
        by_cases h3 : w0.wid = wid <;> simp [h3, hgwid]
      rw [this]
      exact D w0 h0
    · rw [htasks, hnwid]
      intro t2 h2 wid2 hw2
      obtain ⟨t0, h0, he⟩ := List.mem_map.mp h2
      by_cases h3 : t0.taskId = tid
      · rw [if_pos h3] at he
        rw [← he] at hw2
        have : some wid = some wid2 := hw2
        cases this
        rw [← hwid]
        exact D w hw
      · rw [if_neg h3] at he
        subst he
        exact E t0 h0 wid2 hw2
    · rw [htasks, hqueue]
      intro tid2 h2
      obtain ⟨t0, h0, hid, hstq, hwi, hpr0⟩ := G tid2 h2
      have hne : t0.taskId ≠ tid := by
        rw [hid]; intro he; exact hq (he ▸ h2)
      exact ⟨t0, List.mem_map.mpr ⟨t0, h0, if_neg hne⟩, hid, hstq, hwi, hpr0⟩
    · rw [htasks, hqueue]
      intro t2 h2 hstq
      obtain ⟨t0, h0, he⟩ := List.mem_map.mp h2
      by_cases h3 : t0.taskId = tid
      · rw [if_pos h3] at he
        rw [← he] at hstq
        cases hstq
      · rw [if_neg h3] at he
        subst he
        rcases H t0 h0 hstq with h4 | h4
        · exact absurd h4 h3
        · exact h4
    · rw [hwork]
      intro w2 h2
      obtain ⟨w0, h0, he⟩ := List.mem_map.mp h2
      by_cases h3 : w0.wid = wid
      · rw [if_pos h3] at he
        subst he
        show ((w0.taskInfos ++ [(tid, t.abortable)]).map Prod.fst).Nodup
        rw [List.map_append]
        simp only [List.map_cons, List.map_nil]
        rw [List.nodup_append]
        refine ⟨I w0 h0, List.nodup_singleton _, ?_⟩
        intro k hk hk2
        simp only [List.mem_singleton] at hk2
        subst hk2
        exact hmaps w0 h0 hk
      · rw [if_neg h3] at he
        subst he
        exact I w0 h0
    · rw [hwork, htasks]
      intro w2 h2 e he2
      obtain ⟨w0, h0, he⟩ := List.mem_map.mp h2
      by_cases h3 : w0.wid = wid
      · rw [if_pos h3] at he
        subst he
        have he3 : e ∈ w0.taskInfos ++ [(tid, t.abortable)] := he2
        rcases List.mem_append.mp he3 with h4 | h4
        · obtain ⟨t0, ht0, hid, hstr, hwi, hab, hpr0⟩ := J w0 h0 e h4
          have hne : t0.taskId ≠ tid := by
            rw [hid]
            intro h5
            exact hmaps w0 h0 (h5 ▸ List.mem_map_of_mem Prod.fst h4)
          refine ⟨t0, List.mem_map.mpr ⟨t0, ht0, if_neg hne⟩, hid, hstr, ?_, hab, hpr0⟩
          rw [hgwid, hwi]
        · simp only [List.mem_singleton] at h4
          subst h4
          refine ⟨h t, List.mem_map.mpr ⟨t, ht, if_pos htid⟩, htid, rfl, ?_, rfl, hpr⟩
          rw [hgwid, h3]
      · rw [if_neg h3] at he
        subst he
        obtain ⟨t0, ht0, hid, hstr, hwi, hab, hpr0⟩ := J w0 h0 e he2
        have hne : t0.taskId ≠ tid := by
          rw [hid]
          intro h5
          exact hmaps w0 h0 (h5 ▸ List.mem_map_of_mem Prod.fst he2)
        exact ⟨t0, List.mem_map.mpr ⟨t0, ht0, if_neg hne⟩, hid, hstr, hwi, hab, hpr0⟩
    · rw [htasks, hwork]
      intro t2 h2 hstr
      obtain ⟨t0, h0, he⟩ := List.mem_map.mp h2
      by_cases h3 : t0.taskId = tid
      · rw [if_pos h3] at he
        refine Or.inr ⟨g w, List.mem_map.mpr ⟨w, hw, if_pos hwid⟩, ?_, ?_⟩
        · rw [← he]
          show some wid = some (g w).wid
          rw [hgwid, hwid]
        · rw [← he]
          show t0.taskId ∈ (w.taskInfos ++ [(tid, t.abortable)]).map Prod.fst
          rw [List.map_append, h3]
          exact List.mem_append_right _ (by simp)
      · rw [if_neg h3] at he
        subst he
        rcases K t0 h0 hstr with h4 | h4
        · exact Or.inl h4
        · obtain ⟨w0, hw0, hwi, hmem⟩ := h4
          by_cases h5 : w0.wid = wid
          · refine Or.inr ⟨g w0, List.mem_map.mpr ⟨w0, hw0, if_pos h5⟩, ?_, ?_⟩
            · rw [hgwid]; exact hwi
            · show t0.taskId ∈ (w0.taskInfos ++ [(tid, t.abortable)]).map Prod.fst
              rw [List.map_append]
              exact List.mem_append_left _ hmem
          · exact Or.inr ⟨w0, List.mem_map.mpr ⟨w0, hw0, if_neg h5⟩, hwi, hmem⟩
    · rw [htasks]
      intro t2 h2
      obtain ⟨t0, h0, he⟩ := List.mem_map.mp h2
      by_cases h3 : t0.taskId = tid
      · rw [if_pos h3] at he
        have ht0 : t0 = t := task_eq_of_id A h0 ht (h3.trans htid.symm)
        subst ht0
        have hc0 : t0.callbackCount = 0 := (L t0 h0).2 hnd2
        constructor
        · intro h4
          rw [← he] at h4
          cases h4
        · intro _
          rw [← he]
          exact hc0
      · rw [if_neg h3] at he
        subst he
        exact L t0 h0
    · rw [htasks]
      intro t2 h2 hst2
      obtain ⟨t0, h0, he⟩ := List.mem_map.mp h2
      by_cases h3 : t0.taskId = tid
      · rw [if_pos h3] at he
        rw [← he] at hst2
        cases hst2
      · rw [if_neg h3] at he
        subst he
        exact M t0 h0 hst2
    · rw [hwork]
      intro w2 h2
      obtain ⟨w0, h0, he⟩ := List.mem_map.mp h2
      by_cases h3 : w0.wid = wid
      · rw [if_pos h3] at he
        subst he
        show (w0.taskInfos ++ [(tid, t.abortable)]).length ≤
          opts.concurrentTasksPerWorker
        rw [List.length_append]
        have hw0 : w0 = w :=
          worker_eq_of_id C h0 hw (h3.trans hwid.symm)
        subst hw0
        simpa using hcap
      · rw [if_neg h3] at he
        subst he
        exact N w0 h0

/-- Updating a worker's bookkeeping flags (anything but its id and task
map) preserves the invariant. -/
theorem inv_updateWorker_flags (opts : FilledOptions) (ex : Option Nat)
    (p : ThreadPool) (wid : Nat) (f : WorkerInfo → WorkerInfo)
    (hf1 : ∀ w, (f w).wid = w.wid) (hf2 : ∀ w, (f w).taskInfos = w.taskInfos)
    (hInv : PoolInv opts ex p) : PoolInv opts ex (updateWorker wid f p) := by
  have hwork : (updateWorker wid f p).workers.allItems =
      p.workers.allItems.map (fun w2 => if w2.wid = wid then f w2 else w2) := by
    simp [updateWorker, allItems_updateItem]
  have hkey : ∀ w2 : WorkerInfo,
      ((if w2.wid = wid then f w2 else w2).wid = w2.wid) ∧
      ((if w2.wid = wid then f w2 else w2).taskInfos = w2.taskInfos) := by
    intro w2
    by_cases h2 : w2.wid = wid <;> simp [h2, hf1, hf2]
  refine
    { optionsEq := hInv.optionsEq
      taskIdsNodup := hInv.taskIdsNodup
      taskIdsBound := hInv.taskIdsBound
      widsNodup := ?_
      widsBound := ?_
      workerRefBound := hInv.workerRefBound
      queueNodup := hInv.queueNodup
      queueTasks := hInv.queueTasks
      queuedMem := hInv.queuedMem
      mapKeysNodup := ?_
      mapTasks := ?_
      runningMem := ?_
      counts := hInv.counts
      abortedInert := hInv.abortedInert
      sizeBound := ?_ }
  · rw [hwork, List.map_map]
    have : (WorkerInfo.wid ∘ fun w2 : WorkerInfo =>
        if w2.wid = wid then f w2 else w2) = WorkerInfo.wid := by
      funext w2; exact (hkey w2).1
    rw [this]
    exact hInv.widsNodup
  · rw [hwork]
    intro w2 h2
    obtain ⟨w0, h0, he⟩ := List.mem_map.mp h2
    rw [← he, (hkey w0).1]
    exact hInv.widsBound w0 h0
  · rw [hwork]
    intro w2 h2
    obtain ⟨w0, h0, he⟩ := List.mem_map.mp h2
    rw [← he, (hkey w0).2]
    exact hInv.mapKeysNodup w0 h0
  · rw [hwork]
    intro w2 h2 e he2
    obtain ⟨w0, h0, he⟩ := List.mem_map.mp h2
    rw [← he, (hkey w0).2] at he2
    obtain ⟨t0, ht0, hid, hstr, hwi, hab, hpr⟩ := hInv.mapTasks w0 h0 e he2
    refine ⟨t0, ht0, hid, hstr, ?_, hab, hpr⟩
    rw [← he, (hkey w0).1]
    exact hwi
  · rw [hwork]
    intro t2 h2 hstr
    rcases hInv.runningMem t2 h2 hstr with h4 | ⟨w0, h0, hwi, hmem⟩
    · exact Or.inl h4
    · refine Or.inr ⟨(if w0.wid = wid then f w0 else w0),
        List.mem_map.mpr ⟨w0, h0, rfl⟩, ?_, ?_⟩
      · rw [(hkey w0).1]; exact hwi
      · rw [(hkey w0).2]; exact hmem
  · rw [hwork]
    intro w2 h2
    obtain ⟨w0, h0, he⟩ := List.mem_map.mp h2
    rw [← he, (hkey w0).2]
    exact hInv.sizeBound w0 h0

/-- `_onWorkerAvailable` preserves the invariant: it either dispatches the
queue head through `postTask` or arms an idle timer. -/
theorem inv_onWorkerAvailable (opts : FilledOptions) (ex : Option Nat)
    (p : ThreadPool) (wid : Nat) (sOk : Bool)
    (hInv : PoolInv opts ex p) : PoolInv opts ex (p.onWorkerAvailable wid sOk) := by
  unfold ThreadPool.onWorkerAvailable
  rcases hfw : p.findWorker wid with _ | w
  · simp only [hfw]
    exact hInv
  · obtain ⟨hwmem, hwwid⟩ := findWorker_mem p wid w hfw
    rcases hq : p.taskQueue with _ | ⟨tid, rest⟩
    · simp only [hfw, hq]
      split_ifs with hcond
      · exact inv_updateWorker_flags opts ex p wid _ (fun _ => rfl) (fun _ => rfl) hInv
      · exact hInv
    · simp only [hfw, hq]
      split_ifs with hcond hcond2
      · -- dispatch the queue head
        obtain ⟨t, ht, htid, hstq, hwi, hpr⟩ :=
          hInv.queueTasks tid (hq ▸ List.mem_cons_self tid rest)
        have hqn := hInv.queueNodup
        rw [hq, List.nodup_cons] at hqn
        have hcap : w.taskInfos.length < opts.concurrentTasksPerWorker := by
          apply currentUsage_lt
          rw [← hInv.optionsEq]
          exact hcond
        refine inv_postTask opts ex { p with taskQueue := rest } wid tid sOk t w
          hInv.optionsEq hInv.taskIdsNodup hInv.taskIdsBound hInv.widsNodup
          hInv.widsBound hInv.workerRefBound hqn.2 ?_ ?_ hInv.mapKeysNodup
          hInv.mapTasks hInv.runningMem hInv.counts hInv.abortedInert
          hInv.sizeBound ht htid (Or.inr hstq) hpr hqn.1 ?_ hwmem hwwid hcap
        · intro tid2 h2
          exact hInv.queueTasks tid2 (hq ▸ List.mem_cons_of_mem tid h2)
        · intro t2 h2 hst2
          have := hInv.queuedMem t2 h2 hst2
          rw [hq] at this
          exact List.mem_cons.mp this
        · intro w2 hw2 hmem
          obtain ⟨e, he2, hee⟩ := List.mem_map.mp hmem
          obtain ⟨t0, ht0, hid, hstr, _, _, _⟩ := hInv.mapTasks w2 hw2 e he2
          have ht0t : t0 = t :=
            task_eq_of_id hInv.taskIdsNodup ht0 ht ((hid.trans hee).trans htid.symm)
          rw [ht0t, hstq] at hstr
          cases hstr
      · exact inv_updateWorker_flags opts ex p wid _ (fun _ => rfl) (fun _ => rfl) hInv
      · exact hInv

/-- `maybeAvailable` preserves the invariant. -/
theorem inv_maybeAvailable (opts : FilledOptions) (ex : Option Nat)
    (p : ThreadPool) (wid : Nat) (sOk : Bool)
    (hInv : PoolInv opts ex p) : PoolInv opts ex (p.maybeAvailable wid sOk) := by
  unfold ThreadPool.maybeAvailable
  rcases hfw : p.findWorker wid with _ | w
  · simp only [hfw]
    exact hInv
  · simp only [hfw]
    split_ifs with hcond
    · exact inv_onWorkerAvailable opts ex p wid sOk hInv
    · exact hInv

/-- Registering a freshly constructed descriptor preserves the invariant. -/
theorem inv_newTask (opts : FilledOptions) (ex : Option Nat) (p : ThreadPool)
    (ab : Bool) (hInv : PoolInv opts ex p) :
    PoolInv opts ex
      { p with tasks := p.tasks ++ [{ taskId := p.nextTaskId, abortable := ab }],
               nextTaskId := p.nextTaskId + 1 } := by
  have hmem : ∀ t2 : TaskInfo,
      t2 ∈ p.tasks ++ [{ taskId := p.nextTaskId, abortable := ab }] →
      t2 ∈ p.tasks ∨ t2 = { taskId := p.nextTaskId, abortable := ab } := by
    intro t2 h2
    rcases List.mem_append.mp h2 with h | h
    · exact Or.inl h
    · exact Or.inr (List.mem_singleton.mp h)
  refine
    { optionsEq := hInv.optionsEq
      taskIdsNodup := ?_
      taskIdsBound := ?_
      widsNodup := hInv.widsNodup
      widsBound := hInv.widsBound
      workerRefBound := ?_
      queueNodup := hInv.queueNodup
      queueTasks := ?_
      queuedMem := ?_
      mapKeysNodup := hInv.mapKeysNodup
      mapTasks := ?_
      runningMem := ?_
      counts := ?_
      abortedInert := ?_
      sizeBound := hInv.sizeBound }
  · rw [List.map_append]
    simp only [List.map_cons, List.map_nil]
    rw [List.nodup_append]
    refine ⟨hInv.taskIdsNodup, List.nodup_singleton _, ?_⟩
    intro k hk hk2
    simp only [List.mem_singleton] at hk2
    obtain ⟨t2, h2, he⟩ := List.mem_map.mp hk
    have := hInv.taskIdsBound t2 h2
    omega
  · intro t2 h2
    show t2.taskId < p.nextTaskId + 1
    rcases hmem t2 h2 with h | h
    · have := hInv.taskIdsBound t2 h
      omega
    · rw [h]
      show p.nextTaskId < p.nextTaskId + 1
      omega
  · intro t2 h2 wid2 hw2
    rcases hmem t2 h2 with h | h
    · exact hInv.workerRefBound t2 h wid2 hw2
    · rw [h] at hw2
      cases hw2
  · intro tid2 h2
    obtain ⟨t2, ht2, hrest⟩ := hInv.queueTasks tid2 h2
    exact ⟨t2, List.mem_append_left _ ht2, hrest⟩
  · intro t2 h2 hst2
    rcases hmem t2 h2 with h | h
    · exact hInv.queuedMem t2 h hst2
    · rw [h] at hst2
      cases hst2
  · intro w2 hw2 e he2
    obtain ⟨t2, ht2, hrest⟩ := hInv.mapTasks w2 hw2 e he2
    exact ⟨t2, List.mem_append_left _ ht2, hrest⟩
  · intro t2 h2 hst2
    rcases hmem t2 h2 with h | h
    · exact hInv.runningMem t2 h hst2
    · rw [h] at hst2
      cases hst2
  · intro t2 h2
    rcases hmem t2 h2 with h | h
    · exact hInv.counts t2 h
    · rw [h]
      simp
  · intro t2 h2 hst2
    rcases hmem t2 h2 with h | h
    · exact hInv.abortedInert t2 h hst2
    · rw [h] at hst2
      cases hst2

/-- Appending a fresh element keeps a duplicate-free list duplicate-free. -/
theorem nodup_append_single (l : List Nat) (k : Nat) (h : l.Nodup)
    (hk : k ∉ l) : (l ++ [k]).Nodup := by
  rw [List.nodup_append]
  refine ⟨h, List.nodup_singleton k, ?_⟩
  intro a ha ha2
  simp only [List.mem_singleton] at ha2
  subst ha2
  exact hk ha

/-- Inserting a fresh element in the middle keeps a duplicate-free list
duplicate-free. -/
theorem nodup_middle_single (l1 l2 : List Nat) (k : Nat)
    (h : (l1 ++ l2).Nodup) (hk : k ∉ l1 ++ l2) : (l1 ++ [k] ++ l2).Nodup := by
  rw [List.append_assoc, List.singleton_append]
  exact List.nodup_middle.mpr (List.nodup_cons.mpr ⟨hk, h⟩)

/-- Spawning a fresh worker preserves the invariant. -/
theorem inv_addNewWorker (opts : FilledOptions) (ex : Option Nat)
    (p : ThreadPool) (mr : Bool) (hInv : PoolInv opts ex p) :
    PoolInv opts ex (p.addNewWorker mr) := by
  have hnew : p.nextWorkerId ∉ p.workers.allItems.map WorkerInfo.wid := by
    intro hmem
    obtain ⟨w2, h2, he⟩ := List.mem_map.mp hmem
    have := hInv.widsBound w2 h2
    omega
  have hperm : ∀ w2 : WorkerInfo, w2 ∈ (p.addNewWorker mr).workers.allItems ↔
      (w2 ∈ p.workers.allItems ∨ w2 = { wid := p.nextWorkerId, ready := mr }) := by
    intro w2
    cases mr <;>
      simp [ThreadPool.addNewWorker, ResourcePool.allItems, List.mem_append,
        List.mem_singleton] <;>
      tauto
  have hnwid : (p.addNewWorker mr).nextWorkerId = p.nextWorkerId + 1 := by
    cases mr <;> rfl
  have hT : (p.addNewWorker mr).tasks = p.tasks := by cases mr <;> rfl
  have hQ : (p.addNewWorker mr).taskQueue = p.taskQueue := by cases mr <;> rfl
  have hN : (p.addNewWorker mr).nextTaskId = p.nextTaskId := by cases mr <;> rfl
  have hOp : (p.addNewWorker mr).options = p.options := by cases mr <;> rfl
  refine
    { optionsEq := by rw [hOp]; exact hInv.optionsEq
      taskIdsNodup := by rw [hT]; exact hInv.taskIdsNodup
      taskIdsBound := by rw [hT, hN]; exact hInv.taskIdsBound
      widsNodup := ?_
      widsBound := ?_
      workerRefBound := by
        rw [hT, hnwid]
        intro t2 h2 wid2 hw2
        have := hInv.workerRefBound t2 h2 wid2 hw2
        omega
      queueNodup := by rw [hQ]; exact hInv.queueNodup
      queueTasks := by rw [hQ, hT]; exact hInv.queueTasks
      queuedMem := by rw [hQ, hT]; exact hInv.queuedMem
      mapKeysNodup := ?_
      mapTasks := ?_
      runningMem := ?_
      counts := by rw [hT]; exact hInv.counts
      abortedInert := by rw [hT]; exact hInv.abortedInert
      sizeBound := ?_ }
  · have hold := hInv.widsNodup
    rw [ResourcePool.allItems, List.map_append] at hold
    have hnew2 : p.nextWorkerId ∉
        p.workers.pendingItems.map WorkerInfo.wid ++
        p.workers.readyItems.map WorkerInfo.wid := by
      rw [ResourcePool.allItems, List.map_append] at hnew
      exact hnew
    cases mr
    · show ((p.workers.pendingItems ++
        [({ wid := p.nextWorkerId, ready := false } : WorkerInfo)]
        ++ p.workers.readyItems).map WorkerInfo.wid).Nodup
      rw [List.map_append, List.map_append]
      simp only [List.map_cons, List.map_nil]
      exact nodup_middle_single _ _ _ hold hnew2
    · show ((p.workers.pendingItems ++ (p.workers.readyItems ++
        [({ wid := p.nextWorkerId, ready := true } : WorkerInfo)])).map
        WorkerInfo.wid).Nodup
      rw [List.map_append, List.map_append]
      simp only [List.map_cons, List.map_nil]
      rw [← List.append_assoc]
      exact nodup_append_single _ _ hold hnew2
  · intro w2 h2
    rw [hnwid]
    rcases (hperm w2).mp h2 with h | h
    · have := hInv.widsBound w2 h
      omega
    · rw [h]
      show p.nextWorkerId < p.nextWorkerId + 1
      omega
  · intro w2 h2
    rcases (hperm w2).mp h2 with h | h
    · exact hInv.mapKeysNodup w2 h
    · subst h
      simp
  · rw [hT]
    intro w2 h2 e he2
    rcases (hperm w2).mp h2 with h | h
    · exact hInv.mapTasks w2 h e he2
    · subst h
      simp at he2
  · rw [hT]
    intro t2 h2 hst2
    rcases hInv.runningMem t2 h2 hst2 with h4 | ⟨w0, h0, hwi, hmem⟩
    · exact Or.inl h4
    · exact Or.inr ⟨w0, (hperm w0).mpr (Or.inl h0), hwi, hmem⟩
  · intro w2 h2
    rcases (hperm w2).mp h2 with h | h
    · exact hInv.sizeBound w2 h
    · subst h
      simp

/-- A freshly registered descriptor is in neither the queue nor any task
map. -/
theorem fresh_task_unplaced (opts : FilledOptions) (ex : Option Nat)
    (q : ThreadPool) (t : TaskInfo) (hInv : PoolInv opts ex q)
    (ht : t ∈ q.tasks) (hstc : t.status = .created) :
    t.taskId ∉ q.taskQueue ∧
      ∀ w2 ∈ q.workers.allItems, t.taskId ∉ w2.taskInfos.map Prod.fst := by
  constructor
  · intro hmem
    obtain ⟨t2, h2, hid, hstq, _, _⟩ := hInv.queueTasks t.taskId hmem
    have : t2 = t := task_eq_of_id hInv.taskIdsNodup h2 ht hid
    rw [this, hstc] at hstq
    cases hstq
  · intro w2 hw2 hmem
    obtain ⟨e, he2, hee⟩ := List.mem_map.mp hmem
    obtain ⟨t2, h2, hid, hstr, _, _, _⟩ := hInv.mapTasks w2 hw2 e he2
    have : t2 = t := task_eq_of_id hInv.taskIdsNodup h2 ht (hid.trans hee)
    rw [this, hstc] at hstr
    cases hstr

/-- Marking a freshly registered descriptor as rejected-at-submission
preserves the invariant. -/
theorem inv_rejectTag (opts : FilledOptions) (ex : Option Nat)
    (q : ThreadPool) (tid : Nat) (t : TaskInfo) (hInv : PoolInv opts ex q)
    (ht : t ∈ q.tasks) (htid : t.taskId = tid) (hstc : t.status = .created) :
    PoolInv opts ex
      (updateTask tid (fun t2 => { t2 with status := .rejectedAtSubmit }) q) := by
  obtain ⟨hq, hmaps⟩ := fresh_task_unplaced opts ex q t hInv ht hstc
  rw [htid] at hq hmaps
  have htasks : (updateTask tid
      (fun t2 => { t2 with status := TStatus.rejectedAtSubmit }) q).tasks =
      q.tasks.map (fun t2 => if t2.taskId = tid then
        { t2 with status := TStatus.rejectedAtSubmit } else t2) := rfl
  refine
    { optionsEq := hInv.optionsEq
      taskIdsNodup := ?_
      taskIdsBound := ?_
      widsNodup := hInv.widsNodup
      widsBound := hInv.widsBound
      workerRefBound := ?_
      queueNodup := hInv.queueNodup
      queueTasks := ?_
      queuedMem := ?_
      mapKeysNodup := hInv.mapKeysNodup
      mapTasks := ?_
      runningMem := ?_
      counts := ?_
      abortedInert := ?_
      sizeBound := hInv.sizeBound }
  · rw [htasks, List.map_map]
    have : (TaskInfo.taskId ∘ fun t2 : TaskInfo =>
        if t2.taskId = tid then { t2 with status := TStatus.rejectedAtSubmit }
        else t2) = TaskInfo.taskId := by
      funext t2
      by_cases h2 : t2.taskId = tid <;> simp [h2]
    rw [this]
    exact hInv.taskIdsNodup
  · rw [htasks]
    intro t2 h2
    obtain ⟨t0, h0, he⟩ := List.mem_map.mp h2
    have : t2.taskId = t0.taskId := by
      subst he
      by_cases h3 : t0.taskId = tid <;> simp [h3]
    rw [this]
    exact hInv.taskIdsBound t0 h0
  · rw [htasks]
    intro t2 h2 wid2 hw2
    obtain ⟨t0, h0, he⟩ := List.mem_map.mp h2
    have : t2.workerInfo = t0.workerInfo := by
      subst he
      by_cases h3 : t0.taskId = tid <;> simp [h3]
    rw [this] at hw2
    exact hInv.workerRefBound t0 h0 wid2 hw2
  · rw [htasks]
    intro tid2 h2
    obtain ⟨t0, h0, hid, hstq, hwi, hpr⟩ := hInv.queueTasks tid2 h2
    have hne : t0.taskId ≠ tid := by
      rw [hid]; intro he; exact hq (he ▸ h2)
    exact ⟨t0, List.mem_map.mpr ⟨t0, h0, if_neg hne⟩, hid, hstq, hwi, hpr⟩
  · rw [htasks]
    intro t2 h2 hst2
    obtain ⟨t0, h0, he⟩ := List.mem_map.mp h2
    by_cases h3 : t0.taskId = tid
    · rw [if_pos h3] at he
      rw [← he] at hst2
      cases hst2
    · rw [if_neg h3] at he
      subst he
      exact hInv.queuedMem t0 h0 hst2
  · rw [htasks]
    intro w2 hw2 e he2
    obtain ⟨t0, h0, hid, hstr, hwi, hab, hpr⟩ := hInv.mapTasks w2 hw2 e he2
    have hne : t0.taskId ≠ tid := by
      rw [hid]
      intro h4
      exact hmaps w2 hw2 (h4 ▸ List.mem_map_of_mem Prod.fst he2)
    exact ⟨t0, List.mem_map.mpr ⟨t0, h0, if_neg hne⟩, hid, hstr, hwi, hab, hpr⟩
  · rw [htasks]
    intro t2 h2 hst2
    obtain ⟨t0, h0, he⟩ := List.mem_map.mp h2
    by_cases h3 : t0.taskId = tid
    · rw [if_pos h3] at he
      rw [← he] at hst2
      cases hst2
    · rw [if_neg h3] at he
      subst he
      rcases hInv.runningMem t0 h0 hst2 with h4 | h4
      · exact Or.inl h4
      · exact Or.inr h4
  · rw [htasks]
    intro t2 h2
    obtain ⟨t0, h0, he⟩ := List.mem_map.mp h2
    by_cases h3 : t0.taskId = tid
    · rw [if_pos h3] at he
      have ht0 : t0 = t := task_eq_of_id hInv.taskIdsNodup h0 ht (h3.trans htid.symm)
      have hc0 : t0.callbackCount = 0 := by
        refine (hInv.counts t0 h0).2 ?_
        rw [ht0, hstc]
        intro h4
        cases h4
      constructor
      · intro h4
        rw [← he] at h4
        cases h4
      · intro _
        rw [← he]
        show t0.callbackCount = 0
        exact hc0
    · rw [if_neg h3] at he
      subst he
      exact hInv.counts t0 h0
  · rw [htasks]
    intro t2 h2 hst2
    obtain ⟨t0, h0, he⟩ := List.mem_map.mp h2
    by_cases h3 : t0.taskId = tid
    · rw [if_pos h3] at he
      rw [← he] at hst2
      cases hst2
    · rw [if_neg h3] at he
      subst he
      exact hInv.abortedInert t0 h0 hst2

/-- Enqueuing a freshly registered descriptor preserves the invariant. -/
theorem inv_enqueueTag (opts : FilledOptions) (ex : Option Nat)
    (q : ThreadPool) (tid : Nat) (t : TaskInfo) (hInv : PoolInv opts ex q)
    (ht : t ∈ q.tasks) (htid : t.taskId = tid) (hstc : t.status = .created)
    (hwi : t.workerInfo = none) (hpm : t.promise = none) :
    PoolInv opts ex
      (updateTask tid (fun t2 => { t2 with status := .queuedS })
        { q with taskQueue := q.taskQueue ++ [tid] }) := by
  obtain ⟨hq, hmaps⟩ := fresh_task_unplaced opts ex q t hInv ht hstc
  rw [htid] at hq hmaps
  have htasks : (updateTask tid (fun t2 => { t2 with status := TStatus.queuedS })
      { q with taskQueue := q.taskQueue ++ [tid] }).tasks =
      q.tasks.map (fun t2 => if t2.taskId = tid then
        { t2 with status := TStatus.queuedS } else t2) := rfl
  have hqueue : (updateTask tid (fun t2 => { t2 with status := TStatus.queuedS })
      { q with taskQueue := q.taskQueue ++ [tid] }).taskQueue =
      q.taskQueue ++ [tid] := rfl
  refine
    { optionsEq := hInv.optionsEq
      taskIdsNodup := ?_
      taskIdsBound := ?_
      widsNodup := hInv.widsNodup
      widsBound := hInv.widsBound
      workerRefBound := ?_
      queueNodup := ?_
      queueTasks := ?_
      queuedMem := ?_
      mapKeysNodup := hInv.mapKeysNodup
      mapTasks := ?_
      runningMem := ?_
      counts := ?_
      abortedInert := ?_
      sizeBound := hInv.sizeBound }
  · rw [htasks, List.map_map]
    have : (TaskInfo.taskId ∘ fun t2 : TaskInfo =>
        if t2.taskId = tid then { t2 with status := TStatus.queuedS }
        else t2) = TaskInfo.taskId := by
      funext t2
      by_cases h2 : t2.taskId = tid <;> simp [h2]
    rw [this]
    exact hInv.taskIdsNodup
  · rw [htasks]
    intro t2 h2
    obtain ⟨t0, h0, he⟩ := List.mem_map.mp h2
    have : t2.taskId = t0.taskId := by
      subst he
      by_cases h3 : t0.taskId = tid <;> simp [h3]
    rw [this]
    exact hInv.taskIdsBound t0 h0
  · rw [htasks]
    intro t2 h2 wid2 hw2
    obtain ⟨t0, h0, he⟩ := List.mem_map.mp h2
    have : t2.workerInfo = t0.workerInfo := by
      subst he
      by_cases h3 : t0.taskId = tid <;> simp [h3]
    rw [this] at hw2
    exact hInv.workerRefBound t0 h0 wid2 hw2
  · rw [hqueue]
    exact nodup_append_single _ _ hInv.queueNodup hq
  · rw [hqueue, htasks]
    intro tid2 h2
    rcases List.mem_append.mp h2 with h | h
    · obtain ⟨t0, h0, hid, hstq, hwi0, hpr0⟩ := hInv.queueTasks tid2 h
      have hne : t0.taskId ≠ tid := by
        rw [hid]; intro he; exact hq (he ▸ h)
      exact ⟨t0, List.mem_map.mpr ⟨t0, h0, if_neg hne⟩, hid, hstq, hwi0, hpr0⟩
    · simp only [List.mem_singleton] at h
      subst h
      refine ⟨{ t with status := TStatus.queuedS },
        List.mem_map.mpr ⟨t, ht, if_pos htid⟩, ?_, rfl, ?_, ?_⟩
      · show t.taskId = tid2
        exact htid
      · show t.workerInfo = none
        exact hwi
      · show t.promise = none
        exact hpm
  · rw [hqueue, htasks]
    intro t2 h2 hst2
    obtain ⟨t0, h0, he⟩ := List.mem_map.mp h2
    by_cases h3 : t0.taskId = tid
    · rw [if_pos h3] at he
      have : t2.taskId = t0.taskId := by
        subst he; rfl
      rw [this, h3]
      exact List.mem_append_right _ (by simp)
    · rw [if_neg h3] at he
      subst he
      exact List.mem_append_left _ (hInv.queuedMem t0 h0 hst2)
  · rw [htasks]
    intro w2 hw2 e he2
    obtain ⟨t0, h0, hid, hstr, hwi0, hab, hpr0⟩ := hInv.mapTasks w2 hw2 e he2
    have hne : t0.taskId ≠ tid := by
      rw [hid]
      intro h4
      exact hmaps w2 hw2 (h4 ▸ List.mem_map_of_mem Prod.fst he2)
    exact ⟨t0, List.mem_map.mpr ⟨t0, h0, if_neg hne⟩, hid, hstr, hwi0, hab, hpr0⟩
  · rw [htasks]
    intro t2 h2 hst2
    obtain ⟨t0, h0, he⟩ := List.mem_map.mp h2
    by_cases h3 : t0.taskId = tid
    · rw [if_pos h3] at he
      rw [← he] at hst2
      cases hst2
    · rw [if_neg h3] at he
      subst he
      exact hInv.runningMem t0 h0 hst2
  · rw [htasks]
    intro t2 h2
    obtain ⟨t0, h0, he⟩ := List.mem_map.mp h2
    by_cases h3 : t0.taskId = tid
    · rw [if_pos h3] at he
      have ht0 : t0 = t := task_eq_of_id hInv.taskIdsNodup h0 ht (h3.trans htid.symm)
      have hc0 : t0.callbackCount = 0 := by
        refine (hInv.counts t0 h0).2 ?_
        rw [ht0, hstc]
        intro h4
        cases h4
      constructor
      · intro h4
        rw [← he] at h4
        cases h4
      · intro _
        rw [← he]
        show t0.callbackCount = 0
        exact hc0
    · rw [if_neg h3] at he
      subst he
      exact hInv.counts t0 h0
  · rw [htasks]
    intro t2 h2 hst2
    obtain ⟨t0, h0, he⟩ := List.mem_map.mp h2
    by_cases h3 : t0.taskId = tid
    · rw [if_pos h3] at he
      rw [← he] at hst2
      cases hst2
    · rw [if_neg h3] at he
      subst he
      exact hInv.abortedInert t0 h0 hst2

/-- `runTask` preserves the invariant on every path: early rejection,
enqueueing (with or without spawning), and direct dispatch. -/
theorem inv_runTask (opts : FilledOptions) (ex : Option Nat) (p : ThreadPool)
    (ab sOk : Bool) (hc1 : 1 ≤ opts.concurrentTasksPerWorker)
    (hInv : PoolInv opts ex p) : PoolInv opts ex (p.runTask ab sOk).1 := by
  have hInv0 := inv_newTask opts ex p ab hInv
  have ht0 : ({ taskId := p.nextTaskId, abortable := ab } : TaskInfo) ∈
      (p.tasks ++ [{ taskId := p.nextTaskId, abortable := ab }]) :=
    List.mem_append_right _ (List.mem_singleton.mpr rfl)
  unfold ThreadPool.runTask
  dsimp only
  split
  · -- the queue is non-empty
    split
    · split
      · exact inv_rejectTag opts ex _ p.nextTaskId _ hInv0 ht0 rfl rfl
      · exact inv_rejectTag opts ex _ p.nextTaskId _ hInv0 ht0 rfl rfl
    · split
      · exact inv_enqueueTag opts ex _ p.nextTaskId _
          (inv_addNewWorker opts ex _ false hInv0) ht0 rfl rfl rfl rfl
      · exact inv_enqueueTag opts ex _ p.nextTaskId _ hInv0 ht0 rfl rfl rfl rfl
  · -- the queue is empty
    rcases hfa : findAvailable p.workers.readyItems
        ((p.options.concurrentTasksPerWorker : ℕ∞)) with _ | w
    · simp only [hfa]
      dsimp only
      split_ifs <;>
        first
          | exact inv_rejectTag opts ex _ p.nextTaskId _ hInv0 ht0 rfl rfl
          | exact inv_rejectTag opts ex _ p.nextTaskId _
              (inv_addNewWorker opts ex _ false hInv0) ht0 rfl rfl
          | exact inv_enqueueTag opts ex _ p.nextTaskId _ hInv0 ht0 rfl rfl rfl rfl
          | exact inv_enqueueTag opts ex _ p.nextTaskId _
              (inv_addNewWorker opts ex _ false hInv0) ht0 rfl rfl rfl rfl
    · simp only [hfa]
      obtain ⟨hwmem, husage⟩ := findAvailable_some _ _ _ hfa
      have hdisp : ∀ q : ThreadPool, PoolInv opts ex q →
          ({ taskId := p.nextTaskId, abortable := ab } : TaskInfo) ∈ q.tasks →
          w ∈ q.workers.allItems →
          PoolInv opts ex (q.postTask w.wid p.nextTaskId sOk) := by
        intro q hInvq htq hwq
        have hfr := fresh_task_unplaced opts ex q _ hInvq htq rfl
        have hcap : w.taskInfos.length < opts.concurrentTasksPerWorker := by
          rcases husage with hz | hlt
          · have := currentUsage_zero w hz
            omega
          · apply currentUsage_lt
            rw [← hInv.optionsEq]
            exact hlt
        exact inv_postTask opts ex q w.wid p.nextTaskId sOk _ w hInvq.optionsEq
          hInvq.taskIdsNodup hInvq.taskIdsBound hInvq.widsNodup hInvq.widsBound
          hInvq.workerRefBound hInvq.queueNodup hInvq.queueTasks
          (fun t2 h2 hst2 => Or.inr (hInvq.queuedMem t2 h2 hst2))
          hInvq.mapKeysNodup hInvq.mapTasks hInvq.runningMem hInvq.counts
          hInvq.abortedInert hInvq.sizeBound htq rfl (Or.inl rfl) rfl hfr.1
          hfr.2 hwq rfl hcap
      split
      · -- the abortable-exclusive rule discarded the candidate
        dsimp only
        split_ifs <;>
          first
            | exact inv_rejectTag opts ex _ p.nextTaskId _ hInv0 ht0 rfl rfl
            | exact inv_rejectTag opts ex _ p.nextTaskId _
                (inv_addNewWorker opts ex _ false hInv0) ht0 rfl rfl
            | exact inv_enqueueTag opts ex _ p.nextTaskId _ hInv0 ht0 rfl rfl rfl rfl
            | exact inv_enqueueTag opts ex _ p.nextTaskId _
                (inv_addNewWorker opts ex _ false hInv0) ht0 rfl rfl rfl rfl
      · -- the candidate is kept: dispatch
        dsimp only
        split_ifs <;>
          first
            | exact hdisp _ (inv_addNewWorker opts ex _ false hInv0) ht0
                (List.mem_append_right _ hwmem)
            | exact hdisp _ hInv0 ht0 (List.mem_append_right _ hwmem)

/-- `_removeWorker` preserves the invariant: every descriptor of the
removed worker completes with the termination error. -/
theorem inv_removeWorker (opts : FilledOptions) (ex : Option Nat)
    (p : ThreadPool) (wid : Nat) (hInv : PoolInv opts ex p) :
    PoolInv opts ex (p.removeWorker wid) := by
  rcases hfw : p.findWorker wid with _ | w
  · unfold ThreadPool.removeWorker
    simp only [hfw]
    exact hInv
  · obtain ⟨hwmem, hwwid⟩ := findWorker_mem p wid w hfw
    rw [removeWorker_spec p wid w hfw (hInv.mapKeysNodup w hwmem)]
    have hkeytask : ∀ k ∈ w.taskInfos.map Prod.fst, ∃ t0 ∈ p.tasks,
        t0.taskId = k ∧ t0.status = .running ∧ t0.workerInfo = some wid := by
      intro k hk
      obtain ⟨e, he2, hee⟩ := List.mem_map.mp hk
      obtain ⟨t0, h0, hid, hstr, hwi, _, _⟩ := hInv.mapTasks w hwmem e he2
      exact ⟨t0, h0, hid.trans hee, hstr, hwwid ▸ hwi⟩
    have hall : (p.workers.removeItem wid).allItems =
        p.workers.allItems.filter (fun w2 => decide (w2.wid ≠ wid)) :=
      allItems_removeItem p.workers wid
    have hsub : ∀ w2 ∈ (p.workers.removeItem wid).allItems,
        w2 ∈ p.workers.allItems ∧ w2.wid ≠ wid := by
      intro w2 h2
      rw [hall] at h2
      have := List.mem_filter.mp h2
      exact ⟨this.1, by simpa using this.2⟩
    refine
      { optionsEq := hInv.optionsEq
        taskIdsNodup := ?_
        taskIdsBound := ?_
        widsNodup := ?_
        widsBound := ?_
        workerRefBound := ?_
        queueNodup := hInv.queueNodup
        queueTasks := ?_
        queuedMem := ?_
        mapKeysNodup := ?_
        mapTasks := ?_
        runningMem := ?_
        counts := ?_
        abortedInert := ?_
        sizeBound := ?_ }
    · rw [List.map_map]
      have : (TaskInfo.taskId ∘ fun t2 : TaskInfo =>
          if t2.taskId ∈ w.taskInfos.map Prod.fst then
            doneF (.rejected .threadTermination) t2 else t2) = TaskInfo.taskId := by
        funext t2
        show (if t2.taskId ∈ w.taskInfos.map Prod.fst then
            doneF (.rejected .threadTermination) t2 else t2).taskId = t2.taskId
        by_cases h2 : t2.taskId ∈ w.taskInfos.map Prod.fst
        · rw [if_pos h2, doneF_taskId]
        · rw [if_neg h2]
      rw [this]
      exact hInv.taskIdsNodup
    · intro t2 h2
      obtain ⟨t0, h0, he⟩ := List.mem_map.mp h2
      have : t2.taskId = t0.taskId := by
        subst he
        by_cases h3 : t0.taskId ∈ w.taskInfos.map Prod.fst
        · rw [if_pos h3, doneF_taskId]
        · rw [if_neg h3]
      rw [this]
      exact hInv.taskIdsBound t0 h0
    · rw [hall]
      exact ((List.filter_sublist _).map WorkerInfo.wid).nodup hInv.widsNodup
    · intro w2 h2
      exact hInv.widsBound w2 (hsub w2 h2).1
    · intro t2 h2 wid2 hw2
      obtain ⟨t0, h0, he⟩ := List.mem_map.mp h2
      have : t2.workerInfo = t0.workerInfo := by
        subst he
        by_cases h3 : t0.taskId ∈ w.taskInfos.map Prod.fst
        · rw [if_pos h3, doneF_workerInfo]
        · rw [if_neg h3]
      rw [this] at hw2
      exact hInv.workerRefBound t0 h0 wid2 hw2
    · intro tid2 h2
      obtain ⟨t0, h0, hid, hstq, hwi, hpr⟩ := hInv.queueTasks tid2 h2
      have hne : t0.taskId ∉ w.taskInfos.map Prod.fst := by
        intro hk
        obtain ⟨t1, h1, hid1, hstr1, _⟩ := hkeytask t0.taskId hk
        have : t1 = t0 := task_eq_of_id hInv.taskIdsNodup h1 h0 hid1
        rw [this, hstq] at hstr1
        cases hstr1
      exact ⟨t0, List.mem_map.mpr ⟨t0, h0, if_neg hne⟩, hid, hstq, hwi, hpr⟩
    · intro t2 h2 hst2
      obtain ⟨t0, h0, he⟩ := List.mem_map.mp h2
      by_cases h3 : t0.taskId ∈ w.taskInfos.map Prod.fst
      · rw [if_pos h3] at he
        rw [← he, doneF_status] at hst2
        cases hst2
      · rw [if_neg h3] at he
        subst he
        exact hInv.queuedMem t0 h0 hst2
    · intro w2 h2
      exact hInv.mapKeysNodup w2 (hsub w2 h2).1
    · intro w2 h2 e he2
      obtain ⟨hmem2, hne2⟩ := hsub w2 h2
      obtain ⟨t0, h0, hid, hstr, hwi, hab, hpr⟩ := hInv.mapTasks w2 hmem2 e he2
      have hne : t0.taskId ∉ w.taskInfos.map Prod.fst := by
        intro hk
        obtain ⟨t1, h1, hid1, _, hwi1⟩ := hkeytask t0.taskId hk
        have ht10 : t1 = t0 := task_eq_of_id hInv.taskIdsNodup h1 h0 hid1
        rw [ht10, hwi] at hwi1
        injection hwi1 with h5
        exact hne2 h5
      exact ⟨t0, List.mem_map.mpr ⟨t0, h0, if_neg hne⟩, hid, hstr, hwi, hab, hpr⟩
    · intro t2 h2 hst2
      obtain ⟨t0, h0, he⟩ := List.mem_map.mp h2
      by_cases h3 : t0.taskId ∈ w.taskInfos.map Prod.fst
      · rw [if_pos h3] at he
        rw [← he, doneF_status] at hst2
        cases hst2
      · rw [if_neg h3] at he
        subst he
        rcases hInv.runningMem t0 h0 hst2 with h4 | ⟨w0, hw0, hwi0, hmem0⟩
        · exact Or.inl h4
        · have hne0 : w0.wid ≠ wid := by
            intro h5
            have hw0w : w0 = w :=
              worker_eq_of_id hInv.widsNodup hw0 hwmem (h5.trans hwwid.symm)
            rw [hw0w] at hmem0
            exact h3 hmem0
          refine Or.inr ⟨w0, ?_, hwi0, hmem0⟩
          rw [hall]
          exact List.mem_filter.mpr ⟨hw0, by simpa using hne0⟩
    · intro t2 h2
      obtain ⟨t0, h0, he⟩ := List.mem_map.mp h2
      by_cases h3 : t0.taskId ∈ w.taskInfos.map Prod.fst
      · rw [if_pos h3] at he
        obtain ⟨t1, h1, hid1, hstr1, _⟩ := hkeytask t0.taskId h3
        have ht10 : t1 = t0 := task_eq_of_id hInv.taskIdsNodup h1 h0 hid1
        have hc0 : t0.callbackCount = 0 := by
          refine (hInv.counts t0 h0).2 ?_
          rw [← ht10, hstr1]
          intro h5
          cases h5
        constructor
        · intro _
          rw [← he, doneF_callbackCount, hc0]
        · intro h4
          rw [← he, doneF_status] at h4
          exact absurd rfl h4
      · rw [if_neg h3] at he
        subst he
        exact hInv.counts t0 h0
    · intro t2 h2 hst2
      obtain ⟨t0, h0, he⟩ := List.mem_map.mp h2
      by_cases h3 : t0.taskId ∈ w.taskInfos.map Prod.fst
      · rw [if_pos h3] at he
        rw [← he, doneF_status] at hst2
        cases hst2
      · rw [if_neg h3] at he
        subst he
        exact hInv.abortedInert t0 h0 hst2
    · intro w2 h2
      exact hInv.sizeBound w2 (hsub w2 h2).1

/-- Deleting one key from a worker's task map preserves the invariant, with
the deleted key exempted from the `runningMem` clause. -/
theorem inv_filterWorkerMap (opts : FilledOptions) (p : ThreadPool)
    (wid tid : Nat) (hInv : PoolInv opts none p) :
    PoolInv opts (some tid)
      (updateWorker wid
        (fun w => { w with taskInfos := w.taskInfos.filter fun e => e.1 != tid })
        p) := by
  have hwork : (updateWorker wid
      (fun w => { w with taskInfos := w.taskInfos.filter fun e => e.1 != tid })
      p).workers.allItems =
      p.workers.allItems.map (fun w2 => if w2.wid = wid then
        { w2 with taskInfos := w2.taskInfos.filter fun e => e.1 != tid }
      else w2) := by
    simp [updateWorker, allItems_updateItem]
  have hkey : ∀ w2 : WorkerInfo,
      (if w2.wid = wid then
        { w2 with taskInfos := w2.taskInfos.filter fun e => e.1 != tid }
      else w2).wid = w2.wid := by
    intro w2
    by_cases h2 : w2.wid = wid <;> simp [h2]
  refine
    { optionsEq := hInv.optionsEq
      taskIdsNodup := hInv.taskIdsNodup
      taskIdsBound := hInv.taskIdsBound
      widsNodup := ?_
      widsBound := ?_
      workerRefBound := hInv.workerRefBound
      queueNodup := hInv.queueNodup
      queueTasks := hInv.queueTasks
      queuedMem := hInv.queuedMem
      mapKeysNodup := ?_
      mapTasks := ?_
      runningMem := ?_
      counts := hInv.counts
      abortedInert := hInv.abortedInert
      sizeBound := ?_ }
  · rw [hwork, List.map_map]
    have : (WorkerInfo.wid ∘ fun w2 => if w2.wid = wid then
        { w2 with taskInfos := w2.taskInfos.filter fun e => e.1 != tid }
      else w2) = WorkerInfo.wid := by
      funext w2
      exact hkey w2
    rw [this]
    exact hInv.widsNodup
  · rw [hwork]
    intro w2 h2
    obtain ⟨w0, h0, he⟩ := List.mem_map.mp h2
    have hk := hkey w0
    rw [he] at hk
    rw [hk]
    exact hInv.widsBound w0 h0
  · rw [hwork]
    intro w2 h2
    obtain ⟨w0, h0, he⟩ := List.mem_map.mp h2
    subst he
    by_cases h3 : w0.wid = wid
    · rw [if_pos h3]
      exact ((List.filter_sublist _).map Prod.fst).nodup (hInv.mapKeysNodup w0 h0)
    · rw [if_neg h3]
      exact hInv.mapKeysNodup w0 h0
  · rw [hwork]
    intro w2 h2 e2 he2
    obtain ⟨w0, h0, he⟩ := List.mem_map.mp h2
    subst he
    by_cases h3 : w0.wid = wid
    · rw [if_pos h3] at he2 ⊢
      exact hInv.mapTasks w0 h0 e2 (List.mem_filter.mp he2).1
    · rw [if_neg h3] at he2 ⊢
      exact hInv.mapTasks w0 h0 e2 he2
  · intro t2 h2 hst
    by_cases h3 : t2.taskId = tid
    · exact Or.inl (by rw [h3])
    · rcases hInv.runningMem t2 h2 hst with h4 | ⟨w0, h0, hwi0, hk0⟩
      · cases h4
      · refine Or.inr ?_
        rw [hwork]
        refine ⟨if w0.wid = wid then
            { w0 with taskInfos := w0.taskInfos.filter fun e => e.1 != tid }
          else w0, List.mem_map_of_mem _ h0, ?_, ?_⟩
        · rw [hkey w0]
          exact hwi0
        · by_cases h5 : w0.wid = wid
          · rw [if_pos h5]
            obtain ⟨e0, he0, hee0⟩ := List.mem_map.mp hk0
            refine List.mem_map.mpr ⟨e0, List.mem_filter.mpr ⟨he0, ?_⟩, hee0⟩
            simp only [bne_iff_ne, ne_eq, hee0]
            exact h3
          · rw [if_neg h5]
            exact hk0
  · rw [hwork]
    intro w2 h2
    obtain ⟨w0, h0, he⟩ := List.mem_map.mp h2
    subst he
    by_cases h3 : w0.wid = wid
    · rw [if_pos h3]
      exact le_trans (List.length_filter_le _ _) (hInv.sizeBound w0 h0)
    · rw [if_neg h3]
      exact hInv.sizeBound w0 h0

/-- `postTask` leaves every descriptor with a different id untouched. -/
theorem postTask_tasks_pres (q : ThreadPool) (wid tid : Nat) (sOk : Bool)
    (t : TaskInfo) (ht : t ∈ q.tasks) (hne : t.taskId ≠ tid) :
    t ∈ (q.postTask wid tid sOk).tasks := by
  unfold ThreadPool.postTask
  rcases hft : q.findTask tid with _ | t'
  · exact ht
  · cases sOk
    · exact List.mem_map.mpr ⟨t, ht, if_neg hne⟩
    · exact List.mem_map.mpr ⟨t, ht, if_neg hne⟩

/-- `postTask` does not touch the queue. -/
theorem postTask_queue (q : ThreadPool) (wid tid2 : Nat) (sOk : Bool) :
    (q.postTask wid tid2 sOk).taskQueue = q.taskQueue := by
  unfold ThreadPool.postTask
  rcases hft : q.findTask tid2 with _ | t'
  · rfl
  · cases sOk <;> rfl

/-- A flag-only worker update puts no new key in any task map. -/
theorem updateWorker_no_key (p : ThreadPool) (wid tid : Nat)
    (f : WorkerInfo → WorkerInfo) (hf : ∀ w, (f w).taskInfos = w.taskInfos)
    (hmaps : ∀ w2 ∈ p.workers.allItems, tid ∉ w2.taskInfos.map Prod.fst) :
    ∀ w2 ∈ (updateWorker wid f p).workers.allItems,
      tid ∉ w2.taskInfos.map Prod.fst := by
  intro w2 h2 hk
  have h2' : w2 ∈ (p.workers.updateItem wid f).allItems := h2
  rw [allItems_updateItem] at h2'
  obtain ⟨w3, h3, he⟩ := List.mem_map.mp h2'
  by_cases h4 : w3.wid = wid
  · rw [if_pos h4] at he
    subst he
    rw [hf w3] at hk
    exact hmaps w3 h3 hk
  · rw [if_neg h4] at he
    subst he
    exact hmaps w3 h3 hk

/-- A task id that is neither queued nor in any worker map stays that way
through `postTask` of a different id. -/
theorem postTask_no_key (q : ThreadPool) (wid tid2 tid : Nat) (sOk : Bool)
    (hq : tid ∉ q.taskQueue) (hne : tid ≠ tid2)
    (hmaps : ∀ w2 ∈ q.workers.allItems, tid ∉ w2.taskInfos.map Prod.fst) :
    tid ∉ (q.postTask wid tid2 sOk).taskQueue ∧
      ∀ w2 ∈ (q.postTask wid tid2 sOk).workers.allItems,
        tid ∉ w2.taskInfos.map Prod.fst := by
  refine ⟨by rw [postTask_queue]; exact hq, ?_⟩
  unfold ThreadPool.postTask
  rcases hft : q.findTask tid2 with _ | t'
  · exact hmaps
  · cases sOk
    · exact hmaps
    · intro w2 h2 hk
      have h2' : w2 ∈ (q.workers.updateItem wid (fun w3 =>
          { w3 with taskInfos := w3.taskInfos ++ [(tid2, t'.abortable)],
                    refed := true, idleTimeout := false,
                    sharedRequestCount := w3.sharedRequestCount + 1,
                    notifyCount := w3.notifyCount + 1 })).allItems := h2
      rw [allItems_updateItem] at h2'
      obtain ⟨w3, h3, he⟩ := List.mem_map.mp h2'
      by_cases h4 : w3.wid = wid
      · rw [if_pos h4] at he
        subst he
        have hk' : tid ∈ (w3.taskInfos ++ [(tid2, t'.abortable)]).map Prod.fst := hk
        rw [List.map_append] at hk'
        rcases List.mem_append.mp hk' with h5 | h5
        · exact hmaps w3 h3 h5
        · simp at h5
          exact hne h5
      · rw [if_neg h4] at he
        subst he
        exact hmaps w3 h3 hk

/-- `_onWorkerAvailable` leaves every running descriptor untouched. -/
theorem onWorkerAvailable_running_pres (opts : FilledOptions) (ex : Option Nat)
    (p : ThreadPool) (wid : Nat) (sOk : Bool) (t : TaskInfo)
    (hInv : PoolInv opts ex p) (ht : t ∈ p.tasks) (hst : t.status = .running) :
    t ∈ (p.onWorkerAvailable wid sOk).tasks := by
  unfold ThreadPool.onWorkerAvailable
  rcases hfw : p.findWorker wid with _ | w
  · simp only [hfw]
    exact ht
  · rcases hq : p.taskQueue with _ | ⟨tid2, rest⟩
    · simp only [hfw, hq]
      split_ifs with h1
      · exact ht
      · exact ht
    · simp only [hfw, hq]
      split_ifs with h1 h2
      · obtain ⟨t2, ht2, hid2, hst2, _, _⟩ :=
          hInv.queueTasks tid2 (hq ▸ List.mem_cons_self tid2 rest)
        have hne : t.taskId ≠ tid2 := by
          intro h4
          have h5 : t2 = t :=
            task_eq_of_id hInv.taskIdsNodup ht2 ht (hid2.trans h4.symm)
          rw [h5, hst] at hst2
          cases hst2
        exact postTask_tasks_pres { p with taskQueue := rest } wid tid2 sOk t ht hne
      · exact ht
      · exact ht

/-- `maybeAvailable` leaves every running descriptor untouched. -/
theorem maybeAvailable_running_pres (opts : FilledOptions) (ex : Option Nat)
    (p : ThreadPool) (wid : Nat) (sOk : Bool) (t : TaskInfo)
    (hInv : PoolInv opts ex p) (ht : t ∈ p.tasks) (hst : t.status = .running) :
    t ∈ (p.maybeAvailable wid sOk).tasks := by
  unfold ThreadPool.maybeAvailable
  rcases hfw : p.findWorker wid with _ | w
  · simp only [hfw]
    exact ht
  · simp only [hfw]
    split_ifs with h1
    · exact onWorkerAvailable_running_pres opts ex p wid sOk t hInv ht hst
    · exact ht

/-- A task id that is neither queued nor mapped stays that way through
`_onWorkerAvailable`. -/
theorem onWorkerAvailable_no_key (p : ThreadPool) (wid tid : Nat) (sOk : Bool)
    (hq : tid ∉ p.taskQueue)
    (hmaps : ∀ w2 ∈ p.workers.allItems, tid ∉ w2.taskInfos.map Prod.fst) :
    tid ∉ (p.onWorkerAvailable wid sOk).taskQueue ∧
      ∀ w2 ∈ (p.onWorkerAvailable wid sOk).workers.allItems,
        tid ∉ w2.taskInfos.map Prod.fst := by
  unfold ThreadPool.onWorkerAvailable
  rcases hfw : p.findWorker wid with _ | w
  · simp only [hfw]
    exact ⟨hq, hmaps⟩
  · rcases hqq : p.taskQueue with _ | ⟨tid2, rest⟩
    · simp only [hfw, hqq]
      split_ifs with h1
      · exact ⟨hqq ▸ hq, updateWorker_no_key p wid tid _ (fun _ => rfl) hmaps⟩
      · exact ⟨hqq ▸ hq, hmaps⟩
    · simp only [hfw, hqq]
      split_ifs with h1 h2
      · have hq' : tid ∉ rest := fun h5 =>
          hq (hqq ▸ List.mem_cons_of_mem tid2 h5)
        have hne : tid ≠ tid2 := fun h5 =>
          hq (hqq ▸ (h5 ▸ List.mem_cons_self tid2 rest))
        exact postTask_no_key { p with taskQueue := rest } wid tid2 tid sOk hq'
          hne hmaps
      · exact ⟨hqq ▸ hq, updateWorker_no_key p wid tid _ (fun _ => rfl) hmaps⟩
      · exact ⟨hqq ▸ hq, hmaps⟩

/-- A task id that is neither queued nor mapped stays that way through
`maybeAvailable`. -/
theorem maybeAvailable_no_key (p : ThreadPool) (wid tid : Nat) (sOk : Bool)
    (hq : tid ∉ p.taskQueue)
    (hmaps : ∀ w2 ∈ p.workers.allItems, tid ∉ w2.taskInfos.map Prod.fst) :
    tid ∉ (p.maybeAvailable wid sOk).taskQueue ∧
      ∀ w2 ∈ (p.maybeAvailable wid sOk).workers.allItems,
        tid ∉ w2.taskInfos.map Prod.fst := by
  unfold ThreadPool.maybeAvailable
  rcases hfw : p.findWorker wid with _ | w
  · simp only [hfw]
    exact ⟨hq, hmaps⟩
  · simp only [hfw]
    split_ifs with h1
    · exact onWorkerAvailable_no_key p wid tid sOk hq hmaps
    · exact ⟨hq, hmaps⟩

/-- The response handler preserves the invariant: the completed descriptor
leaves the owning worker's task map, `maybeAvailable` may dispatch a queued
task to that worker, the completion callback then settles the descriptor,
and an emptied worker is unreffed. -/
theorem inv_onResponse (opts : FilledOptions) (p : ThreadPool)
    (wid tid : Nat) (ok sOk : Bool) (hInv : PoolInv opts none p)
    (henb : enabled (.response wid tid ok sOk) p = true) :
    PoolInv opts none (p.onResponse wid tid ok sOk) := by
  simp only [enabled, List.any_eq_true, Bool.and_eq_true, beq_iff_eq] at henb
  obtain ⟨w, hwmem, hwwid, e, he, hetid⟩ := henb
  obtain ⟨t, ht, htid0, hst, hwi0, hab, hpr⟩ := hInv.mapTasks w hwmem e he
  have htid : t.taskId = tid := htid0.trans hetid
  have hwi : t.workerInfo = some wid := by rw [hwi0, hwwid]
  have hInv1 := inv_filterWorkerMap opts p wid tid hInv
  have hq0 : tid ∉ p.taskQueue := by
    intro h5
    obtain ⟨t2, ht2, hid2, hst2, _, _⟩ := hInv.queueTasks tid h5
    have h6 : t2 = t := task_eq_of_id hInv.taskIdsNodup ht2 ht (hid2.trans htid.symm)
    rw [h6, hst] at hst2
    cases hst2
  have hmaps1 : ∀ w2 ∈ (updateWorker wid
      (fun w3 => { w3 with taskInfos := w3.taskInfos.filter fun e2 => e2.1 != tid })
      p).workers.allItems, tid ∉ w2.taskInfos.map Prod.fst := by
    intro w2 h2 hk
    have h2' : w2 ∈ (p.workers.updateItem wid (fun w3 =>
        { w3 with
          taskInfos := w3.taskInfos.filter fun e2 => e2.1 != tid })).allItems := h2
    rw [allItems_updateItem] at h2'
    obtain ⟨w3, h3, heq3⟩ := List.mem_map.mp h2'
    by_cases h4 : w3.wid = wid
    · rw [if_pos h4] at heq3
      subst heq3
      have hk' : tid ∈ (w3.taskInfos.filter fun e2 => e2.1 != tid).map Prod.fst := hk
      obtain ⟨e2, he2, hee2⟩ := List.mem_map.mp hk'
      have h6 := (List.mem_filter.mp he2).2
      rw [hee2] at h6
      simp at h6
    · rw [if_neg h4] at heq3
      subst heq3
      obtain ⟨e2, he2, hee2⟩ := List.mem_map.mp hk
      obtain ⟨t2, ht2, hid2, hst2, hwi2, _, _⟩ := hInv.mapTasks w3 h3 e2 he2
      have ht2t : t2 = t := task_eq_of_id hInv.taskIdsNodup ht2 ht
        ((hid2.trans hee2).trans htid.symm)
      rw [ht2t, hwi] at hwi2
      injection hwi2 with h6
      exact h4 h6.symm
  have hq1 : tid ∉ (updateWorker wid
      (fun w3 => { w3 with taskInfos := w3.taskInfos.filter fun e2 => e2.1 != tid })
      p).taskQueue := hq0
  have hInv2 := inv_maybeAvailable opts (some tid) _ wid sOk hInv1
  have ht2 : t ∈ ((updateWorker wid
      (fun w3 => { w3 with taskInfos := w3.taskInfos.filter fun e2 => e2.1 != tid })
      p).maybeAvailable wid sOk).tasks :=
    maybeAvailable_running_pres opts (some tid) _ wid sOk t hInv1 ht hst
  obtain ⟨hq2, hmaps2⟩ := maybeAvailable_no_key _ wid tid sOk hq1 hmaps1
  have hInv3 : PoolInv opts none
      (((updateWorker wid
        (fun w3 => { w3 with taskInfos := w3.taskInfos.filter fun e2 => e2.1 != tid })
        p).maybeAvailable wid sOk).doneOn tid
        (if ok then .resolved else .rejected .workerError)) :=
    inv_doneOn opts (some tid) none _ tid _ t hInv2.optionsEq hInv2.taskIdsNodup
      hInv2.taskIdsBound hInv2.widsNodup hInv2.widsBound hInv2.workerRefBound
      hInv2.queueNodup hInv2.queueTasks
      (fun t2 h2 hs => Or.inr (hInv2.queuedMem t2 h2 hs))
      hInv2.mapKeysNodup hInv2.mapTasks hInv2.runningMem hInv2.counts
      hInv2.abortedInert hInv2.sizeBound ht2 htid
      (by rw [hst]; exact fun h => nomatch h)
      hq2 hmaps2 (Or.inr rfl)
  unfold ThreadPool.onResponse
  dsimp only
  rcases hfw3 : (((updateWorker wid
      (fun w3 => { w3 with taskInfos := w3.taskInfos.filter fun e2 => e2.1 != tid })
      p).maybeAvailable wid sOk).doneOn tid
      (if ok then .resolved else .rejected .workerError)).findWorker wid
    with _ | w3
  · exact hInv3
  · dsimp only
    split
    · exact inv_updateWorker_flags opts none _ wid _ (fun _ => rfl) (fun _ => rfl) hInv3
    · exact hInv3

/-- The invariant only depends on the six projections it mentions. -/
theorem inv_of_projections (opts : FilledOptions) (ex : Option Nat)
    (p q : ThreadPool) (hInv : PoolInv opts ex p)
    (h1 : q.options = p.options) (h2 : q.tasks = p.tasks)
    (h3 : q.workers = p.workers) (h4 : q.taskQueue = p.taskQueue)
    (h5 : q.nextTaskId = p.nextTaskId) (h6 : q.nextWorkerId = p.nextWorkerId) :
    PoolInv opts ex q :=
  { optionsEq := by rw [h1]; exact hInv.optionsEq
    taskIdsNodup := by rw [h2]; exact hInv.taskIdsNodup
    taskIdsBound := by rw [h2, h5]; exact hInv.taskIdsBound
    widsNodup := by rw [h3]; exact hInv.widsNodup
    widsBound := by rw [h3, h6]; exact hInv.widsBound
    workerRefBound := by rw [h2, h6]; exact hInv.workerRefBound
    queueNodup := by rw [h4]; exact hInv.queueNodup
    queueTasks := by rw [h4, h2]; exact hInv.queueTasks
    queuedMem := by rw [h2, h4]; exact hInv.queuedMem
    mapKeysNodup := by rw [h3]; exact hInv.mapKeysNodup
    mapTasks := by rw [h3, h2]; exact hInv.mapTasks
    runningMem := by rw [h2, h3]; exact hInv.runningMem
    counts := by rw [h2]; exact hInv.counts
    abortedInert := by rw [h2]; exact hInv.abortedInert
    sizeBound := by rw [h3]; exact hInv.sizeBound }

/-- Deleting the updated element cancels a wid-preserving update. -/
theorem filter_ne_map_update (l : List WorkerInfo) (wid : Nat)
    (f : WorkerInfo → WorkerInfo) (hf : ∀ w, (f w).wid = w.wid) :
    ((l.map fun w => if w.wid = wid then f w else w).filter
        fun w => decide (w.wid ≠ wid)) =
      l.filter fun w => decide (w.wid ≠ wid) := by
  induction l with
  | nil => rfl
  | cons w rest ih =>
    by_cases h2 : w.wid = wid
    · simp [List.filter_cons, h2, hf w]
      simpa using ih
    · simp [List.filter_cons, h2]
      simpa using ih

/-- `removeItem` after a wid-preserving `updateItem` of the same id is plain
`removeItem`. -/
theorem removeItem_updateItem (rp : ResourcePool) (wid : Nat)
    (f : WorkerInfo → WorkerInfo) (hf : ∀ w, (f w).wid = w.wid) :
    (rp.updateItem wid f).removeItem wid = rp.removeItem wid := by
  unfold ResourcePool.removeItem ResourcePool.updateItem
  dsimp only
  rw [filter_ne_map_update _ _ _ hf, filter_ne_map_update _ _ _ hf]

/-- `findWorker` after a wid-preserving `updateWorker` of the found id. -/
theorem findWorker_updateWorker (p : ThreadPool) (wid : Nat)
    (f : WorkerInfo → WorkerInfo) (hfid : ∀ w2, (f w2).wid = w2.wid)
    (w : WorkerInfo) (hfw : p.findWorker wid = some w) (hwwid : w.wid = wid) :
    (updateWorker wid f p).findWorker wid = some (f w) := by
  show ((p.workers.updateItem wid f).allItems.find?
    fun w2 => w2.wid == wid) = some (f w)
  rw [allItems_updateItem, List.find?_map]
  have hpred : ((fun w2 : WorkerInfo => w2.wid == wid) ∘
      fun w2 => if w2.wid = wid then f w2 else w2) =
      fun w2 => w2.wid == wid := by
    funext w2
    by_cases h2 : w2.wid = wid <;> simp [h2, hfid]
  rw [hpred]
  have : p.workers.allItems.find? (fun w2 => w2.wid == wid) = some w := hfw
  rw [this]
  show some (if w.wid = wid then f w else w) = some (f w)
  rw [if_pos hwwid]

/-- The worker-spawning loop touches nothing but the worker set and the id
counter. -/
theorem ensureMinGo_pres (n : Nat) (q : ThreadPool) :
    (ThreadPool.ensureMinGo n q).tasks = q.tasks ∧
    (ThreadPool.ensureMinGo n q).taskQueue = q.taskQueue ∧
    (ThreadPool.ensureMinGo n q).options = q.options ∧
    (ThreadPool.ensureMinGo n q).nextTaskId = q.nextTaskId := by
  obtain ⟨fresh, heq, _, _, _⟩ := ensureMinGo_spec n q
  rw [heq]
  exact ⟨rfl, rfl, rfl, rfl⟩

/-- The worker-spawning loop only reads the worker set and the id counter. -/
theorem ensureMinGo_congr (n : Nat) :
    ∀ q1 q2 : ThreadPool, q1.workers = q2.workers →
      q1.nextWorkerId = q2.nextWorkerId →
      (ThreadPool.ensureMinGo n q1).workers =
        (ThreadPool.ensureMinGo n q2).workers ∧
      (ThreadPool.ensureMinGo n q1).nextWorkerId =
        (ThreadPool.ensureMinGo n q2).nextWorkerId := by
  induction n with
  | zero => intro q1 q2 hw hn; exact ⟨hw, hn⟩
  | succ n ih =>
    intro q1 q2 hw hn
    refine ih (q1.addNewWorker false) (q2.addNewWorker false) ?_ ?_
    · rw [addNewWorker_false, addNewWorker_false]
      dsimp only
      rw [hw, hn]
    · rw [addNewWorker_false, addNewWorker_false]
      dsimp only
      rw [hn]

/-- The worker-spawning loop preserves the invariant. -/
theorem inv_ensureMinGo (opts : FilledOptions) (ex : Option Nat) (n : Nat) :
    ∀ p : ThreadPool, PoolInv opts ex p →
      PoolInv opts ex (ThreadPool.ensureMinGo n p) := by
  induction n with
  | zero => intro p h; exact h
  | succ n ih => intro p h; exact ih _ (inv_addNewWorker opts ex p false h)

/-- `_ensureMinimumWorkers` preserves the invariant. -/
theorem inv_ensureMinimumWorkers (opts : FilledOptions) (ex : Option Nat)
    (p : ThreadPool) (hInv : PoolInv opts ex p) :
    PoolInv opts ex p.ensureMinimumWorkers :=
  inv_ensureMinGo opts ex _ p hInv

/-- Completing every descriptor of one worker's task map and deleting the
handle preserves the invariant, for any settle value. -/
theorem inv_doneKeysRemove (opts : FilledOptions) (ex : Option Nat)
    (p : ThreadPool) (wid : Nat) (w : WorkerInfo) (v : SettleVal)
    (hwmem : w ∈ p.workers.allItems) (hwwid : w.wid = wid)
    (hInv : PoolInv opts ex p) :
    PoolInv opts ex
      { p with
        tasks := p.tasks.map (fun t =>
          if t.taskId ∈ w.taskInfos.map Prod.fst then doneF v t else t),
        workers := p.workers.removeItem wid } := by
  have hkeytask : ∀ k ∈ w.taskInfos.map Prod.fst, ∃ t0 ∈ p.tasks,
      t0.taskId = k ∧ t0.status = .running ∧ t0.workerInfo = some wid := by
    intro k hk
    obtain ⟨e, he2, hee⟩ := List.mem_map.mp hk
    obtain ⟨t0, h0, hid, hstr, hwi, _, _⟩ := hInv.mapTasks w hwmem e he2
    exact ⟨t0, h0, hid.trans hee, hstr, hwwid ▸ hwi⟩
  have hall : (p.workers.removeItem wid).allItems =
      p.workers.allItems.filter (fun w2 => decide (w2.wid ≠ wid)) :=
    allItems_removeItem p.workers wid
  have hsub : ∀ w2 ∈ (p.workers.removeItem wid).allItems,
      w2 ∈ p.workers.allItems ∧ w2.wid ≠ wid := by
    intro w2 h2
    rw [hall] at h2
    have := List.mem_filter.mp h2
    exact ⟨this.1, by simpa using this.2⟩
  refine
    { optionsEq := hInv.optionsEq
      taskIdsNodup := ?_
      taskIdsBound := ?_
      widsNodup := ?_
      widsBound := ?_
      workerRefBound := ?_
      queueNodup := hInv.queueNodup
      queueTasks := ?_
      queuedMem := ?_
      mapKeysNodup := ?_
      mapTasks := ?_
      runningMem := ?_
      counts := ?_
      abortedInert := ?_
      sizeBound := ?_ }
  · rw [List.map_map]
    have : (TaskInfo.taskId ∘ fun t2 : TaskInfo =>
        if t2.taskId ∈ w.taskInfos.map Prod.fst then
          doneF v t2 else t2) = TaskInfo.taskId := by
      funext t2
      show (if t2.taskId ∈ w.taskInfos.map Prod.fst then
          doneF v t2 else t2).taskId = t2.taskId
      by_cases h2 : t2.taskId ∈ w.taskInfos.map Prod.fst
      · rw [if_pos h2, doneF_taskId]
      · rw [if_neg h2]
    rw [this]
    exact hInv.taskIdsNodup
  · intro t2 h2
    obtain ⟨t0, h0, he⟩ := List.mem_map.mp h2
    have : t2.taskId = t0.taskId := by
      subst he
      by_cases h3 : t0.taskId ∈ w.taskInfos.map Prod.fst
      · rw [if_pos h3, doneF_taskId]
      · rw [if_neg h3]
    rw [this]
    exact hInv.taskIdsBound t0 h0
  · rw [hall]
    exact ((List.filter_sublist _).map WorkerInfo.wid).nodup hInv.widsNodup
  · intro w2 h2
    exact hInv.widsBound w2 (hsub w2 h2).1
  · intro t2 h2 wid2 hw2
    obtain ⟨t0, h0, he⟩ := List.mem_map.mp h2
    have : t2.workerInfo = t0.workerInfo := by
      subst he
      by_cases h3 : t0.taskId ∈ w.taskInfos.map Prod.fst
      · rw [if_pos h3, doneF_workerInfo]
      · rw [if_neg h3]
    rw [this] at hw2
    exact hInv.workerRefBound t0 h0 wid2 hw2
  · intro tid2 h2
    obtain ⟨t0, h0, hid, hstq, hwi, hpr⟩ := hInv.queueTasks tid2 h2
    have hne : t0.taskId ∉ w.taskInfos.map Prod.fst := by
      intro hk
      obtain ⟨t1, h1, hid1, hstr1, _⟩ := hkeytask t0.taskId hk
      have : t1 = t0 := task_eq_of_id hInv.taskIdsNodup h1 h0 hid1
      rw [this, hstq] at hstr1
      cases hstr1
    exact ⟨t0, List.mem_map.mpr ⟨t0, h0, if_neg hne⟩, hid, hstq, hwi, hpr⟩
  · intro t2 h2 hst2
    obtain ⟨t0, h0, he⟩ := List.mem_map.mp h2
    by_cases h3 : t0.taskId ∈ w.taskInfos.map Prod.fst
    · rw [if_pos h3] at he
      rw [← he, doneF_status] at hst2
      cases hst2
    · rw [if_neg h3] at he
      subst he
      exact hInv.queuedMem t0 h0 hst2
  · intro w2 h2
    exact hInv.mapKeysNodup w2 (hsub w2 h2).1
  · intro w2 h2 e he2
    obtain ⟨hmem2, hne2⟩ := hsub w2 h2
    obtain ⟨t0, h0, hid, hstr, hwi, hab, hpr⟩ := hInv.mapTasks w2 hmem2 e he2
    have hne : t0.taskId ∉ w.taskInfos.map Prod.fst := by
      intro hk
      obtain ⟨t1, h1, hid1, _, hwi1⟩ := hkeytask t0.taskId hk
      have ht10 : t1 = t0 := task_eq_of_id hInv.taskIdsNodup h1 h0 hid1
      rw [ht10, hwi] at hwi1
      injection hwi1 with h5
      exact hne2 h5
    exact ⟨t0, List.mem_map.mpr ⟨t0, h0, if_neg hne⟩, hid, hstr, hwi, hab, hpr⟩
  · intro t2 h2 hst2
    obtain ⟨t0, h0, he⟩ := List.mem_map.mp h2
    by_cases h3 : t0.taskId ∈ w.taskInfos.map Prod.fst
    · rw [if_pos h3] at he
      rw [← he, doneF_status] at hst2
      cases hst2
    · rw [if_neg h3] at he
      subst he
      rcases hInv.runningMem t0 h0 hst2 with h4 | ⟨w0, hw0, hwi0, hmem0⟩
      · exact Or.inl h4
      · have hne0 : w0.wid ≠ wid := by
          intro h5
          have hw0w : w0 = w :=
            worker_eq_of_id hInv.widsNodup hw0 hwmem (h5.trans hwwid.symm)
          rw [hw0w] at hmem0
          exact h3 hmem0
        refine Or.inr ⟨w0, ?_, hwi0, hmem0⟩
        rw [hall]
        exact List.mem_filter.mpr ⟨hw0, by simpa using hne0⟩
  · intro t2 h2
    obtain ⟨t0, h0, he⟩ := List.mem_map.mp h2
    by_cases h3 : t0.taskId ∈ w.taskInfos.map Prod.fst
    · rw [if_pos h3] at he
      obtain ⟨t1, h1, hid1, hstr1, _⟩ := hkeytask t0.taskId h3
      have ht10 : t1 = t0 := task_eq_of_id hInv.taskIdsNodup h1 h0 hid1
      have hc0 : t0.callbackCount = 0 := by
        refine (hInv.counts t0 h0).2 ?_
        rw [← ht10, hstr1]
        intro h5
        cases h5
      constructor
      · intro _
        rw [← he, doneF_callbackCount, hc0]
      · intro h4
        rw [← he, doneF_status] at h4
        exact absurd rfl h4
    · rw [if_neg h3] at he
      subst he
      exact hInv.counts t0 h0
  · intro t2 h2 hst2
    obtain ⟨t0, h0, he⟩ := List.mem_map.mp h2
    by_cases h3 : t0.taskId ∈ w.taskInfos.map Prod.fst
    · rw [if_pos h3] at he
      rw [← he, doneF_status] at hst2
      cases hst2
    · rw [if_neg h3] at he
      subst he
      exact hInv.abortedInert t0 h0 hst2
  · intro w2 h2
    exact hInv.sizeBound w2 (hsub w2 h2).1

/-- `_ensureMinimumWorkers` touches nothing but the worker set and the id
counter. -/
theorem ensureMin_pres (q : ThreadPool) :
    (q.ensureMinimumWorkers).tasks = q.tasks ∧
    (q.ensureMinimumWorkers).taskQueue = q.taskQueue ∧
    (q.ensureMinimumWorkers).options = q.options ∧
    (q.ensureMinimumWorkers).nextTaskId = q.nextTaskId :=
  ensureMinGo_pres _ _

/-- `_ensureMinimumWorkers` only reads the options, the worker set and the
id counter. -/
theorem ensureMin_congr (q1 q2 : ThreadPool) (ho : q1.options = q2.options)
    (hw : q1.workers = q2.workers) (hn : q1.nextWorkerId = q2.nextWorkerId) :
    q1.ensureMinimumWorkers.workers = q2.ensureMinimumWorkers.workers ∧
      q1.ensureMinimumWorkers.nextWorkerId =
        q2.ensureMinimumWorkers.nextWorkerId := by
  unfold ThreadPool.ensureMinimumWorkers
  have hn2 : q1.options.minThreads - q1.workers.size =
      q2.options.minThreads - q2.workers.size := by rw [ho, hw]
  rw [hn2]
  exact ensureMinGo_congr _ q1 q2 hw hn

/-- Any state whose projections agree with removing a worker and completing
its snapshotted descriptors satisfies the invariant. -/
theorem inv_errorNoReplenish (opts : FilledOptions) (ex : Option Nat)
    (p : ThreadPool) (wid : Nat) (w : WorkerInfo) (v : SettleVal)
    (q F : ThreadPool)
    (hwmem : w ∈ p.workers.allItems) (hwwid : w.wid = wid)
    (hInv : PoolInv opts ex p)
    (hq_t : q.tasks = p.tasks) (hq_w : q.workers = p.workers.removeItem wid)
    (hq_q : q.taskQueue = p.taskQueue) (hq_nt : q.nextTaskId = p.nextTaskId)
    (hq_nw : q.nextWorkerId = p.nextWorkerId) (hq_o : q.options = p.options)
    (hF_t : F.tasks = q.tasks.map
      (fun t => if t.taskId ∈ w.taskInfos.map Prod.fst then doneF v t else t))
    (hF_w : F.workers = q.workers)
    (hF_q : F.taskQueue = q.taskQueue)
    (hF_nt : F.nextTaskId = q.nextTaskId)
    (hF_nw : F.nextWorkerId = q.nextWorkerId)
    (hF_o : F.options = q.options) :
    PoolInv opts ex F :=
  inv_of_projections opts ex _ F
    (inv_doneKeysRemove opts ex p wid w v hwmem hwwid hInv)
    (by rw [hF_o, hq_o]) (by rw [hF_t, hq_t]) (by rw [hF_w, hq_w])
    (by rw [hF_q, hq_q]) (by rw [hF_nt, hq_nt]) (by rw [hF_nw, hq_nw])

/-- As `inv_errorNoReplenish`, with the pool replenished to `minThreads`
between the removal and the completions. -/
theorem inv_errorReplenish (opts : FilledOptions) (ex : Option Nat)
    (p : ThreadPool) (wid : Nat) (w : WorkerInfo) (v : SettleVal)
    (q F : ThreadPool)
    (hwmem : w ∈ p.workers.allItems) (hwwid : w.wid = wid)
    (hInv : PoolInv opts ex p)
    (hq_t : q.tasks = p.tasks) (hq_w : q.workers = p.workers.removeItem wid)
    (hq_q : q.taskQueue = p.taskQueue) (hq_nt : q.nextTaskId = p.nextTaskId)
    (hq_nw : q.nextWorkerId = p.nextWorkerId) (hq_o : q.options = p.options)
    (hF_t : F.tasks = q.ensureMinimumWorkers.tasks.map
      (fun t => if t.taskId ∈ w.taskInfos.map Prod.fst then doneF v t else t))
    (hF_w : F.workers = q.ensureMinimumWorkers.workers)
    (hF_q : F.taskQueue = q.ensureMinimumWorkers.taskQueue)
    (hF_nt : F.nextTaskId = q.ensureMinimumWorkers.nextTaskId)
    (hF_nw : F.nextWorkerId = q.ensureMinimumWorkers.nextWorkerId)
    (hF_o : F.options = q.ensureMinimumWorkers.options) :
    PoolInv opts ex F := by
  have hR1 : PoolInv opts ex
      ({ p with
          tasks := p.tasks.map (fun t =>
            if t.taskId ∈ w.taskInfos.map Prod.fst then doneF v t else t),
          workers := p.workers.removeItem wid } :
        ThreadPool).ensureMinimumWorkers :=
    inv_ensureMinimumWorkers opts ex _
      (inv_doneKeysRemove opts ex p wid w v hwmem hwwid hInv)
  refine inv_of_projections opts ex _ F hR1 ?_ ?_ ?_ ?_ ?_ ?_
  · rw [hF_o, (ensureMin_pres q).2.2.1, hq_o, (ensureMin_pres _).2.2.1]
  · rw [hF_t, (ensureMin_pres q).1, hq_t, (ensureMin_pres _).1]
  · rw [hF_w]
    exact (ensureMin_congr q _ (by rw [hq_o]) (by rw [hq_w]) (by rw [hq_nw])).1
  · rw [hF_q, (ensureMin_pres q).2.1, hq_q, (ensureMin_pres _).2.1]
  · rw [hF_nt, (ensureMin_pres q).2.2.2, hq_nt, (ensureMin_pres _).2.2.2]
  · rw [hF_nw]
    exact (ensureMin_congr q _ (by rw [hq_o]) (by rw [hq_w]) (by rw [hq_nw])).2

/-- The worker `error` handler preserves the invariant: the handle is
removed, the pool is replenished (or the sticky bootstrap flag set), and
every snapshotted descriptor completes with the worker error. -/
theorem inv_onWorkerError (opts : FilledOptions) (ex : Option Nat)
    (p : ThreadPool) (wid : Nat) (hInv : PoolInv opts ex p)
    (henb : enabled (.workerError wid) p = true) :
    PoolInv opts ex (p.onWorkerError wid) := by
  simp only [enabled, List.any_eq_true, beq_iff_eq] at henb
  obtain ⟨w, hwmem, hwwid⟩ := henb
  have hfw : p.findWorker wid = some w := by
    rw [← hwwid]
    exact findWorker_eq p w hInv.widsNodup hwmem
  have hnd := hInv.mapKeysNodup w hwmem
  have hfw1 : (updateWorker wid (fun w2 => { w2 with taskInfos := [] })
      p).findWorker wid = some { w with taskInfos := [] } :=
    findWorker_updateWorker p wid (fun w2 => { w2 with taskInfos := [] })
      (fun _ => rfl) w hfw hwwid
  have hspec := removeWorker_spec
    (updateWorker wid (fun w2 => { w2 with taskInfos := [] }) p) wid
    { w with taskInfos := [] } hfw1 (by simp)
  have hp2t : ((updateWorker wid (fun w2 => { w2 with taskInfos := [] })
      p).removeWorker wid).tasks = p.tasks := by
    rw [hspec]
    simp
    rfl
  have hp2w : ((updateWorker wid (fun w2 => { w2 with taskInfos := [] })
      p).removeWorker wid).workers = p.workers.removeItem wid := by
    rw [hspec]
    show (p.workers.updateItem wid _).removeItem wid = p.workers.removeItem wid
    exact removeItem_updateItem p.workers wid _ (fun _ => rfl)
  have hp2q : ((updateWorker wid (fun w2 => { w2 with taskInfos := [] })
      p).removeWorker wid).taskQueue = p.taskQueue := by
    rw [hspec]
    rfl
  have hp2nt : ((updateWorker wid (fun w2 => { w2 with taskInfos := [] })
      p).removeWorker wid).nextTaskId = p.nextTaskId := by
    rw [hspec]
    rfl
  have hp2nw : ((updateWorker wid (fun w2 => { w2 with taskInfos := [] })
      p).removeWorker wid).nextWorkerId = p.nextWorkerId := by
    rw [hspec]
    rfl
  have hp2o : ((updateWorker wid (fun w2 => { w2 with taskInfos := [] })
      p).removeWorker wid).options = p.options := by
    rw [hspec]
    rfl
  unfold ThreadPool.onWorkerError
  rw [hfw]
  dsimp only
  split
  · rw [foldl_doneOn_entries, foldl_doneOn _ _ _ hnd]
    split
    · exact inv_errorReplenish opts ex p wid w (.rejected .workerError) _ _
        hwmem hwwid hInv hp2t hp2w hp2q hp2nt hp2nw hp2o
        rfl rfl rfl rfl rfl rfl
    · exact inv_errorNoReplenish opts ex p wid w (.rejected .workerError) _ _
        hwmem hwwid hInv hp2t hp2w hp2q hp2nt hp2nw hp2o
        rfl rfl rfl rfl rfl rfl
  · rename_i hsnap
    have hw0 : w.taskInfos = [] := by
      rcases hti : w.taskInfos with _ | ⟨e, rest⟩
      · rfl
      · rw [hti] at hsnap
        exact absurd (by simp) hsnap
    split
    · refine inv_errorReplenish opts ex p wid w (.rejected .workerError) _ _
        hwmem hwwid hInv hp2t hp2w hp2q hp2nt hp2nw hp2o
        ?_ rfl rfl rfl rfl rfl
      dsimp only
      rw [hw0]
      simp
    · refine inv_errorNoReplenish opts ex p wid w (.rejected .workerError) _ _
        hwmem hwwid hInv hp2t hp2w hp2q hp2nt hp2nw hp2o
        ?_ rfl rfl rfl rfl rfl
      dsimp only
      rw [hw0]
      simp

/-- The invariant is insensitive to task fields it never reads: two
pointwise maps of a common base registry that agree on id, status, owner,
abortability and callback count — and on the promise for statuses whose
promise the invariant constrains — satisfy the invariant together. -/
theorem inv_map_congr (opts : FilledOptions) (ex : Option Nat)
    (q : ThreadPool) (base : List TaskInfo) (g1 g2 : TaskInfo → TaskInfo)
    (hq : q.tasks = base.map g2) (hInv : PoolInv opts ex q)
    (hrel : ∀ t ∈ base,
      (g1 t).taskId = (g2 t).taskId ∧ (g1 t).status = (g2 t).status ∧
      (g1 t).workerInfo = (g2 t).workerInfo ∧
      (g1 t).abortable = (g2 t).abortable ∧
      (g1 t).callbackCount = (g2 t).callbackCount ∧
      ((g2 t).status = .queuedS ∨ (g2 t).status = .running ∨
        (g2 t).status = .abortedFromQueue → (g1 t).promise = (g2 t).promise)) :
    PoolInv opts ex { q with tasks := base.map g1 } := by
  have hmem2 : ∀ t0 ∈ base, g2 t0 ∈ q.tasks := by
    intro t0 h0
    rw [hq]
    exact List.mem_map_of_mem g2 h0
  refine
    { optionsEq := hInv.optionsEq
      taskIdsNodup := ?_
      taskIdsBound := ?_
      widsNodup := hInv.widsNodup
      widsBound := hInv.widsBound
      workerRefBound := ?_
      queueNodup := hInv.queueNodup
      queueTasks := ?_
      queuedMem := ?_
      mapKeysNodup := hInv.mapKeysNodup
      mapTasks := ?_
      runningMem := ?_
      counts := ?_
      abortedInert := ?_
      sizeBound := hInv.sizeBound }
  · show ((base.map g1).map TaskInfo.taskId).Nodup
    have hmc : base.map (TaskInfo.taskId ∘ g1) =
        base.map (TaskInfo.taskId ∘ g2) :=
      List.map_congr_left (fun t h => (hrel t h).1)
    rw [List.map_map, hmc, ← List.map_map, ← hq]
    exact hInv.taskIdsNodup
  · intro t2 h2
    obtain ⟨t0, h0, he⟩ := List.mem_map.mp h2
    show t2.taskId < q.nextTaskId
    rw [← he, (hrel t0 h0).1]
    exact hInv.taskIdsBound (g2 t0) (hmem2 t0 h0)
  · intro t2 h2 wid2 hw2
    obtain ⟨t0, h0, he⟩ := List.mem_map.mp h2
    rw [← he, (hrel t0 h0).2.2.1] at hw2
    exact hInv.workerRefBound (g2 t0) (hmem2 t0 h0) wid2 hw2
  · intro tid2 h2
    obtain ⟨t2, ht2, hid2, hst2, hwi2, hpr2⟩ := hInv.queueTasks tid2 h2
    rw [hq] at ht2
    obtain ⟨t0, h0, he⟩ := List.mem_map.mp ht2
    obtain ⟨r1, r2, r3, _, _, r6⟩ := hrel t0 h0
    refine ⟨g1 t0, List.mem_map_of_mem g1 h0, ?_, ?_, ?_, ?_⟩
    · rw [r1, he, hid2]
    · rw [r2, he, hst2]
    · rw [r3, he, hwi2]
    · rw [r6 (by rw [he, hst2]; exact Or.inl rfl), he, hpr2]
  · intro t2 h2 hst2
    obtain ⟨t0, h0, he⟩ := List.mem_map.mp h2
    obtain ⟨r1, r2, _, _, _, _⟩ := hrel t0 h0
    have : (g2 t0).status = .queuedS := by rw [← r2, he, hst2]
    have h4 := hInv.queuedMem (g2 t0) (hmem2 t0 h0) this
    show t2.taskId ∈ q.taskQueue
    rw [← he, r1]
    exact h4
  · intro w2 hw2 e he2
    obtain ⟨t2, ht2, hid2, hst2, hwi2, hab2, hpr2⟩ := hInv.mapTasks w2 hw2 e he2
    rw [hq] at ht2
    obtain ⟨t0, h0, he⟩ := List.mem_map.mp ht2
    obtain ⟨r1, r2, r3, r4, _, r6⟩ := hrel t0 h0
    refine ⟨g1 t0, List.mem_map_of_mem g1 h0, ?_, ?_, ?_, ?_, ?_⟩
    · rw [r1, he, hid2]
    · rw [r2, he, hst2]
    · rw [r3, he, hwi2]
    · rw [r4, he, hab2]
    · rw [r6 (by rw [he, hst2]; exact Or.inr (Or.inl rfl)), he, hpr2]
  · intro t2 h2 hst2
    obtain ⟨t0, h0, he⟩ := List.mem_map.mp h2
    obtain ⟨r1, r2, r3, _, _, _⟩ := hrel t0 h0
    have hst0 : (g2 t0).status = .running := by rw [← r2, he, hst2]
    rcases hInv.runningMem (g2 t0) (hmem2 t0 h0) hst0 with h4 | ⟨w0, hw0, hwi0, hk0⟩
    · refine Or.inl ?_
      rw [← he, r1]
      exact h4
    · refine Or.inr ⟨w0, hw0, ?_, ?_⟩
      · rw [← he, r3]
        exact hwi0
      · rw [← he, r1]
        exact hk0
  · intro t2 h2
    obtain ⟨t0, h0, he⟩ := List.mem_map.mp h2
    obtain ⟨_, r2, _, _, r5, _⟩ := hrel t0 h0
    have h4 := hInv.counts (g2 t0) (hmem2 t0 h0)
    constructor
    · intro h5
      rw [← he, r5]
      exact h4.1 (by rw [← r2, he, h5])
    · intro h5
      rw [← he, r5]
      refine h4.2 ?_
      rw [← r2, he]
      exact h5
  · intro t2 h2 hst2
    obtain ⟨t0, h0, he⟩ := List.mem_map.mp h2
    obtain ⟨_, r2, _, _, _, r6⟩ := hrel t0 h0
    have hst0 : (g2 t0).status = .abortedFromQueue := by rw [← r2, he, hst2]
    have h4 := hInv.abortedInert (g2 t0) (hmem2 t0 h0) hst0
    rw [← he, r6 (Or.inr (Or.inr hst0))]
    exact h4

/-- Settling the promise of a descriptor that is neither queued nor running
(the `reject()` of the abort listener for an already-settled task)
preserves the invariant. -/
theorem inv_settleFired (opts : FilledOptions) (ex : Option Nat)
    (p : ThreadPool) (tid : Nat) (t : TaskInfo) (hInv : PoolInv opts ex p)
    (ht : t ∈ p.tasks) (htid : t.taskId = tid)
    (hnr : t.status ≠ .running) (hnq : t.status ≠ .queuedS) :
    PoolInv opts ex
      (updateTask tid
        (fun t2 => settlePromise (.rejected .abortError)
          { t2 with abortFired := true }) p) := by
  have hq0 : p.tasks = p.tasks.map id := (List.map_id _).symm
  show PoolInv opts ex
    { p with tasks := p.tasks.map (fun t2 => if t2.taskId = tid then
        settlePromise (.rejected .abortError) { t2 with abortFired := true }
      else t2) }
  refine inv_map_congr opts ex p p.tasks _ id hq0 hInv ?_
  intro t2 h2
  by_cases h3 : t2.taskId = tid
  · have ht2t : t2 = t := task_eq_of_id hInv.taskIdsNodup h2 ht
      (h3.trans htid.symm)
    simp only [if_pos h3, id]
    refine ⟨rfl, rfl, rfl, rfl, rfl, ?_⟩
    intro h4
    rcases h4 with h4 | h4 | h4
    · rw [ht2t] at h4
      exact absurd h4 hnq
    · rw [ht2t] at h4
      exact absurd h4 hnr
    · show some (t2.promise.getD _) = t2.promise
      rw [ht2t] at h4 ⊢
      rw [hInv.abortedInert t ht h4]
      rfl
  · simp [h3]


theorem abortDone_taskId (tid : Nat) (t2 : TaskInfo) :
    (abortDone tid t2).taskId = t2.taskId := by
  unfold abortDone
  by_cases h3 : t2.taskId = tid
  · rw [if_pos h3]
  · rw [if_neg h3]

theorem abortDone_workerInfo (tid : Nat) (t2 : TaskInfo) :
    (abortDone tid t2).workerInfo = t2.workerInfo := by
  unfold abortDone
  by_cases h3 : t2.taskId = tid
  · rw [if_pos h3]
  · rw [if_neg h3]

/-- Aborting a queued descriptor preserves the invariant: the promise is
rejected with the abort error, the id is spliced out of the queue, and the
ghost status becomes `abortedFromQueue`. -/
theorem inv_abortQueued (opts : FilledOptions) (ex : Option Nat)
    (p : ThreadPool) (tid : Nat) (t : TaskInfo) (hInv : PoolInv opts ex p)
    (ht : t ∈ p.tasks) (htid : t.taskId = tid) (hst : t.status = .queuedS) :
    PoolInv opts ex
      (updateTask tid (fun t2 => { t2 with status := .abortedFromQueue })
        { (updateTask tid
            (fun t2 => settlePromise (.rejected .abortError)
              { t2 with abortFired := true }) p) with
          taskQueue :=
            (updateTask tid
              (fun t2 => settlePromise (.rejected .abortError)
                { t2 with abortFired := true }) p).taskQueue.erase tid }) := by
  have htq : tid ∈ p.taskQueue := htid ▸ hInv.queuedMem t ht hst
  obtain ⟨t', ht', hid', _, _, hpr⟩ := hInv.queueTasks tid htq
  have ht't : t' = t := task_eq_of_id hInv.taskIdsNodup ht' ht
    (hid'.trans htid.symm)
  have hprt : t.promise = none := ht't ▸ hpr
  have hnotmap : ∀ w2 ∈ p.workers.allItems, tid ∉ w2.taskInfos.map Prod.fst := by
    intro w2 h2 hk
    obtain ⟨e2, he2, hee2⟩ := List.mem_map.mp hk
    obtain ⟨t2, ht2, hid2, hst2, _, _, _⟩ := hInv.mapTasks w2 h2 e2 he2
    have : t2 = t := task_eq_of_id hInv.taskIdsNodup ht2 ht
      ((hid2.trans hee2).trans htid.symm)
    rw [this, hst] at hst2
    cases hst2
  have hT : (updateTask tid
      (fun t2 => { t2 with status := .abortedFromQueue })
      { (updateTask tid
          (fun t2 => settlePromise (.rejected .abortError)
            { t2 with abortFired := true }) p) with
        taskQueue :=
          (updateTask tid
            (fun t2 => settlePromise (.rejected .abortError)
              { t2 with abortFired := true }) p).taskQueue.erase tid }).tasks =
      p.tasks.map (abortDone tid) := by
    show (p.tasks.map (fun t2 => if t2.taskId = tid then
        settlePromise (.rejected .abortError) { t2 with abortFired := true }
      else t2)).map (fun t2 => if t2.taskId = tid then
        { t2 with status := .abortedFromQueue } else t2) = _
    rw [List.map_map]
    refine List.map_congr_left ?_
    intro t2 _
    by_cases h3 : t2.taskId = tid
    · simp [settlePromise, abortDone, h3]
    · simp [abortDone, h3]
  have hQ : (updateTask tid
      (fun t2 => { t2 with status := .abortedFromQueue })
      { (updateTask tid
          (fun t2 => settlePromise (.rejected .abortError)
            { t2 with abortFired := true }) p) with
        taskQueue :=
          (updateTask tid
            (fun t2 => settlePromise (.rejected .abortError)
              { t2 with abortFired := true }) p).taskQueue.erase tid }).taskQueue =
      p.taskQueue.erase tid := rfl
  refine
    { optionsEq := hInv.optionsEq
      taskIdsNodup := ?_
      taskIdsBound := ?_
      widsNodup := hInv.widsNodup
      widsBound := hInv.widsBound
      workerRefBound := ?_
      queueNodup := ?_
      queueTasks := ?_
      queuedMem := ?_
      mapKeysNodup := hInv.mapKeysNodup
      mapTasks := ?_
      runningMem := ?_
      counts := ?_
      abortedInert := ?_
      sizeBound := hInv.sizeBound }
  · have hmc : p.tasks.map (TaskInfo.taskId ∘ abortDone tid) =
        p.tasks.map TaskInfo.taskId :=
      List.map_congr_left (fun t2 _ => abortDone_taskId tid t2)
    rw [hT, List.map_map, hmc]
    exact hInv.taskIdsNodup
  · rw [hT]
    intro t2 h2
    obtain ⟨t0, h0, he⟩ := List.mem_map.mp h2
    rw [← he, abortDone_taskId]
    exact hInv.taskIdsBound t0 h0
  · rw [hT]
    intro t2 h2 wid2 hw2
    obtain ⟨t0, h0, he⟩ := List.mem_map.mp h2
    rw [← he, abortDone_workerInfo] at hw2
    exact hInv.workerRefBound t0 h0 wid2 hw2
  · rw [hQ]
    exact hInv.queueNodup.erase tid
  · rw [hQ, hT]
    intro tid2 h2
    obtain ⟨hne2, hmem2⟩ := (hInv.queueNodup.mem_erase_iff).mp h2
    obtain ⟨t2, ht2, hid2, hst2, hwi2, hpr2⟩ := hInv.queueTasks tid2 hmem2
    have hne3 : t2.taskId ≠ tid := by rw [hid2]; exact hne2
    have habs : abortDone tid t2 = t2 := by
      unfold abortDone
      rw [if_neg hne3]
    exact ⟨t2, List.mem_map.mpr ⟨t2, ht2, habs⟩, hid2, hst2, hwi2, hpr2⟩
  · rw [hT, hQ]
    intro t2 h2 hst2
    obtain ⟨t0, h0, he⟩ := List.mem_map.mp h2
    by_cases h3 : t0.taskId = tid
    · exfalso
      have hab2 : t2.status = .abortedFromQueue := by
        rw [← he]
        unfold abortDone
        rw [if_pos h3]
      rw [hab2] at hst2
      cases hst2
    · have ht20 : t2 = t0 := by
        rw [← he]
        unfold abortDone
        rw [if_neg h3]
      rw [ht20] at hst2 ⊢
      exact (hInv.queueNodup.mem_erase_iff).mpr ⟨h3, hInv.queuedMem t0 h0 hst2⟩
  · rw [hT]
    intro w2 hw2 e he2
    obtain ⟨t2, ht2, hid2, hst2, hwi2, hab2, hpr2⟩ := hInv.mapTasks w2 hw2 e he2
    have hne3 : t2.taskId ≠ tid := by
      intro h4
      have h5 : e.1 ∈ w2.taskInfos.map Prod.fst :=
        List.mem_map_of_mem Prod.fst he2
      rw [← hid2, h4] at h5
      exact hnotmap w2 hw2 h5
    have habs : abortDone tid t2 = t2 := by
      unfold abortDone
      rw [if_neg hne3]
    exact ⟨t2, List.mem_map.mpr ⟨t2, ht2, habs⟩, hid2, hst2, hwi2, hab2, hpr2⟩
  · rw [hT]
    intro t2 h2 hst2
    obtain ⟨t0, h0, he⟩ := List.mem_map.mp h2
    by_cases h3 : t0.taskId = tid
    · exfalso
      have hab2 : t2.status = .abortedFromQueue := by
        rw [← he]
        unfold abortDone
        rw [if_pos h3]
      rw [hab2] at hst2
      cases hst2
    · have ht20 : t2 = t0 := by
        rw [← he]
        unfold abortDone
        rw [if_neg h3]
      rw [ht20] at hst2 ⊢
      exact hInv.runningMem t0 h0 hst2
  · rw [hT]
    intro t2 h2
    obtain ⟨t0, h0, he⟩ := List.mem_map.mp h2
    by_cases h3 : t0.taskId = tid
    · have hcc : t2.callbackCount = t0.callbackCount := by
        rw [← he]
        unfold abortDone
        rw [if_pos h3]
      have hab2 : t2.status = .abortedFromQueue := by
        rw [← he]
        unfold abortDone
        rw [if_pos h3]
      have ht0t : t0 = t := task_eq_of_id hInv.taskIdsNodup h0 ht
        (h3.trans htid.symm)
      have hc0 : t0.callbackCount = 0 := by
        refine (hInv.counts t0 h0).2 ?_
        rw [ht0t, hst]
        intro h5
        cases h5
      constructor
      · intro h5
        rw [hab2] at h5
        cases h5
      · intro _
        rw [hcc, hc0]
    · have ht20 : t2 = t0 := by
        rw [← he]
        unfold abortDone
        rw [if_neg h3]
      rw [ht20]
      exact hInv.counts t0 h0
  · rw [hT]
    intro t2 h2 hst2
    obtain ⟨t0, h0, he⟩ := List.mem_map.mp h2
    by_cases h3 : t0.taskId = tid
    · have ht0t : t0 = t := task_eq_of_id hInv.taskIdsNodup h0 ht
        (h3.trans htid.symm)
      show t2.promise = some (.rejected .abortError)
      rw [← he]
      unfold abortDone
      rw [if_pos h3]
      show some (t0.promise.getD _) = _
      rw [ht0t, hprt]
      rfl
    · have ht20 : t2 = t0 := by
        rw [← he]
        unfold abortDone
        rw [if_neg h3]
      rw [ht20] at hst2 ⊢
      exact hInv.abortedInert t0 h0 hst2

/-- The abort listener preserves the invariant: `reject()` settles the
promise; a dispatched task's worker is destroyed and the pool replenished; a
queued task is spliced out of the queue. -/
theorem inv_onAbort (opts : FilledOptions) (p : ThreadPool) (tid : Nat)
    (hInv : PoolInv opts none p)
    (henb : enabled (.abortSignal tid) p = true) :
    PoolInv opts none (p.onAbort tid) := by
  simp only [enabled] at henb
  unfold ThreadPool.onAbort
  rcases hft : p.findTask tid with _ | t
  · exact hInv
  · obtain ⟨ht, htid⟩ := findTask_mem p tid t hft
    rw [hft] at henb
    simp only [Option.elim, Bool.and_eq_true, Bool.or_eq_true] at henb
    dsimp only
    rcases hwi : t.workerInfo with _ | wid
    · -- splice out of the queue
      rw [hwi] at henb
      have hmemq : tid ∈ p.taskQueue := by
        have h4 := henb.2
        simpa using h4
      obtain ⟨t2, ht2, hid2, hst2, _, _⟩ := hInv.queueTasks tid hmemq
      have ht2t : t2 = t := task_eq_of_id hInv.taskIdsNodup ht2 ht
        (hid2.trans htid.symm)
      have hstq : t.status = .queuedS := ht2t ▸ hst2
      exact inv_abortQueued opts none p tid t hInv ht htid hstq
    · -- destroy the owning worker
      by_cases hst : t.status = .running
      · rcases hInv.runningMem t ht hst with hex | ⟨w0, hw0, hwi0, hk0⟩
        · cases hex
        · have hww : w0.wid = wid := by
            rw [hwi] at hwi0
            injection hwi0 with h5
            exact h5.symm
          have hnd0 := hInv.mapKeysNodup w0 hw0
          have hfww : p.findWorker wid = some w0 := by
            rw [← hww]
            exact findWorker_eq p w0 hInv.widsNodup hw0
          have hfw1 : (updateTask tid
              (fun t2 => settlePromise (.rejected .abortError)
                { t2 with abortFired := true }) p).findWorker wid = some w0 :=
            hfww
          have hrm := removeWorker_spec (updateTask tid
            (fun t2 => settlePromise (.rejected .abortError)
              { t2 with abortFired := true }) p) wid w0 hfw1 hnd0
          have hRr : PoolInv opts none
              { ({ p with
                  tasks := p.tasks.map (fun t3 =>
                    if t3.taskId ∈ w0.taskInfos.map Prod.fst then
                      doneF (.rejected .threadTermination) t3 else t3),
                  workers := p.workers.removeItem wid } : ThreadPool) with
                tasks := p.tasks.map (fun t2 =>
                  (fun t3 => if t3.taskId ∈ w0.taskInfos.map Prod.fst then
                    doneF (.rejected .threadTermination) t3 else t3)
                  ((fun t3 => if t3.taskId = tid then
                    settlePromise (.rejected .abortError)
                      { t3 with abortFired := true }
                  else t3) t2)) } := by
            refine inv_map_congr opts none _ p.tasks _ _ rfl
              (inv_doneKeysRemove opts none p wid w0
                (.rejected .threadTermination) hw0 hww hInv) ?_
            intro t2 h2
            by_cases h3 : t2.taskId = tid
            · have ht2t : t2 = t := task_eq_of_id hInv.taskIdsNodup h2 ht
                (h3.trans htid.symm)
              have hkey : t2.taskId ∈ w0.taskInfos.map Prod.fst := by
                rw [ht2t]
                exact hk0
              have hkey2 : (settlePromise (.rejected .abortError)
                  { t2 with abortFired := true }).taskId ∈
                  w0.taskInfos.map Prod.fst := hkey
              simp only [if_pos h3, if_pos hkey, if_pos hkey2]
              refine ⟨rfl, rfl, rfl, rfl, rfl, ?_⟩
              intro h4
              rcases h4 with h4 | h4 | h4 <;>
                (rw [doneF_status] at h4; cases h4)
            · simp [h3]
          have hp2t : ((updateTask tid
              (fun t2 => settlePromise (.rejected .abortError)
                { t2 with abortFired := true }) p).removeWorker wid).tasks =
              p.tasks.map (fun t2 =>
                (fun t3 => if t3.taskId ∈ w0.taskInfos.map Prod.fst then
                  doneF (.rejected .threadTermination) t3 else t3)
                ((fun t3 => if t3.taskId = tid then
                  settlePromise (.rejected .abortError)
                    { t3 with abortFired := true }
                else t3) t2)) := by
            rw [hrm]
            show (p.tasks.map (fun t3 => if t3.taskId = tid then
                settlePromise (.rejected .abortError)
                  { t3 with abortFired := true }
              else t3)).map (fun t3 =>
                if t3.taskId ∈ w0.taskInfos.map Prod.fst then
                  doneF (.rejected .threadTermination) t3 else t3) = _
            rw [List.map_map]
            rfl
          have hp2w : ((updateTask tid
              (fun t2 => settlePromise (.rejected .abortError)
                { t2 with abortFired := true }) p).removeWorker wid).workers =
              p.workers.removeItem wid := by
            rw [hrm]
            rfl
          have hp2q : ((updateTask tid
              (fun t2 => settlePromise (.rejected .abortError)
                { t2 with abortFired := true }) p).removeWorker wid).taskQueue =
              p.taskQueue := by
            rw [hrm]
            rfl
          have hp2nt : ((updateTask tid
              (fun t2 => settlePromise (.rejected .abortError)
                { t2 with abortFired := true }) p).removeWorker wid).nextTaskId =
              p.nextTaskId := by
            rw [hrm]
            rfl
          have hp2nw : ((updateTask tid
              (fun t2 => settlePromise (.rejected .abortError)
                { t2 with abortFired := true }) p).removeWorker
                wid).nextWorkerId = p.nextWorkerId := by
            rw [hrm]
            rfl
          have hp2o : ((updateTask tid
              (fun t2 => settlePromise (.rejected .abortError)
                { t2 with abortFired := true }) p).removeWorker wid).options =
              p.options := by
            rw [hrm]
            rfl
          refine inv_of_projections opts none _ _
            (inv_ensureMinimumWorkers opts none _ hRr) ?_ ?_ ?_ ?_ ?_ ?_
          · rw [(ensureMin_pres _).2.2.1, (ensureMin_pres _).2.2.1, hp2o]
          · rw [(ensureMin_pres _).1, (ensureMin_pres _).1, hp2t]
          · exact (ensureMin_congr _ _ (by rw [hp2o]) (by rw [hp2w])
              (by rw [hp2nw])).1
          · rw [(ensureMin_pres _).2.1, (ensureMin_pres _).2.1, hp2q]
          · rw [(ensureMin_pres _).2.2.2, (ensureMin_pres _).2.2.2, hp2nt]
          · exact (ensureMin_congr _ _ (by rw [hp2o]) (by rw [hp2w])
              (by rw [hp2nw])).2
      · have hnq : t.status ≠ .queuedS := by
          intro h4
          have h5 : tid ∈ p.taskQueue := htid ▸ hInv.queuedMem t ht h4
          obtain ⟨t2, ht2, hid2, _, hwi2, _⟩ := hInv.queueTasks tid h5
          have h6 : t2 = t := task_eq_of_id hInv.taskIdsNodup ht2 ht
            (hid2.trans htid.symm)
          rw [h6, hwi] at hwi2
          cases hwi2
        exact inv_ensureMinimumWorkers opts none _
          (inv_removeWorker opts none _ wid
            (inv_settleFired opts none p tid t hInv ht htid hst hnq))

/-- `markAsReady`: moving a pending handle into the ready set (with any
flag-only change) preserves the invariant. -/
theorem inv_markReady (opts : FilledOptions) (ex : Option Nat) (p : ThreadPool)
    (w wr : WorkerInfo) (hw : w ∈ p.workers.pendingItems)
    (hwr1 : wr.wid = w.wid) (hwr2 : wr.taskInfos = w.taskInfos)
    (hInv : PoolInv opts ex p) :
    PoolInv opts ex
      { p with workers :=
        { pendingItems :=
            p.workers.pendingItems.filter fun x => decide (x.wid ≠ w.wid),
          readyItems := p.workers.readyItems ++ [wr] } } := by
  have hwall : w ∈ p.workers.allItems := List.mem_append_left _ hw
  have hmemA : ∀ w2 : WorkerInfo,
      w2 ∈ ({ pendingItems :=
                p.workers.pendingItems.filter (fun x => decide (x.wid ≠ w.wid)),
              readyItems := p.workers.readyItems ++ [wr] } :
          ResourcePool).allItems ↔
      (w2 ∈ p.workers.pendingItems.filter (fun x => decide (x.wid ≠ w.wid)) ∨
        w2 ∈ p.workers.readyItems ∨ w2 = wr) := by
    intro w2
    simp [ResourcePool.allItems, List.mem_append, or_assoc]
  have hnd0 : ((p.workers.pendingItems ++ p.workers.readyItems).map
      WorkerInfo.wid).Nodup := hInv.widsNodup
  rw [List.map_append] at hnd0
  obtain ⟨hLn, hRn, hdisj⟩ := List.nodup_append.mp hnd0
  refine
    { optionsEq := hInv.optionsEq
      taskIdsNodup := hInv.taskIdsNodup
      taskIdsBound := hInv.taskIdsBound
      widsNodup := ?_
      widsBound := ?_
      workerRefBound := hInv.workerRefBound
      queueNodup := hInv.queueNodup
      queueTasks := hInv.queueTasks
      queuedMem := hInv.queuedMem
      mapKeysNodup := ?_
      mapTasks := ?_
      runningMem := ?_
      counts := hInv.counts
      abortedInert := hInv.abortedInert
      sizeBound := ?_ }
  · show (((p.workers.pendingItems.filter fun x => decide (x.wid ≠ w.wid)) ++
      (p.workers.readyItems ++ [wr])).map WorkerInfo.wid).Nodup
    rw [List.map_append, List.map_append]
    refine List.nodup_append.mpr ⟨?_, ?_, ?_⟩
    · exact ((List.filter_sublist _).map WorkerInfo.wid).nodup hLn
    · refine List.nodup_append.mpr ⟨hRn, List.nodup_singleton _, ?_⟩
      intro x hx hx2
      simp only [List.map_cons, List.map_nil, List.mem_singleton] at hx2
      subst hx2
      rw [hwr1] at hx
      exact (hdisj (List.mem_map_of_mem _ hw)) hx
    · intro x hx hx2
      obtain ⟨y, hy, hyx⟩ := List.mem_map.mp hx
      have hyf := List.mem_filter.mp hy
      have hyne : y.wid ≠ w.wid := by simpa using hyf.2
      rcases List.mem_append.mp hx2 with h5 | h5
      · have hxL : x ∈ p.workers.pendingItems.map WorkerInfo.wid :=
          hyx ▸ List.mem_map_of_mem _ hyf.1
        exact (hdisj hxL) h5
      · simp only [List.map_cons, List.map_nil, List.mem_singleton] at h5
        rw [h5, hwr1] at hyx
        exact hyne hyx
  · intro w2 h2
    rcases (hmemA w2).mp h2 with h3 | h3 | h3
    · exact hInv.widsBound w2 (List.mem_append_left _ (List.mem_filter.mp h3).1)
    · exact hInv.widsBound w2 (List.mem_append_right _ h3)
    · subst h3
      rw [hwr1]
      exact hInv.widsBound w hwall
  · intro w2 h2
    rcases (hmemA w2).mp h2 with h3 | h3 | h3
    · exact hInv.mapKeysNodup w2 (List.mem_append_left _ (List.mem_filter.mp h3).1)
    · exact hInv.mapKeysNodup w2 (List.mem_append_right _ h3)
    · subst h3
      rw [hwr2]
      exact hInv.mapKeysNodup w hwall
  · intro w2 h2 e he2
    rcases (hmemA w2).mp h2 with h3 | h3 | h3
    · exact hInv.mapTasks w2 (List.mem_append_left _ (List.mem_filter.mp h3).1) e he2
    · exact hInv.mapTasks w2 (List.mem_append_right _ h3) e he2
    · subst h3
      rw [hwr2] at he2
      obtain ⟨t0, h0, hid, hstr, hwi0, hab, hpr⟩ := hInv.mapTasks w hwall e he2
      refine ⟨t0, h0, hid, hstr, ?_, hab, hpr⟩
      rw [hwr1]
      exact hwi0
  · intro t2 h2 hst
    rcases hInv.runningMem t2 h2 hst with h4 | ⟨w0, h0, hwi0, hk0⟩
    · exact Or.inl h4
    · refine Or.inr ?_
      rcases List.mem_append.mp h0 with h5 | h5
      · by_cases h6 : w0.wid = w.wid
        · have hw0w : w0 = w := worker_eq_of_id hInv.widsNodup h0 hwall h6
          refine ⟨wr, (hmemA wr).mpr (Or.inr (Or.inr rfl)), ?_, ?_⟩
          · rw [hwr1, ← h6]
            exact hwi0
          · rw [hwr2, ← hw0w]
            exact hk0
        · exact ⟨w0, (hmemA w0).mpr
            (Or.inl (List.mem_filter.mpr ⟨h5, by simpa using h6⟩)), hwi0, hk0⟩
      · exact ⟨w0, (hmemA w0).mpr (Or.inr (Or.inl h5)), hwi0, hk0⟩
  · intro w2 h2
    rcases (hmemA w2).mp h2 with h3 | h3 | h3
    · exact hInv.sizeBound w2 (List.mem_append_left _ (List.mem_filter.mp h3).1)
    · exact hInv.sizeBound w2 (List.mem_append_right _ h3)
    · subst h3
      rw [hwr2]
      exact hInv.sizeBound w hwall

/-- The `ready` handler preserves the invariant. -/
theorem inv_onWorkerReady (opts : FilledOptions) (p : ThreadPool)
    (wid : Nat) (sOk : Bool) (hInv : PoolInv opts none p)
    (henb : enabled (.workerReady wid sOk) p = true) :
    PoolInv opts none (p.onWorkerReady wid sOk) := by
  simp only [enabled, List.any_eq_true, beq_iff_eq] at henb
  obtain ⟨w0, hw0p, hw0wid⟩ := henb
  subst hw0wid
  unfold ThreadPool.onWorkerReady
  rcases hfw : p.findWorker w0.wid with _ | w
  · exact hInv
  · obtain ⟨hwmem, hwwid⟩ := findWorker_mem p w0.wid w hfw
    have hww0 : w = w0 :=
      worker_eq_of_id hInv.widsNodup hwmem (List.mem_append_left _ hw0p) hwwid
    subst hww0
    dsimp only
    refine inv_maybeAvailable opts none _ w.wid sOk ?_
    exact inv_markReady opts none p w _ hw0p
      (by by_cases h : w.currentUsage = 0 <;> simp [h])
      (by by_cases h : w.currentUsage = 0 <;> simp [h]) hInv

/-- The idle-timer callback preserves the invariant. -/
theorem inv_onIdleTimeout (opts : FilledOptions) (ex : Option Nat)
    (p : ThreadPool) (wid : Nat) (hInv : PoolInv opts ex p) :
    PoolInv opts ex (p.onIdleTimeout wid) := by
  unfold ThreadPool.onIdleTimeout
  rcases hfw : p.findWorker wid with _ | w
  · exact hInv
  · dsimp only
    have h1 := inv_updateWorker_flags opts ex p wid
      (fun w2 => { w2 with idleTimeout := false }) (fun _ => rfl) (fun _ => rfl)
      hInv
    split_ifs with h2
    · exact inv_removeWorker opts ex _ wid h1
    · exact h1

/-- Removing every worker of a list in turn preserves the invariant. -/
theorem inv_foldl_removeWorker (opts : FilledOptions) (ex : Option Nat)
    (ws : List WorkerInfo) :
    ∀ q : ThreadPool, PoolInv opts ex q →
      PoolInv opts ex (ws.foldl (fun acc w => acc.removeWorker w.wid) q) := by
  induction ws with
  | nil => intro q h; exact h
  | cons w rest ih => intro q h; exact ih _ (inv_removeWorker opts ex q w.wid h)

/-- Failing every queued descriptor with the termination error and emptying
the queue preserves the invariant. -/
theorem inv_drainQueue (opts : FilledOptions) (ex : Option Nat)
    (p : ThreadPool) (hInv : PoolInv opts ex p) :
    PoolInv opts ex
      { p with
        tasks := p.tasks.map (fun t => if t.taskId ∈ p.taskQueue then
          doneF (.rejected .threadTermination) t else t),
        completed := p.completed + p.taskQueue.length,
        taskQueue := [] } := by
  have hqtask : ∀ k ∈ p.taskQueue, ∃ t0 ∈ p.tasks,
      t0.taskId = k ∧ t0.status = .queuedS := by
    intro k hk
    obtain ⟨t0, h0, hid, hst, _, _⟩ := hInv.queueTasks k hk
    exact ⟨t0, h0, hid, hst⟩
  refine
    { optionsEq := hInv.optionsEq
      taskIdsNodup := ?_
      taskIdsBound := ?_
      widsNodup := hInv.widsNodup
      widsBound := hInv.widsBound
      workerRefBound := ?_
      queueNodup := List.nodup_nil
      queueTasks := ?_
      queuedMem := ?_
      mapKeysNodup := hInv.mapKeysNodup
      mapTasks := ?_
      runningMem := ?_
      counts := ?_
      abortedInert := ?_
      sizeBound := hInv.sizeBound }
  · rw [List.map_map]
    have : (TaskInfo.taskId ∘ fun t2 : TaskInfo =>
        if t2.taskId ∈ p.taskQueue then
          doneF (.rejected .threadTermination) t2 else t2) = TaskInfo.taskId := by
      funext t2
      show (if t2.taskId ∈ p.taskQueue then
          doneF (.rejected .threadTermination) t2 else t2).taskId = t2.taskId
      by_cases h2 : t2.taskId ∈ p.taskQueue
      · rw [if_pos h2, doneF_taskId]
      · rw [if_neg h2]
    rw [this]
    exact hInv.taskIdsNodup
  · intro t2 h2
    obtain ⟨t0, h0, he⟩ := List.mem_map.mp h2
    have : t2.taskId = t0.taskId := by
      subst he
      by_cases h3 : t0.taskId ∈ p.taskQueue
      · rw [if_pos h3, doneF_taskId]
      · rw [if_neg h3]
    rw [this]
    exact hInv.taskIdsBound t0 h0
  · intro t2 h2 wid2 hw2
    obtain ⟨t0, h0, he⟩ := List.mem_map.mp h2
    have : t2.workerInfo = t0.workerInfo := by
      subst he
      by_cases h3 : t0.taskId ∈ p.taskQueue
      · rw [if_pos h3, doneF_workerInfo]
      · rw [if_neg h3]
    rw [this] at hw2
    exact hInv.workerRefBound t0 h0 wid2 hw2
  · intro tid2 h2
    exact absurd h2 (List.not_mem_nil tid2)
  · intro t2 h2 hst2
    obtain ⟨t0, h0, he⟩ := List.mem_map.mp h2
    by_cases h3 : t0.taskId ∈ p.taskQueue
    · rw [if_pos h3] at he
      rw [← he, doneF_status] at hst2
      cases hst2
    · rw [if_neg h3] at he
      subst he
      exact absurd (hInv.queuedMem t0 h0 hst2) h3
  · intro w2 hw2 e he2
    obtain ⟨t0, h0, hid, hstr, hwi, hab, hpr⟩ := hInv.mapTasks w2 hw2 e he2
    have hne : t0.taskId ∉ p.taskQueue := by
      intro hk
      obtain ⟨t1, h1, hid1, hst1⟩ := hqtask t0.taskId hk
      have : t1 = t0 := task_eq_of_id hInv.taskIdsNodup h1 h0 hid1
      rw [this, hstr] at hst1
      cases hst1
    exact ⟨t0, List.mem_map.mpr ⟨t0, h0, if_neg hne⟩, hid, hstr, hwi, hab, hpr⟩
  · intro t2 h2 hst2
    obtain ⟨t0, h0, he⟩ := List.mem_map.mp h2
    by_cases h3 : t0.taskId ∈ p.taskQueue
    · rw [if_pos h3] at he
      rw [← he, doneF_status] at hst2
      cases hst2
    · rw [if_neg h3] at he
      subst he
      exact hInv.runningMem t0 h0 hst2
  · intro t2 h2
    obtain ⟨t0, h0, he⟩ := List.mem_map.mp h2
    by_cases h3 : t0.taskId ∈ p.taskQueue
    · rw [if_pos h3] at he
      obtain ⟨t1, h1, hid1, hst1⟩ := hqtask t0.taskId h3
      have ht10 : t1 = t0 := task_eq_of_id hInv.taskIdsNodup h1 h0 hid1
      have hc0 : t0.callbackCount = 0 := by
        refine (hInv.counts t0 h0).2 ?_
        rw [← ht10, hst1]
        intro h5
        cases h5
      constructor
      · intro _
        rw [← he, doneF_callbackCount, hc0]
      · intro h4
        rw [← he, doneF_status] at h4
        exact absurd rfl h4
    · rw [if_neg h3] at he
      subst he
      exact hInv.counts t0 h0
  · intro t2 h2 hst2
    obtain ⟨t0, h0, he⟩ := List.mem_map.mp h2
    by_cases h3 : t0.taskId ∈ p.taskQueue
    · rw [if_pos h3] at he
      rw [← he, doneF_status] at hst2
      cases hst2
    · rw [if_neg h3] at he
      subst he
      exact hInv.abortedInert t0 h0 hst2

/-- `destroy` preserves the invariant. -/
theorem inv_destroyPool (opts : FilledOptions) (ex : Option Nat)
    (p : ThreadPool) (hInv : PoolInv opts ex p) :
    PoolInv opts ex p.destroyPool := by
  unfold ThreadPool.destroyPool
  dsimp only
  rw [foldl_doneOn _ _ _ hInv.queueNodup]
  exact inv_foldl_removeWorker opts ex _ _ (inv_drainQueue opts ex p hInv)

/-- The startup fill preserves the invariant. -/
theorem inv_fillReadyGo (opts : FilledOptions) (ex : Option Nat) (n : Nat) :
    ∀ p : ThreadPool, PoolInv opts ex p →
      PoolInv opts ex (ThreadPool.fillReadyGo n p) := by
  induction n with
  | zero => intro p h; exact h
  | succ n ih => intro p h; exact ih _ (inv_addNewWorker opts ex p true h)

/-- The state right after the constructor satisfies the invariant. -/
theorem inv_initialPool (opts : FilledOptions) :
    PoolInv opts none (initialPool opts) := by
  unfold initialPool
  refine inv_fillReadyGo opts none _ _ ?_
  refine
    { optionsEq := rfl
      taskIdsNodup := by simp
      taskIdsBound := ?_
      widsNodup := by simp [ResourcePool.allItems]
      widsBound := ?_
      workerRefBound := ?_
      queueNodup := List.nodup_nil
      queueTasks := ?_
      queuedMem := ?_
      mapKeysNodup := ?_
      mapTasks := ?_
      runningMem := ?_
      counts := ?_
      abortedInert := ?_
      sizeBound := ?_ }
  · intro t ht
    exact absurd ht (List.not_mem_nil t)
  · intro w hw
    simp [ResourcePool.allItems] at hw
  · intro t ht
    exact absurd ht (List.not_mem_nil t)
  · intro tid htid
    exact absurd htid (List.not_mem_nil tid)
  · intro t ht
    exact absurd ht (List.not_mem_nil t)
  · intro w hw
    simp [ResourcePool.allItems] at hw
  · intro w hw
    simp [ResourcePool.allItems] at hw
  · intro t ht
    exact absurd ht (List.not_mem_nil t)
  · intro t ht
    exact absurd ht (List.not_mem_nil t)
  · intro t ht
    exact absurd ht (List.not_mem_nil t)
  · intro w hw
    simp [ResourcePool.allItems] at hw

/-- Every reachable state satisfies the inductive invariant (for option sets
with a positive per-worker concurrency, as the constructor guarantees). -/
theorem reachable_inv (opts : FilledOptions)
    (hc1 : 1 ≤ opts.concurrentTasksPerWorker) (p : ThreadPool)
    (h : Reachable opts p) : PoolInv opts none p := by
  induction h with
  | init => exact inv_initialPool opts
  | step e p2 hr henb ih =>
    cases e with
    | submit ab sOk => exact inv_runTask opts none p2 ab sOk hc1 ih
    | response wid tid ok sOk => exact inv_onResponse opts p2 wid tid ok sOk ih henb
    | workerReady wid sOk => exact inv_onWorkerReady opts p2 wid sOk ih henb
    | workerError wid => exact inv_onWorkerError opts none p2 wid ih henb
    | abortSignal tid => exact inv_onAbort opts p2 tid ih henb
    | idleTimeout wid => exact inv_onIdleTimeout opts none p2 wid ih
    | shutdown => exact inv_destroyPool opts none p2 ih

/-- Completion callbacks never touch the worker set, the queue, the
counters, the sticky flag or the error count. -/
theorem foldl_doneOn_pres (val : SettleVal) (es : List (Nat × Bool)) :
    ∀ q : ThreadPool,
      (es.foldl (fun acc e => acc.doneOn e.1 val) q).options = q.options ∧
      (es.foldl (fun acc e => acc.doneOn e.1 val) q).workers = q.workers ∧
      (es.foldl (fun acc e => acc.doneOn e.1 val) q).taskQueue = q.taskQueue ∧
      (es.foldl (fun acc e => acc.doneOn e.1 val) q).nextWorkerId =
        q.nextWorkerId ∧
      (es.foldl (fun acc e => acc.doneOn e.1 val) q).nextTaskId =
        q.nextTaskId ∧
      (es.foldl (fun acc e => acc.doneOn e.1 val) q).workerFailsDuringBootstrap =
        q.workerFailsDuringBootstrap ∧
      (es.foldl (fun acc e => acc.doneOn e.1 val) q).emittedErrors =
        q.emittedErrors := by
  induction es with
  | nil => intro q; exact ⟨rfl, rfl, rfl, rfl, rfl, rfl, rfl⟩
  | cons e rest ih => intro q; exact ih (q.doneOn e.1 val)

/-- `_removeWorker` touches neither the queue, the counters, the sticky
flag nor the error count. -/
theorem removeWorker_pres (q : ThreadPool) (wid : Nat) :
    (q.removeWorker wid).options = q.options ∧
    (q.removeWorker wid).taskQueue = q.taskQueue ∧
    (q.removeWorker wid).nextWorkerId = q.nextWorkerId ∧
    (q.removeWorker wid).nextTaskId = q.nextTaskId ∧
    (q.removeWorker wid).workerFailsDuringBootstrap =
      q.workerFailsDuringBootstrap ∧
    (q.removeWorker wid).emittedErrors = q.emittedErrors := by
  unfold ThreadPool.removeWorker
  rcases hfw : q.findWorker wid with _ | w
  · exact ⟨rfl, rfl, rfl, rfl, rfl, rfl⟩
  · obtain ⟨h1, _, h3, h4, h5, h6, h7⟩ :=
      foldl_doneOn_pres (.rejected .threadTermination) w.taskInfos q
    exact ⟨h1, h3, h4, h5, h6, h7⟩

/-- A settled promise survives a completion callback with its value. -/
theorem doneOn_promise (q : ThreadPool) (k : Nat) (val : SettleVal)
    (tid0 : Nat) (v : SettleVal)
    (h : ∃ t3 ∈ q.tasks, t3.taskId = tid0 ∧ t3.promise = some v) :
    ∃ t4 ∈ (q.doneOn k val).tasks, t4.taskId = tid0 ∧ t4.promise = some v := by
  obtain ⟨t3, h3, hid, hpr⟩ := h
  by_cases h4 : t3.taskId = k
  · refine ⟨doneF val t3, List.mem_map.mpr ⟨t3, h3, if_pos h4⟩, ?_, ?_⟩
    · rw [doneF_taskId]
      exact hid
    · show some (t3.promise.getD val) = some v
      rw [hpr]
      rfl
  · exact ⟨t3, List.mem_map.mpr ⟨t3, h3, if_neg h4⟩, hid, hpr⟩

/-- A settled promise survives any run of completion callbacks. -/
theorem foldl_doneOn_promise (val : SettleVal) (es : List (Nat × Bool)) :
    ∀ q : ThreadPool, ∀ tid0 : Nat, ∀ v : SettleVal,
      (∃ t3 ∈ q.tasks, t3.taskId = tid0 ∧ t3.promise = some v) →
      ∃ t4 ∈ (es.foldl (fun acc e => acc.doneOn e.1 val) q).tasks,
        t4.taskId = tid0 ∧ t4.promise = some v := by
  induction es with
  | nil => intro q tid0 v h; exact h
  | cons e rest ih =>
    intro q tid0 v h
    exact ih _ tid0 v (doneOn_promise q e.1 val tid0 v h)

/-- A settled promise survives `_removeWorker` with its value — the first
settlement wins over the termination error. -/
theorem removeWorker_promise (q : ThreadPool) (wid tid0 : Nat) (v : SettleVal)
    (h : ∃ t3 ∈ q.tasks, t3.taskId = tid0 ∧ t3.promise = some v) :
    ∃ t4 ∈ (q.removeWorker wid).tasks, t4.taskId = tid0 ∧ t4.promise = some v := by
  unfold ThreadPool.removeWorker
  rcases hfw : q.findWorker wid with _ | w
  · exact h
  · exact foldl_doneOn_promise (.rejected .threadTermination) w.taskInfos q
      tid0 v h

/-- `_ensureMinimumWorkers` keeps the sticky flag and the error count. -/
theorem ensureMin_pres2 (q : ThreadPool) :
    q.ensureMinimumWorkers.workerFailsDuringBootstrap =
      q.workerFailsDuringBootstrap ∧
    q.ensureMinimumWorkers.emittedErrors = q.emittedErrors := by
  show (ThreadPool.ensureMinGo (q.options.minThreads - q.workers.size)
      q).workerFailsDuringBootstrap = q.workerFailsDuringBootstrap ∧
    (ThreadPool.ensureMinGo (q.options.minThreads - q.workers.size)
      q).emittedErrors = q.emittedErrors
  obtain ⟨fresh, heq, _, _, _⟩ :=
    ensureMinGo_spec (q.options.minThreads - q.workers.size) q
  rw [heq]
  exact ⟨rfl, rfl⟩

/-- **C1** (amended).  In every reachable state, the completion callback has
run at most once per descriptor; it has run exactly once iff the descriptor
completed through `TaskInfo.done` (success, remote error, thread
termination, or abort of a dispatched task); for a task aborted while still
queued the callback has run zero times — the promise is rejected with the
abort error directly, without the completion callback.  (The original
claim, that the callback runs exactly once for every submission including
abort of a queued task, is refuted by `C1_counterexample`.) -/
theorem C1_callback_count (opts : FilledOptions)
    (hc1 : 1 ≤ opts.concurrentTasksPerWorker) (p : ThreadPool)
    (hr : Reachable opts p) :
    ∀ t ∈ p.tasks,
      t.callbackCount ≤ 1 ∧
      (t.status = .doneCb ↔ t.callbackCount = 1) ∧
      (t.status = .abortedFromQueue →
        t.callbackCount = 0 ∧ t.promise = some (.rejected .abortError)) := by
  intro t ht
  have hInv := reachable_inv opts hc1 p hr
  have hc := hInv.counts t ht
  refine ⟨?_, ⟨fun h => hc.1 h, fun h => ?_⟩, fun h => ⟨?_, ?_⟩⟩
  · by_cases h2 : t.status = .doneCb
    · rw [hc.1 h2]
    · rw [hc.2 h2]
      exact Nat.zero_le 1
  · by_contra h2
    have h3 := hc.2 h2
    rw [h3] at h
    exact absurd h (by decide)
  · refine hc.2 ?_
    rw [h]
    intro h3
    cases h3
  · exact hInv.abortedInert t ht h

/-- **C1 counterexample.**  A concrete enabled trace (a plain submission,
then an abortable submission that queues behind it, then the abort signal)
reaches a state holding a descriptor whose promise is settled — rejected
with the abort error — while its completion callback ran zero times: the
callback does not fire for a task aborted from the queue. -/
theorem C1_counterexample :
    eventsEnabled (initialPool ⟨1, 1, ⊤, 1⟩)
      [.submit false true, .submit true true, .abortSignal 1] = true ∧
    ∃ t ∈ (applyEvents (initialPool ⟨1, 1, ⊤, 1⟩)
        [.submit false true, .submit true true, .abortSignal 1]).tasks,
      t.status = .abortedFromQueue ∧
      t.promise = some (.rejected .abortError) ∧
      t.callbackCount = 0 := by
  decide

/-- Witness for C1 at a concrete reachable state and descriptor. -/
theorem C1_witness :
    (⟨0, false, some 0, 1, some .resolved, false,
        .doneCb⟩ : TaskInfo).callbackCount ≤ 1 ∧
    ((⟨0, false, some 0, 1, some .resolved, false,
        .doneCb⟩ : TaskInfo).status = .doneCb ↔
      (⟨0, false, some 0, 1, some .resolved, false,
        .doneCb⟩ : TaskInfo).callbackCount = 1) ∧
    ((⟨0, false, some 0, 1, some .resolved, false,
        .doneCb⟩ : TaskInfo).status = .abortedFromQueue →
      (⟨0, false, some 0, 1, some .resolved, false,
        .doneCb⟩ : TaskInfo).callbackCount = 0 ∧
      (⟨0, false, some 0, 1, some .resolved, false,
        .doneCb⟩ : TaskInfo).promise = some (.rejected .abortError)) := by
  have h0 : Reachable ⟨1, 1, ⊤, 1⟩ (initialPool ⟨1, 1, ⊤, 1⟩) := .init
  have h1 := Reachable.step (.submit false true) _ h0 (by decide)
  have h2 := Reachable.step (.response 0 0 true true) _ h1 (by decide)
  exact C1_callback_count ⟨1, 1, ⊤, 1⟩ (by decide) _ h2
    ⟨0, false, some 0, 1, some .resolved, false, .doneCb⟩ (by decide)

/-- **C2** (amended).  In every reachable state, every worker's task map
holds at most `concurrentTasksPerWorker` entries.  (The original claim's
second half — a worker holding an abortable descriptor holds exactly one
descriptor — is refuted by `C2_counterexample`: `_onWorkerAvailable`
dispatches a queued abortable task to a worker that is already running a
task whenever its usage is below the limit.) -/
theorem C2_task_map_bounded (opts : FilledOptions)
    (hc1 : 1 ≤ opts.concurrentTasksPerWorker) (p : ThreadPool)
    (hr : Reachable opts p) :
    ∀ w ∈ p.workers.allItems,
      w.taskInfos.length ≤ opts.concurrentTasksPerWorker :=
  fun w hw => (reachable_inv opts hc1 p hr).sizeBound w hw

/-- **C2 counterexample.**  With `concurrentTasksPerWorker = 2`, a concrete
enabled trace (two plain submissions, an abortable submission that queues,
then the first response — whose `maybeAvailable` dispatches the queued
abortable task) reaches a state whose single worker's task map holds an
abortable entry yet has two entries, refuting abortable exclusivity. -/
theorem C2_counterexample :
    eventsEnabled (initialPool ⟨1, 1, ⊤, 2⟩)
      [.submit false true, .submit false true, .submit true true,
        .response 0 0 true true] = true ∧
    ∃ w ∈ (applyEvents (initialPool ⟨1, 1, ⊤, 2⟩)
        [.submit false true, .submit false true, .submit true true,
          .response 0 0 true true]).workers.allItems,
      (∃ e ∈ w.taskInfos, e.2 = true) ∧ w.taskInfos.length ≠ 1 := by
  decide

/-- Witness for C2 at a concrete reachable state and worker. -/
theorem C2_witness :
    (⟨0, [(0, false)], true, false, true, 1, 1⟩ :
      WorkerInfo).taskInfos.length ≤ 1 := by
  have h0 : Reachable ⟨1, 1, ⊤, 1⟩ (initialPool ⟨1, 1, ⊤, 1⟩) := .init
  have h1 := Reachable.step (.submit false true) _ h0 (by decide)
  exact C2_task_map_bounded ⟨1, 1, ⊤, 1⟩ (by decide) _ h1
    ⟨0, [(0, false)], true, false, true, 1, 1⟩ (by decide)


/-- **C4.**  When an abort signal fires on a submitted task (in a reachable
state, with the listener's lookup succeeding): (i) if the promise is still
unsettled it ends rejected with the abort error — the `reject()` runs
before the worker tear-down, whose termination error loses the settlement
race; (ii) if the descriptor has an owning worker, no worker with that id
remains and the pool is replenished to at least `minThreads`; (iii) if not
dispatched, the descriptor's id is spliced out of the queue by identity,
keeping the relative order of the remaining queued ids. -/
theorem C4_abort_semantics (opts : FilledOptions)
    (hc1 : 1 ≤ opts.concurrentTasksPerWorker) (p : ThreadPool)
    (hr : Reachable opts p) (tid : Nat) (t : TaskInfo)
    (hft : p.findTask tid = some t)
    (henb : enabled (.abortSignal tid) p = true) :
    (t.promise = none →
      ∃ t' ∈ (p.onAbort tid).tasks, t'.taskId = tid ∧
        t'.promise = some (.rejected .abortError)) ∧
    (∀ wid, t.workerInfo = some wid →
      (∀ w ∈ (p.onAbort tid).workers.allItems, w.wid ≠ wid) ∧
      opts.minThreads ≤ (p.onAbort tid).workers.size) ∧
    (t.workerInfo = none →
      ∃ l1 l2, p.taskQueue = l1 ++ tid :: l2 ∧
        (p.onAbort tid).taskQueue = l1 ++ l2) := by
  have hInv := reachable_inv opts hc1 p hr
  obtain ⟨ht, htid⟩ := findTask_mem p tid t hft
  simp only [enabled] at henb
  rw [hft] at henb
  simp only [Option.elim, Bool.and_eq_true, Bool.or_eq_true] at henb
  unfold ThreadPool.onAbort
  rw [hft]
  dsimp only
  refine ⟨?_, ?_, ?_⟩
  · -- (i) the abort error wins the settlement race
    intro hpr
    rcases hwi : t.workerInfo with _ | wid
    · -- queued: the final status tag keeps the settled promise
      dsimp only
      refine ⟨{ (settlePromise (.rejected .abortError)
          { t with abortFired := true }) with status := .abortedFromQueue },
        ?_, htid, ?_⟩
      · refine List.mem_map.mpr ⟨if t.taskId = tid then
          settlePromise (.rejected .abortError) { t with abortFired := true }
        else t, List.mem_map.mpr ⟨t, ht, rfl⟩, ?_⟩
        rw [if_pos htid]
        have h7 : (settlePromise (.rejected .abortError)
            { t with abortFired := true }).taskId = tid := htid
        show (if (settlePromise (.rejected .abortError)
            { t with abortFired := true }).taskId = tid then _ else _) = _
        rw [if_pos h7]
      · show some (t.promise.getD _) = _
        rw [hpr]
        rfl
    · -- dispatched: settle first, then tear down; the settlement survives
      dsimp only
      have hm1 : ∃ t3 ∈ (updateTask tid
          (fun t2 => settlePromise (.rejected .abortError)
            { t2 with abortFired := true }) p).tasks,
          t3.taskId = tid ∧ t3.promise = some (.rejected .abortError) := by
        refine ⟨settlePromise (.rejected .abortError)
          { t with abortFired := true },
          List.mem_map.mpr ⟨t, ht, if_pos htid⟩, htid, ?_⟩
        show some (t.promise.getD _) = _
        rw [hpr]
        rfl
      have hm2 := removeWorker_promise _ wid tid (.rejected .abortError) hm1
      rw [(ensureMin_pres _).1]
      exact hm2
  · -- (ii) the owning worker is destroyed and the pool replenished
    intro wid2 hwi2
    rcases hwi : t.workerInfo with _ | wid
    · rw [hwi] at hwi2
      cases hwi2
    · rw [hwi] at hwi2
      injection hwi2 with h5
      subst h5
      dsimp only
      have hnow : ∀ w ∈ ((updateTask tid
          (fun t2 => settlePromise (.rejected .abortError)
            { t2 with abortFired := true }) p).removeWorker
            wid).workers.allItems, w.wid ≠ wid := by
        rcases hfw1 : (updateTask tid
            (fun t2 => settlePromise (.rejected .abortError)
              { t2 with abortFired := true }) p).findWorker wid with _ | w0
        · unfold ThreadPool.removeWorker
          rw [hfw1]
          exact findWorker_eq_none _ wid hfw1
        · have hw0 := findWorker_mem _ wid w0 hfw1
          rw [removeWorker_spec _ wid w0 hfw1 (hInv.mapKeysNodup w0 hw0.1)]
          intro w hw
          have hw' : w ∈ ((updateTask tid
              (fun t2 => settlePromise (.rejected .abortError)
                { t2 with abortFired := true })
              p).workers.removeItem wid).allItems := hw
          rw [allItems_removeItem] at hw'
          have h6 := List.mem_filter.mp hw'
          simpa using h6.2
      have hQnw : (((updateTask tid
          (fun t2 => settlePromise (.rejected .abortError)
            { t2 with abortFired := true }) p).removeWorker
            wid)).nextWorkerId = p.nextWorkerId :=
        (removeWorker_pres _ _).2.2.1
      have hwid_lt : wid < p.nextWorkerId := hInv.workerRefBound t ht wid hwi
      have ho : (((updateTask tid
          (fun t2 => settlePromise (.rejected .abortError)
            { t2 with abortFired := true }) p).removeWorker
            wid)).options = opts := by
        rw [(removeWorker_pres _ _).1]
        exact hInv.optionsEq
      constructor
      · obtain ⟨fresh, heq, hlen, hprops, hnd⟩ := ensureMinGo_spec
          ((((updateTask tid
            (fun t2 => settlePromise (.rejected .abortError)
              { t2 with abortFired := true }) p).removeWorker
              wid)).options.minThreads -
            (((updateTask tid
              (fun t2 => settlePromise (.rejected .abortError)
                { t2 with abortFired := true }) p).removeWorker
                wid)).workers.size)
          ((updateTask tid
            (fun t2 => settlePromise (.rejected .abortError)
              { t2 with abortFired := true }) p).removeWorker wid)
        show ∀ w ∈ (ThreadPool.ensureMinGo _ _).workers.allItems, w.wid ≠ wid
        rw [heq]
        intro w hw
        have hw' : w ∈ ((((updateTask tid
            (fun t2 => settlePromise (.rejected .abortError)
              { t2 with abortFired := true }) p).removeWorker
              wid)).workers.pendingItems ++ fresh) ++
            (((updateTask tid
              (fun t2 => settlePromise (.rejected .abortError)
                { t2 with abortFired := true }) p).removeWorker
                wid)).workers.readyItems := hw
        rcases List.mem_append.mp hw' with h7 | h7
        · rcases List.mem_append.mp h7 with h8 | h8
          · exact hnow w (List.mem_append_left _ h8)
          · obtain ⟨_, _, _, h9, _⟩ := hprops w h8
            rw [hQnw] at h9
            omega
        · exact hnow w (List.mem_append_right _ h7)
      · rw [ensureMinimumWorkers_size, ho]
        exact le_max_right _ _
  · -- (iii) queue splice by identity
    intro hwi2
    rw [hwi2] at henb ⊢
    dsimp only
    have hmemq : tid ∈ p.taskQueue := by
      have h4 := henb.2
      simpa using h4
    obtain ⟨l1, l2, hdec⟩ := List.append_of_mem hmemq
    have hnd := hInv.queueNodup
    rw [hdec] at hnd
    have hnl1 : tid ∉ l1 := by
      obtain ⟨_, _, hdisj⟩ := List.nodup_append.mp hnd
      exact fun h5 => hdisj h5 (List.mem_cons_self tid l2)
    refine ⟨l1, l2, hdec, ?_⟩
    show p.taskQueue.erase tid = l1 ++ l2
    rw [hdec, List.erase_append_right _ hnl1, List.erase_cons_head]

/-- Replenishing spawns only fresh ids: a wid absent before
`_ensureMinimumWorkers` and below the id counter stays absent. -/
theorem ensureMin_no_wid (q : ThreadPool) (wid : Nat)
    (hA : ∀ w' ∈ q.workers.allItems, w'.wid ≠ wid)
    (hlt : wid < q.nextWorkerId) :
    ∀ w' ∈ q.ensureMinimumWorkers.workers.allItems, w'.wid ≠ wid := by
  obtain ⟨fresh, heq, hlen, hprops, hnd⟩ :=
    ensureMinGo_spec (q.options.minThreads - q.workers.size) q
  show ∀ w' ∈ (ThreadPool.ensureMinGo _ _).workers.allItems, w'.wid ≠ wid
  rw [heq]
  intro w' hw'
  have hw2 : w' ∈ (q.workers.pendingItems ++ fresh) ++ q.workers.readyItems :=
    hw'
  rcases List.mem_append.mp hw2 with h7 | h7
  · rcases List.mem_append.mp h7 with h8 | h8
    · exact hA w' (List.mem_append_left _ h8)
    · obtain ⟨_, _, _, h9, _⟩ := hprops w' h8
      omega
  · exact hA w' (List.mem_append_right _ h7)

/-- **C8.**  When a worker emits an error (in a reachable state, with the
handler's lookup succeeding): the handle is removed from the pool (and
replacements carry fresh ids); if it had reached ready with the sticky
bootstrap-failure flag unset, the pool is replenished to `minThreads`,
otherwise the sticky flag is set; every snapshotted descriptor of its task
map completes — callback run once, promise rejected with the worker
error; and an empty snapshot instead emits the error on the public
interface. -/
theorem C8_worker_error (opts : FilledOptions)
    (hc1 : 1 ≤ opts.concurrentTasksPerWorker) (p : ThreadPool)
    (hr : Reachable opts p) (wid : Nat) (w : WorkerInfo)
    (hfw : p.findWorker wid = some w) :
    (∀ w' ∈ (p.onWorkerError wid).workers.allItems, w'.wid ≠ wid) ∧
    (w.ready = true ∧ p.workerFailsDuringBootstrap = false →
      opts.minThreads ≤ (p.onWorkerError wid).workers.size) ∧
    (¬(w.ready = true ∧ p.workerFailsDuringBootstrap = false) →
      (p.onWorkerError wid).workerFailsDuringBootstrap = true) ∧
    (∀ e ∈ w.taskInfos, ∃ t' ∈ (p.onWorkerError wid).tasks,
      t'.taskId = e.1 ∧ t'.status = .doneCb ∧ t'.callbackCount = 1 ∧
      t'.promise = some (.rejected .workerError)) ∧
    (w.taskInfos = [] →
      (p.onWorkerError wid).emittedErrors = p.emittedErrors + 1) := by
  have hInv := reachable_inv opts hc1 p hr
  obtain ⟨hwmem, hwwid⟩ := findWorker_mem p wid w hfw
  have hnd := hInv.mapKeysNodup w hwmem
  have hwid_lt : wid < p.nextWorkerId := hwwid ▸ hInv.widsBound w hwmem
  have hfw1 : (updateWorker wid (fun w2 => { w2 with taskInfos := [] })
      p).findWorker wid = some { w with taskInfos := [] } :=
    findWorker_updateWorker p wid (fun w2 => { w2 with taskInfos := [] })
      (fun _ => rfl) w hfw hwwid
  have hspec := removeWorker_spec
    (updateWorker wid (fun w2 => { w2 with taskInfos := [] }) p) wid
    { w with taskInfos := [] } hfw1 (by simp)
  have hp2t : ((updateWorker wid (fun w2 => { w2 with taskInfos := [] })
      p).removeWorker wid).tasks = p.tasks := by
    rw [hspec]
    simp
    rfl
  have hp2w : ((updateWorker wid (fun w2 => { w2 with taskInfos := [] })
      p).removeWorker wid).workers = p.workers.removeItem wid := by
    rw [hspec]
    show (p.workers.updateItem wid _).removeItem wid = p.workers.removeItem wid
    exact removeItem_updateItem p.workers wid _ (fun _ => rfl)
  have hp2nw : ((updateWorker wid (fun w2 => { w2 with taskInfos := [] })
      p).removeWorker wid).nextWorkerId = p.nextWorkerId := by
    rw [hspec]
    rfl
  have hp2o : ((updateWorker wid (fun w2 => { w2 with taskInfos := [] })
      p).removeWorker wid).options = p.options := by
    rw [hspec]
    rfl
  have hp2em : ((updateWorker wid (fun w2 => { w2 with taskInfos := [] })
      p).removeWorker wid).emittedErrors = p.emittedErrors := by
    rw [hspec]
    rfl
  have ho : ((updateWorker wid (fun w2 => { w2 with taskInfos := [] })
      p).removeWorker wid).options = opts := by
    rw [hp2o]
    exact hInv.optionsEq
  have hnoW2 : ∀ w' ∈ ((updateWorker wid
      (fun w2 => { w2 with taskInfos := [] })
      p).removeWorker wid).workers.allItems, w'.wid ≠ wid := by
    intro w' hw'
    have hw2 : w' ∈ (p.workers.removeItem wid).allItems := hp2w ▸ hw'
    rw [allItems_removeItem] at hw2
    have h6 := List.mem_filter.mp hw2
    simpa using h6.2
  have hnoWE : ∀ w' ∈ (((updateWorker wid
      (fun w2 => { w2 with taskInfos := [] })
      p).removeWorker wid).ensureMinimumWorkers).workers.allItems,
      w'.wid ≠ wid :=
    ensureMin_no_wid _ wid hnoW2 (by rw [hp2nw]; exact hwid_lt)
  have hsize : opts.minThreads ≤ (((updateWorker wid
      (fun w2 => { w2 with taskInfos := [] })
      p).removeWorker wid).ensureMinimumWorkers).workers.size := by
    rw [ensureMinimumWorkers_size, ho]
    exact le_max_right _ _
  have hemE : (((updateWorker wid (fun w2 => { w2 with taskInfos := [] })
      p).removeWorker wid).ensureMinimumWorkers).emittedErrors =
      p.emittedErrors := by
    rw [(ensureMin_pres2 _).2, hp2em]
  have htasksE : (((updateWorker wid (fun w2 => { w2 with taskInfos := [] })
      p).removeWorker wid).ensureMinimumWorkers).tasks = p.tasks := by
    rw [(ensureMin_pres _).1, hp2t]
  have hsnap : ∀ e ∈ w.taskInfos, ∃ t' ∈ p.tasks.map (fun t =>
      if t.taskId ∈ w.taskInfos.map Prod.fst then
        doneF (.rejected .workerError) t else t),
      t'.taskId = e.1 ∧ t'.status = .doneCb ∧ t'.callbackCount = 1 ∧
      t'.promise = some (.rejected .workerError) := by
    intro e he
    obtain ⟨t0, h0, hid, hstr, _, _, hpr⟩ := hInv.mapTasks w hwmem e he
    have hkey : t0.taskId ∈ w.taskInfos.map Prod.fst := by
      rw [hid]
      exact List.mem_map_of_mem Prod.fst he
    refine ⟨doneF (.rejected .workerError) t0,
      List.mem_map.mpr ⟨t0, h0, if_pos hkey⟩, ?_, doneF_status _ _, ?_, ?_⟩
    · rw [doneF_taskId]
      exact hid
    · rw [doneF_callbackCount]
      have hc0 : t0.callbackCount = 0 := by
        refine (hInv.counts t0 h0).2 ?_
        rw [hstr]
        intro h5
        cases h5
      rw [hc0]
    · show some (t0.promise.getD _) = _
      rw [hpr]
      rfl
  unfold ThreadPool.onWorkerError
  rw [hfw]
  dsimp only
  split
  · rename_i hlen
    rw [foldl_doneOn_entries, foldl_doneOn _ _ _ hnd]
    split
    · rename_i hrdy
      dsimp only
      rw [htasksE]
      refine ⟨hnoWE, fun _ => hsize, fun hcond2 => absurd hrdy hcond2,
        hsnap, fun hempty => ?_⟩
      rw [hempty] at hlen
      exact absurd hlen (by simp)
    · rename_i hrdy
      dsimp only
      rw [hp2t]
      refine ⟨hnoW2, fun hcond => absurd hcond hrdy, fun _ => rfl,
        hsnap, fun hempty => ?_⟩
      rw [hempty] at hlen
      exact absurd hlen (by simp)
  · rename_i hlen
    have hnil : w.taskInfos = [] := by
      rcases hti : w.taskInfos with _ | ⟨e, rest⟩
      · rfl
      · rw [hti] at hlen
        exact absurd (by simp) hlen
    split
    · rename_i hrdy
      dsimp only
      refine ⟨hnoWE, fun _ => hsize, fun hcond2 => absurd hrdy hcond2,
        fun e he => ?_, fun _ => ?_⟩
      · rw [hnil] at he
        exact absurd he (List.not_mem_nil e)
      · rw [hemE]
    · rename_i hrdy
      dsimp only
      refine ⟨hnoW2, fun hcond => absurd hcond hrdy, fun _ => rfl,
        fun e he => ?_, fun _ => ?_⟩
      · rw [hnil] at he
        exact absurd he (List.not_mem_nil e)
      · rw [hp2em]

/-- Witness for C4 at a concrete reachable state: an abortable task
dispatched to the only worker, then aborted. -/
theorem C4_witness :
    (∀ w ∈ ((applyEvents (initialPool ⟨1, 1, ⊤, 1⟩)
        [.submit true true]).onAbort 0).workers.allItems, w.wid ≠ 0) ∧
    (1 : Nat) ≤ ((applyEvents (initialPool ⟨1, 1, ⊤, 1⟩)
      [.submit true true]).onAbort 0).workers.size ∧
    ∃ t' ∈ ((applyEvents (initialPool ⟨1, 1, ⊤, 1⟩)
        [.submit true true]).onAbort 0).tasks,
      t'.taskId = 0 ∧ t'.promise = some (.rejected .abortError) := by
  have h0 : Reachable ⟨1, 1, ⊤, 1⟩ (initialPool ⟨1, 1, ⊤, 1⟩) := .init
  have h1 := Reachable.step (.submit true true) _ h0 (by decide)
  have h := C4_abort_semantics ⟨1, 1, ⊤, 1⟩ (by decide) _ h1 0
    ⟨0, true, some 0, 0, none, false, .running⟩ (by decide) (by decide)
  exact ⟨(h.2.1 0 rfl).1, (h.2.1 0 rfl).2, h.1 rfl⟩

/-- Witness for C8 at a concrete reachable state: the only worker fails
while running a task. -/
theorem C8_witness :
    (∀ w' ∈ ((applyEvents (initialPool ⟨1, 1, ⊤, 1⟩)
        [.submit false true]).onWorkerError 0).workers.allItems,
      w'.wid ≠ 0) ∧
    ∃ t' ∈ ((applyEvents (initialPool ⟨1, 1, ⊤, 1⟩)
        [.submit false true]).onWorkerError 0).tasks,
      t'.taskId = 0 ∧ t'.status = .doneCb ∧ t'.callbackCount = 1 ∧
      t'.promise = some (.rejected .workerError) := by
  have h0 : Reachable ⟨1, 1, ⊤, 1⟩ (initialPool ⟨1, 1, ⊤, 1⟩) := .init
  have h1 := Reachable.step (.submit false true) _ h0 (by decide)
  have h := C8_worker_error ⟨1, 1, ⊤, 1⟩ (by decide) _ h1 0
    ⟨0, [(0, false)], true, false, true, 1, 1⟩ (by decide)
  exact ⟨h.1, h.2.2.2.1 (0, false) (by decide)⟩
